import Mathlib

/-!
# Experiment controller: reconciliation, namespace allocation and trial TTL

A shallow embedding of `pkg/controller/experiment/experiment_controller.go`
(the reconciler, `addFinalizer`, `syncWithServer`, `populateTrialFromTemplate`,
`findAvailableNamespace`) and of `pkg/controller/experiment/helpers.go`
(`PopulateTrialFromTemplate`, `FindAvailableNamespace`, `NeedsCleanup`,
`isFinishTimeCondition`).

Conventions of the embedding.
* Pointers are `Option`; a Go `map[string]string` is an association list and a
  nil map is `none`.
* Every call on a collaborator (cluster client, remote API) is recorded, in
  program order, in the `trace` of the outcome; the answers of the collaborators
  are the fields of `Env`.
* A `time.Time` is the number of nanoseconds elapsed since the zero instant of
  `time.Time`, so that `IsZero` is `= 0` and `Before` is `<`.
-/

namespace Redsky

/-! ## Part 1. Data model -/

/-- A Go `map[string]string`; `none` is the nil map. -/
abbrev StringMap := Option (List (String × String))

/-- Instants (`time.Time`, `metav1.Time`), counted from the zero instant. -/
abbrev Time := Nat

/-- A `time.Duration`, in nanoseconds. -/
abbrev Duration := Int

/-- Nanoseconds in `time.Second`. -/
def second : Int := 1000000000

/-- The constant `annotationExperimentURL`. -/
def annotationExperimentURL : String := "cordelia.carbonrelay.com/experiment-url"

/-- The constant `annotationNextTrialURL`. -/
def annotationNextTrialURL : String := "cordelia.carbonrelay.com/next-trial-url"

/-- The constant `annotationReportTrialURL`. -/
def annotationReportTrialURL : String := "cordelia.carbonrelay.com/report-trial-url"

/-- The constant `finalizer` of the controller. -/
def finalizer : String := "finalizer.cordelia.carbonrelay.com"

/-- The constant `ExperimentFinalizer` of `helpers.go`. -/
def ExperimentFinalizer : String := "experimentFinalizer.redskyops.dev"

/-- Reading `m[k]`: the empty string when the key is missing or the map is nil. -/
def mapGet (m : StringMap) (k : String) : String :=
  match m with
  | none => ""
  | some l =>
    match l.find? (fun p => p.1 == k) with
    | some p => p.2
    | none => ""

/-- Whether the key is present in the map. -/
def mapHas (m : StringMap) (k : String) : Bool :=
  match m with
  | none => false
  | some l => l.any (fun p => p.1 == k)

/-- The builtin `delete(m, k)`; a no-op on the nil map. -/
def mapDelete (m : StringMap) (k : String) : StringMap :=
  match m with
  | none => none
  | some l => some (l.filter (fun p => !(p.1 == k)))

/-- The assignment `m[k] = v` on a non-nil map, on the underlying entries. -/
def entriesSet (l : List (String × String)) (k v : String) : List (String × String) :=
  if l.any (fun p => p.1 == k) then
    l.map (fun p => if p.1 == k then (k, v) else p)
  else
    l ++ [(k, v)]

/-- The builtin `len(m)`. -/
def mapLen (m : StringMap) : Nat :=
  match m with
  | none => 0
  | some l => l.length

/-- The values of `corev1.ConditionStatus`. -/
inductive ConditionStatus where
  | ConditionTrue
  | ConditionFalse
  | ConditionUnknown
  deriving DecidableEq, Repr

/-- The values of `TrialConditionType` that the controller distinguishes; every
other type is `Other`. -/
inductive TrialConditionType where
  | TrialComplete
  | TrialFailed
  | TrialSetupDeleted
  | Other (name : String)
  deriving DecidableEq, Repr

/-- A `TrialCondition`. -/
structure TrialCondition where
  type : TrialConditionType
  status : ConditionStatus
  lastTransitionTime : Time
  deriving DecidableEq, Repr

/-- An `Assignment` of a trial: parameter name and integer value. -/
structure Assignment where
  name : String
  value : Int
  deriving DecidableEq, Repr

/-- A `Value` of a trial: metric name and the reported value, as text. -/
structure Value where
  name : String
  value : String
  deriving DecidableEq, Repr

/-- A `corev1.ObjectReference` (the fields that identify the object). -/
structure ObjectReference where
  kind : String
  name : String
  namespace_ : String
  deriving DecidableEq, Repr

/-- A `metav1.LabelSelector`, kept as its `matchLabels`. -/
structure LabelSelector where
  matchLabels : List (String × String)
  deriving DecidableEq, Repr

/-- The creation timestamps of the job template of a trial and of the pod
template inside it. -/
structure JobTemplateSpec where
  creationTimestamp : Time
  podCreationTimestamp : Time
  deriving DecidableEq, Repr

/-- A `Trial`: object metadata, spec and status. -/
structure Trial where
  name : String
  generateName : String
  namespace_ : String
  labels : StringMap
  annotations : StringMap
  finalizers : List String
  ownerReferences : List ObjectReference
  deletionTimestamp : Option Time
  experimentRef : Option ObjectReference
  targetNamespace : String
  assignments : List Assignment
  values : List Value
  jobTemplate : Option JobTemplateSpec
  ttlSecondsAfterFinished : Option Int
  ttlSecondsAfterFailure : Option Int
  conditions : List TrialCondition
  deriving DecidableEq, Repr

/-- The `TrialTemplateSpec` of an experiment: metadata and spec of the trials. -/
structure TrialTemplateSpec where
  name : String
  generateName : String
  namespace_ : String
  labels : StringMap
  annotations : StringMap
  finalizers : List String
  ownerReferences : List ObjectReference
  experimentRef : Option ObjectReference
  targetNamespace : String
  assignments : List Assignment
  values : List Value
  jobTemplate : Option JobTemplateSpec
  ttlSecondsAfterFinished : Option Int
  ttlSecondsAfterFailure : Option Int
  deriving DecidableEq, Repr

/-- A `Parameter` of an experiment. -/
structure Parameter where
  name : String
  min : Int
  max : Int
  deriving DecidableEq, Repr

/-- A `Metric` of an experiment. -/
structure Metric where
  name : String
  minimize : Bool
  deriving DecidableEq, Repr

/-- An `Experiment`: object metadata, spec and status. -/
structure Experiment where
  name : String
  namespace_ : String
  annotations : StringMap
  finalizers : List String
  deletionTimestamp : Option Time
  replicas : Option Int
  parallelism : Option Int
  parameters : List Parameter
  metrics : List Metric
  namespaceSelector : Option LabelSelector
  selector : Option LabelSelector
  template : TrialTemplateSpec
  activeTrials : Int
  deriving DecidableEq, Repr

/-- Modelled from the spec: `Experiment.GetReplicas` is declared with the API
types, outside the controller package: the desired replica count, explicit or
defaulted; an experiment without an explicit count is a single-replica one. -/
def GetReplicas (experiment : Experiment) : Int :=
  match experiment.replicas with
  | some r => r
  | none => 1

/-- Modelled from the spec: `Experiment.SetReplicas` is declared with the API
types, outside the controller package: it records an explicit replica count,
which is never negative. -/
def SetReplicas (experiment : Experiment) (r : Int) : Experiment :=
  { experiment with replicas := some (if r < 0 then 0 else r) }

/-- The test `metav1.Time.IsZero` on a `*metav1.Time`: nil or the zero instant. -/
def timeIsZero (t : Option Time) : Bool :=
  match t with
  | none => true
  | some v => v == 0

/-! ## Part 2. Trial lifecycle classifier -/

/-- The function `isFinishTimeCondition` of `helpers.go`. -/
def isFinishTimeCondition (c : TrialCondition) : Bool :=
  match c.type with
  | .TrialComplete => c.status == .ConditionTrue
  | .TrialFailed => c.status == .ConditionTrue
  | .TrialSetupDeleted => c.status == .ConditionTrue
  | .Other _ => false

/-- Modelled from the spec: `IsTrialActive` belongs to the trial controller
package, which is not part of these sources: a trial is active unless a
completion, failure, or setup-deleted condition is true. -/
def IsTrialActive (t : Trial) : Bool :=
  !(t.conditions.any (fun c =>
      (c.type == .TrialComplete || c.type == .TrialFailed || c.type == .TrialSetupDeleted)
        && c.status == .ConditionTrue))

/-- Modelled from the spec: `IsTrialFinished` belongs to the trial controller
package, which is not part of these sources: a trial is eligible for retirement
once a completion, failure, or setup-deleted condition is true. -/
def IsTrialFinished (t : Trial) : Bool :=
  t.conditions.any (fun c =>
      (c.type == .TrialComplete || c.type == .TrialFailed || c.type == .TrialSetupDeleted)
        && c.status == .ConditionTrue)

/-- One iteration of the loop of `NeedsCleanup` over the status conditions; the
state is the pair of `finishTime` and `ttlSeconds`. -/
def cleanupStep (ttlSecondsAfterFailure : Option Int) (st : Time × Option Int)
    (c : TrialCondition) : Time × Option Int :=
  if isFinishTimeCondition c then
    let ttlSeconds :=
      if c.type = .TrialFailed ∧ ttlSecondsAfterFailure ≠ none then ttlSecondsAfterFailure
      else st.2
    let finishTime := if st.1 < c.lastTransitionTime then c.lastTransitionTime else st.1
    (finishTime, ttlSeconds)
  else st

/-- The loop of `NeedsCleanup`: effective finish time and TTL. -/
def cleanupScan (t : Trial) : Time × Option Int :=
  t.conditions.foldl (cleanupStep t.ttlSecondsAfterFailure) (0, t.ttlSecondsAfterFinished)

/-- The function `NeedsCleanup` of `helpers.go`; `now` is the value of
`time.Now()` when it is called. -/
def NeedsCleanup (now : Time) (t : Trial) : Bool :=
  if !timeIsZero t.deletionTimestamp || IsTrialActive t then false
  else
    let st := cleanupScan t
    match st.2 with
    | none => false
    | some ttlSeconds =>
      if st.1 == 0 || ttlSeconds < 0 then false
      else
        let ttl : Duration := ttlSeconds * second
        decide ((st.1 : Int) + ttl < (now : Int))


/-! ## Part 3. Errors and API types of the collaborators -/

/-- The `Type` of a remote API error. -/
inductive ErrorType where
  | ErrExperimentStopped
  | ErrTrialUnavailable
  | Other (name : String)
  deriving DecidableEq, Repr

/-- An `error` value: a cluster "not found" error (`errors.IsNotFound`), a remote
API error (`*cordeliaapi.Error`, with its type and retry delay), or any other. -/
inductive Error where
  | NotFound (message : String)
  | Api (type : ErrorType) (retryAfter : Duration)
  | Generic (message : String)
  deriving DecidableEq, Repr

/-- The test `errors.IsNotFound`. -/
def IsNotFound (err : Error) : Bool :=
  match err with
  | .NotFound _ => true
  | _ => false

/-- A 64-bit floating point number, as its bit pattern. -/
structure Float64 where
  bits : Nat
  deriving DecidableEq, Repr

/-- A `Parameter` of the remote API: an integer parameter with its bounds. -/
structure ApiParameter where
  name : String
  min : Int
  max : Int
  deriving DecidableEq, Repr

/-- A `Metric` of the remote API. -/
structure ApiMetric where
  name : String
  minimize : Bool
  deriving DecidableEq, Repr

/-- An `Experiment` of the remote API. -/
structure ApiExperiment where
  self : String
  nextTrial : String
  parallelTrials : Int
  parameters : List ApiParameter
  metrics : List ApiMetric
  deriving DecidableEq, Repr

/-- An assignment suggested by the remote API; the value is a `json.Number`. -/
structure ApiAssignment where
  parameterName : String
  value : String
  deriving DecidableEq, Repr

/-- A `Value` of an observation. -/
structure ApiValue where
  metricName : String
  value : Float64
  deriving DecidableEq, Repr

/-- The observation `TrialValues` reported for a trial. -/
structure TrialValues where
  values : List ApiValue
  failed : Bool
  deriving DecidableEq, Repr

/-- The label selection of `client.ListOptions` built by the reconciler. -/
inductive ListOptions where
  | MatchingLabels (labels : StringMap)
  | Selector (selector : LabelSelector)
  deriving DecidableEq, Repr

/-- A call on a collaborator, with its arguments. -/
inductive Call where
  | Get
  | ListTrials (opts : ListOptions)
  | ListNamespaces (selector : LabelSelector)
  | UpdateExperiment (experiment : Experiment)
  | UpdateTrial (trial : Trial)
  | CreateTrial (trial : Trial)
  | DeleteTrial (trial : Trial)
  | CreateExperiment (name : String) (experiment : ApiExperiment)
  | DeleteExperiment (url : String)
  | NextTrial (url : String)
  | ReportTrial (url : String) (values : TrialValues)
  deriving DecidableEq, Repr

/-- Whether the call is a cluster write: `Update`, `Create` or `Delete`. -/
def Call.isWrite (c : Call) : Bool :=
  match c with
  | .UpdateExperiment _ => true
  | .UpdateTrial _ => true
  | .CreateTrial _ => true
  | .DeleteTrial _ => true
  | _ => false

/-- Whether the call is a call on the remote API. -/
def Call.isRemote (c : Call) : Bool :=
  match c with
  | .CreateExperiment _ _ => true
  | .DeleteExperiment _ => true
  | .NextTrial _ => true
  | .ReportTrial _ _ => true
  | _ => false

/-- The cluster writes of a trace. -/
def writes (trace : List Call) : List Call :=
  trace.filter Call.isWrite

/-- A `reconcile.Result`. -/
structure Result where
  requeue : Bool
  requeueAfter : Duration
  deriving DecidableEq, Repr

/-- The empty `reconcile.Result{}`. -/
def Result.empty : Result :=
  { requeue := false, requeueAfter := 0 }

/-- How an invocation ends: it returns a result and an error (nil is `none`), or
it stops on a runtime failure (write to a nil map, nil dereference). -/
inductive Return where
  | Returned (result : Result) (err : Option Error)
  | Panic
  deriving DecidableEq, Repr

/-- What an invocation did: the calls it made, in order, and how it ended. -/
structure Outcome where
  trace : List Call
  ret : Return
  deriving DecidableEq, Repr

/-- The answers of the collaborators of one invocation. The methods
`GetDefaultLabels` and `GetSelfReference` of the experiment type, and the
library functions (`LabelSelectorAsSelector`, `SetControllerReference`,
`strconv.ParseFloat`, `json.Number.Int64`), are taken as given. `reportTrial`
also receives the position in the trial list of the trial being reported. -/
structure Env where
  get : Except Error Experiment
  labelSelectorAsSelector : LabelSelector → Option Error
  listTrials : ListOptions → Except Error (List Trial)
  listNamespaces : LabelSelector → Except Error (List String)
  updateExperiment : Experiment → Option Error
  updateTrial : Trial → Option Error
  createTrial : Trial → Option Error
  deleteTrial : Trial → Option Error
  setControllerReference : Experiment → Trial → Except Error (List ObjectReference)
  createExperiment : String → ApiExperiment → Except Error ApiExperiment
  deleteExperiment : String → Option Error
  nextTrial : String → Except Error (List ApiAssignment × String)
  reportTrial : Nat → String → TrialValues → Option Error
  parseFloat : String → Option Float64
  parseInt64 : String → Option Int
  GetDefaultLabels : Experiment → StringMap
  GetSelfReference : Experiment → ObjectReference

/-- The reader used by `FindAvailableNamespace` of `helpers.go`: the conversion
`util.MatchingSelector` and the listing of the namespaces (their names, in
listing order). -/
structure Reader where
  matchingSelector : LabelSelector → Option Error
  listNamespaces : LabelSelector → Except Error (List String)


/-! ## Part 4. `helpers.go`: materializer and namespace allocator -/

/-- The deep copy of the template metadata and spec into a fresh trial. -/
def trialOfTemplate (tpl : TrialTemplateSpec) : Trial :=
  { name := tpl.name
    generateName := tpl.generateName
    namespace_ := tpl.namespace_
    labels := tpl.labels
    annotations := tpl.annotations
    finalizers := tpl.finalizers
    ownerReferences := tpl.ownerReferences
    deletionTimestamp := none
    experimentRef := tpl.experimentRef
    targetNamespace := tpl.targetNamespace
    assignments := tpl.assignments
    values := tpl.values
    jobTemplate := tpl.jobTemplate
    ttlSecondsAfterFinished := tpl.ttlSecondsAfterFinished
    ttlSecondsAfterFailure := tpl.ttlSecondsAfterFailure
    conditions := [] }

/-- The defaulting of namespace, name, labels, annotations and experiment
reference shared by both versions of the materializer. -/
def defaultTrialIdentity (GetDefaultLabels : Experiment → StringMap)
    (GetSelfReference : Experiment → ObjectReference)
    (experiment : Experiment) (trial : Trial) (namespace_ : String) : Trial :=
  let trial := if trial.namespace_ = "" then { trial with namespace_ := namespace_ } else trial
  let trial :=
    if trial.name = "" then
      if trial.namespace_ ≠ experiment.namespace_ then { trial with name := experiment.name }
      else if trial.generateName = "" then { trial with generateName := experiment.name ++ "-" }
      else trial
    else trial
  let trial :=
    if mapLen trial.labels = 0 then { trial with labels := GetDefaultLabels experiment } else trial
  let trial :=
    if trial.annotations = none then { trial with annotations := some [] } else trial
  if trial.experimentRef = none then
    { trial with experimentRef := some (GetSelfReference experiment) }
  else trial

/-- The function `PopulateTrialFromTemplate` of `helpers.go`; `now1` and `now2`
are the values of the two calls of `metav1.Now()`. -/
def PopulateTrialFromTemplate (GetDefaultLabels : Experiment → StringMap)
    (GetSelfReference : Experiment → ObjectReference) (now1 now2 : Time)
    (experiment : Experiment) (namespace_ : String) : Trial :=
  let trial := trialOfTemplate experiment.template
  let trial :=
    match trial.jobTemplate with
    | some _ =>
      { trial with
        jobTemplate := some { creationTimestamp := now1, podCreationTimestamp := now2 } }
    | none => trial
  let trial :=
    if GetReplicas experiment > 1 ∨ experiment.namespaceSelector ≠ none
        ∨ experiment.template.namespace_ ≠ "" then
      { trial with targetNamespace := namespace_ }
    else trial
  defaultTrialIdentity GetDefaultLabels GetSelfReference experiment trial namespace_

/-- The keys set in the map `inuse` of `FindAvailableNamespace`, latest first. -/
def inuseNamespaces (trials : List Trial) : List String :=
  trials.foldl
    (fun inuse t =>
      if IsTrialActive t then
        if t.targetNamespace ≠ "" then t.targetNamespace :: inuse
        else t.namespace_ :: inuse
      else inuse)
    []

/-- The loop "find the first available namespace" over the listed items. -/
def firstAvailable (inuse : List String) : List String → String
  | [] => ""
  | item :: rest => if !inuse.contains item then item else firstAvailable inuse rest

/-- The function `FindAvailableNamespace` of `helpers.go`. -/
def FindAvailableNamespace (r : Reader) (experiment : Experiment) (trials : List Trial) :
    Except Error String :=
  if experiment.activeTrials ≥ GetReplicas experiment then .ok ""
  else
    let inuse := inuseNamespaces trials
    match experiment.namespaceSelector with
    | some selector =>
      match r.matchingSelector selector with
      | some err => .error err
      | none =>
        match r.listNamespaces selector with
        | .error err => .error err
        | .ok items => .ok (firstAvailable inuse items)
    | none =>
      if !inuse.contains experiment.namespace_ then .ok experiment.namespace_
      else .ok ""

/-! ## Part 5. `experiment_controller.go`: the reconciler -/

/-- The function `addFinalizer`: the experiment afterwards and whether it changed. -/
def addFinalizer (experiment : Experiment) : Experiment × Bool :=
  if experiment.deletionTimestamp ≠ none then (experiment, false)
  else if experiment.finalizers.any (fun f => f == finalizer) then (experiment, false)
  else ({ experiment with finalizers := experiment.finalizers ++ [finalizer] }, true)

/-- The function `copyExperimentToRemote`, filling a fresh remote experiment. -/
def copyExperimentToRemote (experiment : Experiment) : ApiExperiment :=
  { self := ""
    nextTrial := ""
    parallelTrials :=
      match experiment.parallelism with
      | some p => p
      | none => GetReplicas experiment
    parameters := experiment.parameters.map (fun p => { name := p.name, min := p.min, max := p.max })
    metrics := experiment.metrics.map (fun m => { name := m.name, minimize := m.minimize }) }

/-- The result of `syncWithServer`: the pair `(dirty, err)`, or a runtime failure. -/
inductive SyncResult where
  | Done (dirty : Bool) (err : Option Error)
  | Panic
  deriving DecidableEq, Repr

/-- The function `syncWithServer`: the remote calls made, the experiment
afterwards, and the result. -/
def syncWithServer (env : Env) (experiment : Experiment) :
    List Call × Experiment × SyncResult :=
  let experimentURL := mapGet experiment.annotations annotationExperimentURL
  if GetReplicas experiment > 0 ∧ experimentURL = "" then
    let n := experiment.name
    let e := copyExperimentToRemote experiment
    match env.createExperiment n e with
    | .ok ee =>
      match experiment.annotations with
      | none => ([.CreateExperiment n e], experiment, .Panic)
      | some entries =>
        let entries := entriesSet entries annotationExperimentURL ee.self
        let entries := entriesSet entries annotationNextTrialURL ee.nextTrial
        let experiment := { experiment with annotations := some entries }
        if GetReplicas experiment > ee.parallelTrials ∧ ee.parallelTrials > 0 then
          match experiment.replicas with
          | none => ([.CreateExperiment n e], experiment, .Panic)
          | some _ =>
            ([.CreateExperiment n e], { experiment with replicas := some ee.parallelTrials },
              .Done true none)
        else ([.CreateExperiment n e], experiment, .Done true none)
    | .error err => ([.CreateExperiment n e], experiment, .Done false (some err))
  else if experiment.deletionTimestamp ≠ none ∧ experimentURL ≠ "" then
    let cleared :=
      { experiment with
        annotations :=
          mapDelete (mapDelete experiment.annotations annotationExperimentURL)
            annotationNextTrialURL }
    match env.deleteExperiment experimentURL with
    | some _ => ([.DeleteExperiment experimentURL], SetReplicas cleared 0, .Done true none)
    | none => ([.DeleteExperiment experimentURL], SetReplicas cleared 0, .Done true none)
  else ([], experiment, .Done false none)

/-- The function `populateTrialFromTemplate` of the controller. -/
def populateTrialFromTemplate (GetDefaultLabels : Experiment → StringMap)
    (GetSelfReference : Experiment → ObjectReference)
    (experiment : Experiment) (namespace_ : String) : Trial :=
  let trial := trialOfTemplate experiment.template
  let trial :=
    if GetReplicas experiment > 1 ∨ experiment.namespaceSelector ≠ none
        ∨ experiment.template.namespace_ ≠ "" then
      { trial with targetNamespace := namespace_ }
    else trial
  let trial := { trial with finalizers := trial.finalizers ++ [finalizer] }
  defaultTrialIdentity GetDefaultLabels GetSelfReference experiment trial namespace_

/-- The method `findAvailableNamespace` of the controller: the calls made and the
pair `(namespace, err)`. -/
def findAvailableNamespace (env : Env) (experiment : Experiment) (trials : List Trial) :
    List Call × Except Error String :=
  let inuse := trials.foldl (fun inuse t => t.namespace_ :: inuse) []
  match experiment.namespaceSelector with
  | some selector =>
    match env.labelSelectorAsSelector selector with
    | some err => ([], .error err)
    | none =>
      match env.listNamespaces selector with
      | .error err => ([.ListNamespaces selector], .error err)
      | .ok items => ([.ListNamespaces selector], .ok (firstAvailable inuse items))
  | none =>
    if inuse.contains experiment.namespace_ then ([], .ok "")
    else ([], .ok experiment.namespace_)

/-- The swap-remove of the lifecycle finalizer: at the first position holding
it, the last element is written and the slice is shortened by one; `none` when
the finalizer does not occur (the loop ends without a change). -/
def removeFinalizer (finalizers : List String) : Option (List String) :=
  let i := finalizers.findIdx (fun f => f == finalizer)
  if i < finalizers.length then
    some ((finalizers.set i (finalizers.getLastD finalizer)).dropLast)
  else none

/-- The observation built for a finished trial. -/
def observation (env : Env) (t : Trial) : TrialValues :=
  { failed := t.conditions.any (fun c => c.type == .TrialFailed && c.status == .ConditionTrue)
    values := t.values.filterMap (fun v =>
      match env.parseFloat v.value with
      | some fv => some { metricName := v.name, value := fv }
      | none => none) }

/-- The loop "reconcile each trial", from position `i` of the list: the calls
made, and the return of `Reconcile` when the loop returns (`none` when the loop
runs to its end). -/
def reconcileTrials (env : Env) (experiment : Experiment) :
    Nat → List Trial → List Call × Option Return
  | _, [] => ([], none)
  | i, t :: rest =>
    if IsTrialFinished t then
      if t.deletionTimestamp = none then
        ([.DeleteTrial t], some (.Returned Result.empty (env.deleteTrial t)))
      else
        let trialValues := observation env t
        let reportTrialURL := mapGet t.annotations annotationReportTrialURL
        let err := env.reportTrial i reportTrialURL trialValues
        if err ≠ none ∧ experiment.deletionTimestamp = none then
          ([.ReportTrial reportTrialURL trialValues], some (.Returned Result.empty err))
        else
          match removeFinalizer t.finalizers with
          | some finalizers =>
            let t1 := { t with finalizers := finalizers }
            ([.ReportTrial reportTrialURL trialValues, .UpdateTrial t1],
              some (.Returned Result.empty (env.updateTrial t1)))
          | none =>
            let next := reconcileTrials env experiment (i + 1) rest
            (.ReportTrial reportTrialURL trialValues :: next.1, next.2)
    else if t.deletionTimestamp ≠ none then
      match removeFinalizer t.finalizers with
      | some finalizers =>
        let t1 := { t with finalizers := finalizers }
        ([.UpdateTrial t1], some (.Returned Result.empty (env.updateTrial t1)))
      | none => reconcileTrials env experiment (i + 1) rest
    else if experiment.deletionTimestamp ≠ none then
      ([.DeleteTrial t], some (.Returned Result.empty (env.deleteTrial t)))
    else reconcileTrials env experiment (i + 1) rest

/-- The end of `Reconcile`, after the loop over the trials: release of the
finalizer of a deleted experiment, or no action. -/
def releaseFinalizer (env : Env) (experiment : Experiment) : Outcome :=
  if experiment.deletionTimestamp ≠ none then
    match removeFinalizer experiment.finalizers with
    | some finalizers =>
      let experiment1 := { experiment with finalizers := finalizers }
      { trace := [.UpdateExperiment experiment1]
        ret := .Returned Result.empty (env.updateExperiment experiment1) }
    | none => { trace := [], ret := .Returned Result.empty none }
  else { trace := [], ret := .Returned Result.empty none }

/-- The part of `Reconcile` from the loop over the trials to the end. -/
def retire (env : Env) (experiment : Experiment) (items : List Trial) : Outcome :=
  match reconcileTrials env experiment 0 items with
  | (calls, some ret) => { trace := calls, ret := ret }
  | (calls, none) =>
    let last := releaseFinalizer env experiment
    { trace := calls ++ last.trace, ret := last.ret }

/-- The appending of the suggested assignments whose value is an integer. -/
def addAssignments (env : Env) (assignments : List Assignment)
    (suggestion : List ApiAssignment) : List Assignment :=
  suggestion.foldl
    (fun acc a =>
      match env.parseInt64 a.value with
      | some v => acc ++ [{ name := a.parameterName, value := v }]
      | none => acc)
    assignments

/-- The block "add an additional trial if needed", entered with an available
namespace; every path through it returns from `Reconcile`. -/
def provision (env : Env) (experiment : Experiment) (nextTrialURL namespace_ : String) :
    Outcome :=
  let trial := populateTrialFromTemplate env.GetDefaultLabels env.GetSelfReference
    experiment namespace_
  match env.setControllerReference experiment trial with
  | .error err => { trace := [], ret := .Returned Result.empty (some err) }
  | .ok refs =>
    let trial := { trial with ownerReferences := refs }
    match env.nextTrial nextTrialURL with
    | .error err =>
      match err with
      | .Api .ErrExperimentStopped _ =>
        let stopped := SetReplicas experiment 0
        let stopped :=
          { stopped with annotations := mapDelete stopped.annotations annotationNextTrialURL }
        { trace := [.NextTrial nextTrialURL, .UpdateExperiment stopped]
          ret := .Returned Result.empty (env.updateExperiment stopped) }
      | .Api .ErrTrialUnavailable retryAfter =>
        { trace := [.NextTrial nextTrialURL]
          ret := .Returned { requeue := true, requeueAfter := retryAfter } none }
      | _ => { trace := [.NextTrial nextTrialURL], ret := .Returned Result.empty (some err) }
    | .ok (suggestion, reportTrialURL) =>
      match trial.annotations with
      | none => { trace := [.NextTrial nextTrialURL], ret := .Panic }
      | some entries =>
        let trial :=
          { trial with
            annotations := some (entriesSet entries annotationReportTrialURL reportTrialURL) }
        let trial :=
          { trial with assignments := addAssignments env trial.assignments suggestion }
        { trace := [.NextTrial nextTrialURL, .CreateTrial trial]
          ret := .Returned Result.empty (env.createTrial trial) }

/-- The label selection of the trial listing. -/
def listOptions (env : Env) (experiment : Experiment) : Except Error ListOptions :=
  match experiment.selector with
  | none =>
    if mapLen experiment.template.labels = 0 then
      .ok (.MatchingLabels (env.GetDefaultLabels experiment))
    else .ok (.MatchingLabels experiment.template.labels)
  | some selector =>
    match env.labelSelectorAsSelector selector with
    | some err => .error err
    | none => .ok (.Selector selector)

/-- The part of `Reconcile` after the synchronization with the server. -/
def reconcileSynced (env : Env) (experiment : Experiment) : Outcome :=
  match listOptions env experiment with
  | .error err => { trace := [], ret := .Returned Result.empty (some err) }
  | .ok opts =>
    match env.listTrials opts with
    | .error err => { trace := [.ListTrials opts], ret := .Returned Result.empty (some err) }
    | .ok items =>
      let nextTrialURL := mapGet experiment.annotations annotationNextTrialURL
      if nextTrialURL ≠ "" ∧ GetReplicas experiment > (items.length : Int) then
        match findAvailableNamespace env experiment items with
        | (calls, .error err) =>
          { trace := .ListTrials opts :: calls, ret := .Returned Result.empty (some err) }
        | (calls, .ok namespace_) =>
          if namespace_ ≠ "" then
            let next := provision env experiment nextTrialURL namespace_
            { trace := .ListTrials opts :: (calls ++ next.trace), ret := next.ret }
          else
            let next := retire env experiment items
            { trace := .ListTrials opts :: (calls ++ next.trace), ret := next.ret }
      else
        let next := retire env experiment items
        { trace := .ListTrials opts :: next.trace, ret := next.ret }

/-- The method `Reconcile`. -/
def Reconcile (env : Env) : Outcome :=
  match env.get with
  | .error err =>
    if IsNotFound err then { trace := [.Get], ret := .Returned Result.empty none }
    else { trace := [.Get], ret := .Returned Result.empty (some err) }
  | .ok experiment =>
    let added := addFinalizer experiment
    if added.2 then
      { trace := [.Get, .UpdateExperiment added.1]
        ret := .Returned Result.empty (env.updateExperiment added.1) }
    else
      match syncWithServer env added.1 with
      | (calls, _, .Panic) => { trace := .Get :: calls, ret := .Panic }
      | (calls, synced, .Done dirty err) =>
        if err ≠ none then { trace := .Get :: calls, ret := .Returned Result.empty err }
        else if dirty then
          { trace := .Get :: (calls ++ [.UpdateExperiment synced])
            ret := .Returned Result.empty (env.updateExperiment synced) }
        else
          let next := reconcileSynced env synced
          { trace := .Get :: (calls ++ next.trace), ret := next.ret }

/-! ## Part 6. Notions used to state the properties, and sample inputs -/

/-- Whether the call is a `ReportTrial`. -/
def Call.isReport (c : Call) : Bool :=
  match c with
  | .ReportTrial _ _ => true
  | _ => false

/-- The kinds of calls on the collaborators. -/
inductive Kind where
  | Get
  | ListTrials
  | ListNamespaces
  | UpdateExperiment
  | UpdateTrial
  | CreateTrial
  | DeleteTrial
  | CreateExperiment
  | DeleteExperiment
  | NextTrial
  | ReportTrial
  deriving DecidableEq, Repr

/-- The kind of a call. -/
def Call.kind (c : Call) : Kind :=
  match c with
  | .Get => .Get
  | .ListTrials _ => .ListTrials
  | .ListNamespaces _ => .ListNamespaces
  | .UpdateExperiment _ => .UpdateExperiment
  | .UpdateTrial _ => .UpdateTrial
  | .CreateTrial _ => .CreateTrial
  | .DeleteTrial _ => .DeleteTrial
  | .CreateExperiment _ _ => .CreateExperiment
  | .DeleteExperiment _ => .DeleteExperiment
  | .NextTrial _ => .NextTrial
  | .ReportTrial _ _ => .ReportTrial

/-- The `ReportTrial` call that `Reconcile` makes for a trial: its report URL
and its observation. -/
def reportOf (env : Env) (t : Trial) : Call :=
  .ReportTrial (mapGet t.annotations annotationReportTrialURL) (observation env t)

/-- A trial template that sets nothing. -/
def emptyTemplate : TrialTemplateSpec :=
  { name := ""
    generateName := ""
    namespace_ := ""
    labels := none
    annotations := none
    finalizers := []
    ownerReferences := []
    experimentRef := none
    targetNamespace := ""
    assignments := []
    values := []
    jobTemplate := none
    ttlSecondsAfterFinished := none
    ttlSecondsAfterFailure := none }

/-- A synchronized experiment `default/tuning`: it has the finalizer and both
URLs recorded, and asks for one replica. -/
def sampleExperiment : Experiment :=
  { name := "tuning"
    namespace_ := "default"
    annotations := some [(annotationExperimentURL, "http://server/experiments/tuning"),
      (annotationNextTrialURL, "http://server/experiments/tuning/next")]
    finalizers := [finalizer]
    deletionTimestamp := none
    replicas := some 1
    parallelism := none
    parameters := [{ name := "cpu", min := 1, max := 4 }]
    metrics := [{ name := "latency", minimize := true }]
    namespaceSelector := none
    selector := none
    template := emptyTemplate
    activeTrials := 0 }

/-- A trial of `sampleExperiment` with the lifecycle finalizer, no condition and
no deletion marker: it is running. -/
def runningTrial : Trial :=
  { name := "tuning-1"
    generateName := "tuning-"
    namespace_ := "default"
    labels := some [("experiment", "tuning")]
    annotations := some [(annotationReportTrialURL, "http://server/experiments/tuning/trials/1")]
    finalizers := [finalizer]
    ownerReferences := [{ kind := "Experiment", name := "tuning", namespace_ := "default" }]
    deletionTimestamp := none
    experimentRef := some { kind := "Experiment", name := "tuning", namespace_ := "default" }
    targetNamespace := ""
    assignments := [{ name := "cpu", value := 2 }]
    values := [{ name := "latency", value := "12.5" }]
    jobTemplate := none
    ttlSecondsAfterFinished := none
    ttlSecondsAfterFailure := none
    conditions := [] }

/-- The same trial deleted by hand while it was running: it has a deletion
marker and no finish condition. -/
def abandonedTrial : Trial :=
  { runningTrial with deletionTimestamp := some 1700000000000000000 }

/-- The same trial once it has completed. -/
def completedTrial : Trial :=
  { runningTrial with
    conditions :=
      [{ type := .TrialComplete
         status := .ConditionTrue
         lastTransitionTime := 1600000000000000000 }] }

/-- A completed trial that is being deleted and still has the lifecycle
finalizer. -/
def finalizingTrial : Trial :=
  { completedTrial with deletionTimestamp := some 1700000000000000000 }

/-- A completed trial that is being deleted, whose lifecycle finalizer has
already been removed, and which another finalizer keeps in the cluster. -/
def reportedTrial : Trial :=
  { finalizingTrial with finalizers := ["foregroundDeletion"] }

/-- Collaborators that answer every call with success: the cluster holds the
given experiment and trials, no namespace matches a selector, and the server
suggests `cpu = 3`. -/
def sampleEnv (experiment : Experiment) (items : List Trial) : Env :=
  { get := .ok experiment
    labelSelectorAsSelector := fun _ => none
    listTrials := fun _ => .ok items
    listNamespaces := fun _ => .ok []
    updateExperiment := fun _ => none
    updateTrial := fun _ => none
    createTrial := fun _ => none
    deleteTrial := fun _ => none
    setControllerReference := fun e t =>
      .ok (t.ownerReferences ++ [{ kind := "Experiment", name := e.name, namespace_ := e.namespace_ }])
    createExperiment := fun _ e =>
      .ok { e with
            self := "http://server/experiments/tuning"
            nextTrial := "http://server/experiments/tuning/next" }
    deleteExperiment := fun _ => none
    nextTrial := fun _ =>
      .ok ([{ parameterName := "cpu", value := "3" }], "http://server/experiments/tuning/trials/2")
    reportTrial := fun _ _ _ => none
    parseFloat := fun s => if s = "12.5" then some { bits := 0x4029000000000000 } else none
    parseInt64 := fun s => if s = "3" then some 3 else none
    GetDefaultLabels := fun e => some [("experiment", e.name)]
    GetSelfReference := fun e =>
      { kind := "Experiment", name := e.name, namespace_ := e.namespace_ } }

/-- The number of active trials of a trial list. -/
def activeCount (trials : List Trial) : Nat :=
  (trials.filter IsTrialActive).length

/-- A reader whose namespace listing answers `default`, `staging`, in this
order, for every selector. -/
def sampleReader : Reader :=
  { matchingSelector := fun _ => none
    listNamespaces := fun _ => .ok ["default", "staging"] }

/-- A running trial of `sampleExperiment` that targets the namespace `staging`. -/
def stagingTrial : Trial :=
  { runningTrial with targetNamespace := "staging" }

/-- Collaborators for `sampleExperiment` without trials, whose server answers
`NextTrial` with "experiment stopped". -/
def stoppedEnv : Env :=
  { sampleEnv sampleExperiment [] with
    nextTrial := fun _ => .error (.Api .ErrExperimentStopped 0) }

/-- The experiment `default/tuning` before its first synchronization: it has
the finalizer and an empty annotation set. -/
def freshExperiment : Experiment :=
  { sampleExperiment with annotations := some [] }

/-- The experiment `default/tuning` deleted before the controller saw it: it
has a deletion marker, no lifecycle finalizer (another finalizer keeps it in the
cluster) and no recorded URL. -/
def deletedEarlyExperiment : Experiment :=
  { sampleExperiment with
    annotations := some []
    finalizers := ["foregroundDeletion"]
    deletionTimestamp := some 1700000000000000000 }

/-- The experiment `default/tuning` at the end of its deletion: marked for
deletion, linkage cleared, replicas at zero, finalizer still present. -/
def deletingExperiment : Experiment :=
  { sampleExperiment with
    annotations := some []
    replicas := some 0
    deletionTimestamp := some 1700000000000000000 }

/-- A trial that is marked for deletion and has already lost the lifecycle
finalizer: it is retired. -/
def retiredTrial : Trial :=
  { abandonedTrial with finalizers := [] }

/-- A true completion, failure or setup-deleted condition. -/
def isTrueFinishCondition (c : TrialCondition) : Bool :=
  (c.type == .TrialComplete || c.type == .TrialFailed || c.type == .TrialSetupDeleted)
    && c.status == .ConditionTrue

/-- A true failure condition. -/
def isTrueFailure (c : TrialCondition) : Bool :=
  c.type == .TrialFailed && c.status == .ConditionTrue

/-- The finish time of a trial: the latest last-transition time among its true
completion, failure and setup-deleted conditions; the zero instant when it has
none. -/
def finishTime (t : Trial) : Time :=
  ((t.conditions.filter isTrueFinishCondition).map (fun c => c.lastTransitionTime)).foldr max 0

/-- The TTL that `NeedsCleanup` applies: the failure-specific TTL when it is set
and the trial has a true failure condition, else the general TTL. -/
def effectiveTTL (t : Trial) : Option Int :=
  if t.conditions.any isTrueFailure = true ∧ t.ttlSecondsAfterFailure ≠ none then
    t.ttlSecondsAfterFailure
  else t.ttlSecondsAfterFinished

/-- The latest qualifying condition of a trial: the true completion, failure or
setup-deleted condition with the latest transition time (the first of them when
several share that time). -/
def latestFinishCondition (t : Trial) : Option TrialCondition :=
  t.conditions.foldl
    (fun best c =>
      if isTrueFinishCondition c then
        match best with
        | none => some c
        | some b => if b.lastTransitionTime < c.lastTransitionTime then some c else some b
      else best)
    none

/-- The TTL selection as the specification words it: the failure-specific TTL
when it is set and the latest qualifying condition is a failure, else the
general TTL. -/
def ttlByLatestCondition (t : Trial) : Option Int :=
  match latestFinishCondition t with
  | some c =>
    if c.type = .TrialFailed ∧ t.ttlSecondsAfterFailure ≠ none then t.ttlSecondsAfterFailure
    else t.ttlSecondsAfterFinished
  | none => t.ttlSecondsAfterFinished

/-- A trial that failed at second 10 and whose setup was deleted at second 20,
kept 100 seconds after a failure and not at all otherwise. -/
def failedThenCleanedTrial : Trial :=
  { runningTrial with
    ttlSecondsAfterFinished := some 0
    ttlSecondsAfterFailure := some 100
    conditions :=
      [{ type := .TrialFailed
         status := .ConditionTrue
         lastTransitionTime := 10000000000 },
       { type := .TrialSetupDeleted
         status := .ConditionTrue
         lastTransitionTime := 20000000000 }] }

/-- The effective namespace of a trial: its target namespace if set, else its
own namespace. -/
def effectiveNamespace (t : Trial) : String :=
  if t.targetNamespace ≠ "" then t.targetNamespace else t.namespace_

/-- The in-use set: the effective namespaces of the active trials. -/
def inUse (trials : List Trial) : List String :=
  (trials.filter IsTrialActive).map effectiveNamespace

/-- The first candidate namespace that is not in use; the empty string when
every candidate is in use. -/
def firstNotInUse (trials : List Trial) (candidates : List String) : String :=
  match candidates.find? (fun ns => !(inUse trials).contains ns) with
  | some ns => ns
  | none => ""

/-- The experiment `default/tuning` with a namespace selector, two desired
replicas and one recorded active trial. -/
def selectorExperiment : Experiment :=
  { sampleExperiment with
    replicas := some 2
    namespaceSelector := some { matchLabels := [("team", "ml")] }
    activeTrials := 1 }

/-- The provisioning condition of `Reconcile`: a next-trial URL is recorded and
the desired replicas exceed the number of listed trials. -/
@[reducible]
def provisioningGate (experiment : Experiment) (items : List Trial) : Prop :=
  mapGet experiment.annotations annotationNextTrialURL ≠ "" ∧
    GetReplicas experiment > (items.length : Int)

/-- The invocation gets as far as the loop over the listed trials: the
experiment is read, needs neither the finalizer nor a synchronization with the
server, the trials are listed, and no trial is provisioned (the provisioning
condition does not hold, or no namespace is available). -/
def ReachesTrialLoop (env : Env) (experiment : Experiment) (items : List Trial) : Prop :=
  env.get = .ok experiment ∧ (addFinalizer experiment).2 = false ∧
  (syncWithServer env experiment).2.2 = .Done false none ∧
  (∃ opts, listOptions env experiment = .ok opts ∧ env.listTrials opts = .ok items) ∧
  (¬ provisioningGate experiment items ∨
    (findAvailableNamespace env experiment items).2 = .ok "")

/-- The observation of a trial as the specification words it: one entry (metric
name, parsed number) for each value that parses as a number, in order, and the
failed flag set exactly when a failure condition has status true. -/
def observationOf (parseFloat : String → Option Float64) (t : Trial) : TrialValues :=
  { values := t.values.filterMap (fun v => (parseFloat v.value).map (fun fv => ⟨v.name, fv⟩))
    failed := decide (∃ c ∈ t.conditions, c.type = .TrialFailed ∧ c.status = .ConditionTrue) }

/-- The assignments of a suggestion whose value is an integer, in order. -/
def integerAssignments (parseInt64 : String → Option Int) (suggestion : List ApiAssignment) :
    List Assignment :=
  suggestion.filterMap (fun a => (parseInt64 a.value).map (fun v => ⟨a.parameterName, v⟩))

/-- The condition under which the materializer overwrites the target namespace:
more than one replica is desired, or a namespace selector is configured, or the
template specifies a namespace. -/
@[reducible]
def overwritesTargetNamespace (experiment : Experiment) : Prop :=
  GetReplicas experiment > 1 ∨ experiment.namespaceSelector ≠ none
    ∨ experiment.template.namespace_ ≠ ""

/-- The identity fields that the template already set have the same value in the
trial: name, generate-name, namespace, labels, annotations and owning-experiment
reference. -/
def KeepsTemplateIdentity (tpl : TrialTemplateSpec) (trial : Trial) : Prop :=
  (tpl.name ≠ "" → trial.name = tpl.name) ∧
  (tpl.generateName ≠ "" → trial.generateName = tpl.generateName) ∧
  (tpl.namespace_ ≠ "" → trial.namespace_ = tpl.namespace_) ∧
  (mapLen tpl.labels ≠ 0 → trial.labels = tpl.labels) ∧
  (tpl.annotations ≠ none → trial.annotations = tpl.annotations) ∧
  (tpl.experimentRef ≠ none → trial.experimentRef = tpl.experimentRef)

/-- The namespace of the materialized trial: the namespace of the template when
it sets one, else the chosen namespace. -/
def trialNamespace (experiment : Experiment) (namespace_ : String) : String :=
  if experiment.template.namespace_ = "" then namespace_ else experiment.template.namespace_

/-- The experiment `default/tuning` asking for three replicas. -/
def eagerExperiment : Experiment :=
  { sampleExperiment with replicas := some 3 }

/-- Collaborators for `sampleExperiment` without trials, whose server has no
suggestion yet and asks to retry after 30 seconds. -/
def unavailableEnv : Env :=
  { sampleEnv sampleExperiment [] with
    nextTrial := fun _ => .error (.Api .ErrTrialUnavailable 30000000000) }

/-- Collaborators for `sampleExperiment` and its finalizing trial, whose server
rejects the report. -/
def rejectingEnv : Env :=
  { sampleEnv sampleExperiment [finalizingTrial] with
    reportTrial := fun _ _ _ => some (.Generic "report rejected") }

/-- The experiment `default/tuning` before its first synchronization, without
any annotation set (nil map). -/
def bareExperiment : Experiment :=
  { sampleExperiment with annotations := none }

/-- The synchronized experiment `default/tuning` once its deletion is requested. -/
def deleteRequestedExperiment : Experiment :=
  { sampleExperiment with deletionTimestamp := some 1700000000000000000 }

/-- The experiment `default/tuning` asking for two replicas, whose template
sets the target namespace `custom`. -/
def pinnedExperiment : Experiment :=
  { sampleExperiment with
    replicas := some 2
    template := { emptyTemplate with targetNamespace := "custom" } }

/-- The experiment `default/tuning` whose template puts the trials in the
namespace `staging`. -/
def placedExperiment : Experiment :=
  { sampleExperiment with template := { emptyTemplate with namespace_ := "staging" } }

/-- Collaborators for the deleted experiment `deletingExperiment` and its
already reported trial, whose server rejects the report. -/
def rejectingDeletionEnv : Env :=
  { sampleEnv deletingExperiment [reportedTrial] with
    reportTrial := fun _ _ _ => some (.Generic "report rejected") }

/-- The fields of a trial that the materializers compute from the template, the
experiment and the chosen namespace. -/
def MaterializedFrom (gdl : Experiment → StringMap) (gsr : Experiment → ObjectReference)
    (e : Experiment) (ns : String) (r : Trial) : Prop :=
  r.targetNamespace
    = (if overwritesTargetNamespace e then ns else e.template.targetNamespace) ∧
  r.namespace_ = trialNamespace e ns ∧
  r.name = (if e.template.name = "" then
      if trialNamespace e ns ≠ e.namespace_ then e.name else ""
    else e.template.name) ∧
  r.generateName = (if e.template.name = "" ∧ trialNamespace e ns = e.namespace_
        ∧ e.template.generateName = "" then e.name ++ "-"
    else e.template.generateName) ∧
  r.labels = (if mapLen e.template.labels = 0 then gdl e else e.template.labels) ∧
  r.annotations
    = (if e.template.annotations = none then some [] else e.template.annotations) ∧
  r.experimentRef
    = (if e.template.experimentRef = none then some (gsr e) else e.template.experimentRef)

/-- The experiment `default/tuning`, single replica, whose template names the
namespace `default` as target namespace. -/
def selfTargetExperiment : Experiment :=
  { sampleExperiment with template := { emptyTemplate with targetNamespace := "default" } }

/-- The experiment `default/tuning` as just created: no annotation set (nil
map), no finalizer, no explicit replica count. -/
def newExperiment : Experiment :=
  { sampleExperiment with annotations := none, finalizers := [], replicas := none }

/-- The experiment `newExperiment` once the lifecycle finalizer is added: it
still has no annotation set. -/
def registeredExperiment : Experiment :=
  { newExperiment with finalizers := [finalizer] }

/-- The trial that `Reconcile` creates for `eagerExperiment` in the namespace
`default` from the suggestion `cpu = 3`. -/
def createdTrial : Trial :=
  { name := ""
    generateName := "tuning-"
    namespace_ := "default"
    labels := some [("experiment", "tuning")]
    annotations := some [(annotationReportTrialURL, "http://server/experiments/tuning/trials/2")]
    finalizers := [finalizer]
    ownerReferences := [{ kind := "Experiment", name := "tuning", namespace_ := "default" }]
    deletionTimestamp := none
    experimentRef := some { kind := "Experiment", name := "tuning", namespace_ := "default" }
    targetNamespace := "default"
    assignments := [{ name := "cpu", value := 3 }]
    values := []
    jobTemplate := none
    ttlSecondsAfterFinished := none
    ttlSecondsAfterFailure := none
    conditions := [] }

/-- The deleted experiment `deletingExperiment` whose experiment-URL annotation
is present with an empty value. -/
def blankLinkExperiment : Experiment :=
  { deletingExperiment with annotations := some [(annotationExperimentURL, "")] }

/-! ## Part 7. Traces: auxiliary facts -/

theorem writes_nil : writes [] = [] := rfl

theorem writes_append (a b : List Call) : writes (a ++ b) = writes a ++ writes b := by
  simp [writes]

theorem writes_cons (c : Call) (l : List Call) :
    writes (c :: l) = if c.isWrite then c :: writes l else writes l := by
  simp [writes, List.filter_cons]

theorem syncWithServer_writes (env : Env) (experiment : Experiment) :
    writes (syncWithServer env experiment).1 = [] := by
  unfold syncWithServer
  simp only []
  split_ifs
  · split
    · split
      · rfl
      · split_ifs
        · split <;> rfl
        · rfl
    · rfl
  · split <;> rfl
  · rfl

theorem findAvailableNamespace_writes (env : Env) (experiment : Experiment)
    (trials : List Trial) : writes (findAvailableNamespace env experiment trials).1 = [] := by
  unfold findAvailableNamespace
  simp only []
  split
  · split
    · rfl
    · split <;> rfl
  · split_ifs <;> rfl

theorem reconcileTrials_writes (env : Env) (experiment : Experiment) :
    ∀ (items : List Trial) (i : Nat),
      (writes (reconcileTrials env experiment i items).1).length ≤ 1 ∧
      ((reconcileTrials env experiment i items).2 = none →
        writes (reconcileTrials env experiment i items).1 = []) := by
  intro items
  induction items with
  | nil => intro i; simp [reconcileTrials, writes]
  | cons t rest ih =>
    intro i
    have h := ih (i + 1)
    unfold reconcileTrials
    simp only []
    split_ifs
    · simp [writes, Call.isWrite]
    · simp [writes, Call.isWrite]
    · split
      · simp [writes, Call.isWrite]
      · simpa [writes_cons, Call.isWrite] using h
    · split
      · simp [writes, Call.isWrite]
      · exact h
    · simp [writes, Call.isWrite]
    · exact h

theorem releaseFinalizer_writes (env : Env) (experiment : Experiment) :
    (writes (releaseFinalizer env experiment).trace).length ≤ 1 := by
  unfold releaseFinalizer
  split_ifs
  · split <;> simp [writes, Call.isWrite]
  · simp [writes]

theorem retire_writes (env : Env) (experiment : Experiment) (items : List Trial) :
    (writes (retire env experiment items).trace).length ≤ 1 := by
  have h := reconcileTrials_writes env experiment items 0
  unfold retire
  split
  · next calls ret heq => rw [heq] at h; exact h.1
  · next calls heq =>
    rw [heq] at h
    have h0 : writes calls = [] := h.2 rfl
    simp only [writes_append, h0, List.nil_append]
    exact releaseFinalizer_writes env experiment

theorem provision_writes (env : Env) (experiment : Experiment) (url ns : String) :
    (writes (provision env experiment url ns).trace).length ≤ 1 := by
  unfold provision
  simp only []
  split
  · simp [writes]
  · split
    · split <;> simp [writes, Call.isWrite]
    · split <;> simp [writes, Call.isWrite]

theorem reconcileSynced_writes (env : Env) (experiment : Experiment) :
    (writes (reconcileSynced env experiment).trace).length ≤ 1 := by
  unfold reconcileSynced
  split
  · simp [writes]
  · split
    · simp [writes, Call.isWrite]
    · next opts items _ =>
      simp only []
      split_ifs
      · have hf := findAvailableNamespace_writes env experiment items
        split
        · next calls err heq =>
          rw [heq] at hf
          simp only [writes_cons, Call.isWrite] at *
          simp [hf]
        · next calls ns heq =>
          rw [heq] at hf
          simp only [] at hf
          split_ifs
          · simp only [writes_cons, Call.isWrite, writes_append, hf]
            simpa using provision_writes env experiment _ ns
          · simp only [writes_cons, Call.isWrite, writes_append, hf]
            simpa using retire_writes env experiment items
      · simp only [writes_cons, Call.isWrite]
        simpa using retire_writes env experiment items

theorem syncWithServer_kinds (env : Env) (experiment : Experiment) :
    ∀ c ∈ (syncWithServer env experiment).1,
      c.kind = .CreateExperiment ∨ c.kind = .DeleteExperiment := by
  unfold syncWithServer
  simp only []
  split_ifs
  · split
    · split
      · simp [Call.kind]
      · split_ifs
        · split <;> simp [Call.kind]
        · simp [Call.kind]
    · simp [Call.kind]
  · split <;> simp [Call.kind]
  · simp

theorem findAvailableNamespace_kinds (env : Env) (experiment : Experiment)
    (trials : List Trial) :
    ∀ c ∈ (findAvailableNamespace env experiment trials).1, c.kind = .ListNamespaces := by
  unfold findAvailableNamespace
  simp only []
  split
  · split
    · simp
    · split <;> simp [Call.kind]
  · split_ifs <;> simp

theorem provision_kinds (env : Env) (experiment : Experiment) (url ns : String) :
    ∀ c ∈ (provision env experiment url ns).trace,
      c.kind = .NextTrial ∨ c.kind = .UpdateExperiment ∨ c.kind = .CreateTrial := by
  unfold provision
  simp only []
  split
  · simp
  · split
    · split <;> simp [Call.kind]
    · split <;> simp [Call.kind]

theorem releaseFinalizer_kinds (env : Env) (experiment : Experiment) :
    ∀ c ∈ (releaseFinalizer env experiment).trace, c.kind = .UpdateExperiment := by
  unfold releaseFinalizer
  split_ifs
  · split <;> simp [Call.kind]
  · simp

theorem reconcileTrials_kinds (env : Env) (experiment : Experiment) :
    ∀ (items : List Trial) (i : Nat), ∀ c ∈ (reconcileTrials env experiment i items).1,
      c.kind = .ReportTrial ∨ c.kind = .UpdateTrial ∨ c.kind = .DeleteTrial := by
  intro items
  induction items with
  | nil => intro i; simp [reconcileTrials]
  | cons t rest ih =>
    intro i
    have h := ih (i + 1)
    unfold reconcileTrials
    simp only []
    split_ifs
    · simp [Call.kind]
    · simp [Call.kind]
    · split
      · simp [Call.kind]
      · intro c hc
        rcases List.mem_cons.mp hc with rfl | hc
        · simp [Call.kind]
        · exact h c hc
    · split
      · simp [Call.kind]
      · exact h
    · simp [Call.kind]
    · exact h

theorem observation_finalizers (env : Env) (t : Trial) (fs : List String) :
    observation env { t with finalizers := fs } = observation env t := rfl

/-- Every `UpdateTrial` of the loop over the trials removes the lifecycle
finalizer of a listed trial that is marked for deletion, and when that trial is
finished the two last calls of the loop are its report and this update. -/
theorem reconcileTrials_update (env : Env) (experiment : Experiment) (t1 : Trial) :
    ∀ (items : List Trial) (i : Nat),
      Call.UpdateTrial t1 ∈ (reconcileTrials env experiment i items).1 →
      (∃ t ∈ items, t.deletionTimestamp ≠ none ∧
          removeFinalizer t.finalizers = some t1.finalizers ∧
          t1 = { t with finalizers := t1.finalizers }) ∧
      (IsTrialFinished t1 = true →
        ∃ pre, (reconcileTrials env experiment i items).1
          = pre ++ [reportOf env t1, Call.UpdateTrial t1]) := by
  intro items
  induction items with
  | nil => intro i h; simp [reconcileTrials] at h
  | cons t rest ih =>
    intro i
    have hrec := ih (i + 1)
    unfold reconcileTrials
    simp only []
    split_ifs with hfin hdel herr hdel2 hexp
    · intro h; simp at h
    · intro h; simp at h
    · split
      · next fs hfs =>
        intro h
        simp at h
        subst h
        refine ⟨⟨t, by simp, hdel, by simpa using hfs, rfl⟩, fun _ => ⟨[], ?_⟩⟩
        simp [reportOf, observation]
      · next hfs =>
        intro h
        simp only [List.mem_cons] at h
        rcases h with h | h
        · cases h
        · obtain ⟨⟨t0, ht0, hrest⟩, hpre⟩ := hrec h
          refine ⟨⟨t0, List.mem_cons_of_mem _ ht0, hrest⟩, fun hf => ?_⟩
          obtain ⟨pre, hpre⟩ := hpre hf
          exact ⟨reportOf env t :: pre, by simp [hpre, reportOf]⟩
    · split
      · next fs hfs =>
        intro h
        simp at h
        subst h
        refine ⟨⟨t, by simp, hdel2, by simpa using hfs, rfl⟩, fun hf => ?_⟩
        exact absurd hf (by simpa [IsTrialFinished] using hfin)
      · next hfs =>
        intro h
        obtain ⟨⟨t0, ht0, hrest⟩, hpre⟩ := hrec h
        exact ⟨⟨t0, List.mem_cons_of_mem _ ht0, hrest⟩, hpre⟩
    · intro h; simp at h
    · intro h
      obtain ⟨⟨t0, ht0, hrest⟩, hpre⟩ := hrec h
      exact ⟨⟨t0, List.mem_cons_of_mem _ ht0, hrest⟩, hpre⟩

theorem addFinalizer_unchanged (experiment : Experiment)
    (h : (addFinalizer experiment).2 = false) : (addFinalizer experiment).1 = experiment := by
  unfold addFinalizer at h ⊢
  split_ifs at h ⊢ <;> simp_all

theorem addFinalizer_changed (experiment : Experiment)
    (h : (addFinalizer experiment).2 = true) :
    experiment.deletionTimestamp = none ∧ finalizer ∉ experiment.finalizers ∧
      (addFinalizer experiment).1
        = { experiment with finalizers := experiment.finalizers ++ [finalizer] } := by
  unfold addFinalizer at h ⊢
  split_ifs at h ⊢ with h1 h2
  all_goals first
    | (exfalso; simpa using h)
    | exact ⟨by simpa using h1, by simpa using h2, rfl⟩

theorem syncWithServer_noop (env : Env) (experiment : Experiment)
    (h : (syncWithServer env experiment).2.2 = .Done false none) :
    syncWithServer env experiment = ([], experiment, .Done false none) ∧
      ¬ (GetReplicas experiment > 0 ∧ mapGet experiment.annotations annotationExperimentURL = "") ∧
      ¬ (experiment.deletionTimestamp ≠ none ∧
          mapGet experiment.annotations annotationExperimentURL ≠ "") := by
  unfold syncWithServer at h ⊢
  simp only [] at h ⊢
  split_ifs at h ⊢ with h1 h2
  · exfalso
    revert h
    split
    · split
      · simp
      · split_ifs
        · split <;> simp
        · simp
    · simp
  · exfalso
    revert h
    split <;> simp
  · exact ⟨rfl, h1, h2⟩

/-- The shapes of the trace of `reconcileSynced`: it stops on an error of a
listing, or it provisions a trial, or it goes through the loop over the trials. -/
theorem reconcileSynced_cases (env : Env) (experiment : Experiment) :
    (∃ p, (reconcileSynced env experiment).trace = p ∧
        ∀ c ∈ p, c.kind = .ListTrials ∨ c.kind = .ListNamespaces) ∨
    (∃ p ns, (∀ c ∈ p, c.kind = .ListTrials ∨ c.kind = .ListNamespaces) ∧
        mapGet experiment.annotations annotationNextTrialURL ≠ "" ∧ ns ≠ "" ∧
        (reconcileSynced env experiment).trace
          = p ++ (provision env experiment
              (mapGet experiment.annotations annotationNextTrialURL) ns).trace ∧
        (reconcileSynced env experiment).ret
          = (provision env experiment
              (mapGet experiment.annotations annotationNextTrialURL) ns).ret) ∨
    (∃ p opts items, (∀ c ∈ p, c.kind = .ListTrials ∨ c.kind = .ListNamespaces) ∧
        listOptions env experiment = .ok opts ∧ env.listTrials opts = .ok items ∧
        (reconcileSynced env experiment).trace = p ++ (retire env experiment items).trace ∧
        (reconcileSynced env experiment).ret = (retire env experiment items).ret) := by
  unfold reconcileSynced
  split
  · exact Or.inl ⟨[], rfl, by simp⟩
  · next opts hopts =>
    split
    · exact Or.inl ⟨_, rfl, by simp [Call.kind]⟩
    · next items hitems =>
      simp only []
      split_ifs with hcond
      · have hk := findAvailableNamespace_kinds env experiment items
        split
        · next calls err heq =>
          rw [heq] at hk
          refine Or.inl ⟨_, rfl, ?_⟩
          intro c hc
          rcases List.mem_cons.mp hc with rfl | hc
          · simp [Call.kind]
          · exact Or.inr (hk c hc)
        · next calls ns heq =>
          rw [heq] at hk
          have hp : ∀ c ∈ Call.ListTrials opts :: calls,
              c.kind = .ListTrials ∨ c.kind = .ListNamespaces := by
            intro c hc
            rcases List.mem_cons.mp hc with rfl | hc
            · simp [Call.kind]
            · exact Or.inr (hk c hc)
          split_ifs with hns
          · exact Or.inr (Or.inl ⟨_, ns, hp, hcond.1, hns, by simp, rfl⟩)
          · exact Or.inr (Or.inr ⟨_, opts, items, hp, hopts, hitems, by simp, rfl⟩)
      · refine Or.inr (Or.inr ⟨[Call.ListTrials opts], opts, items, ?_, hopts, hitems, by simp, rfl⟩)
        simp [Call.kind]

/-- The shapes of the trace of `Reconcile`: the experiment cannot be read; or the
finalizer is added; or the synchronization with the server acts or fails; or
the experiment is in sync and the rest of `Reconcile` runs. -/
theorem Reconcile_cases (env : Env) :
    ((∃ err, env.get = .error err) ∧ (Reconcile env).trace = [.Get]) ∨
    (∃ e, env.get = .ok e ∧ e.deletionTimestamp = none ∧ finalizer ∉ e.finalizers ∧
        (Reconcile env).trace
          = [.Get, .UpdateExperiment { e with finalizers := e.finalizers ++ [finalizer] }]) ∨
    (∃ e, env.get = .ok e ∧ (addFinalizer e).2 = false ∧
        (syncWithServer env e).2.2 ≠ .Done false none ∧
        ((Reconcile env).trace = .Get :: (syncWithServer env e).1 ∨
          (Reconcile env).trace
            = .Get :: ((syncWithServer env e).1
                ++ [.UpdateExperiment (syncWithServer env e).2.1]))) ∨
    (∃ e, env.get = .ok e ∧ (addFinalizer e).2 = false ∧
        syncWithServer env e = ([], e, .Done false none) ∧
        (Reconcile env).trace = .Get :: (reconcileSynced env e).trace ∧
        (Reconcile env).ret = (reconcileSynced env e).ret) := by
  unfold Reconcile
  split
  · next err herr =>
    refine Or.inl ⟨⟨err, herr⟩, ?_⟩
    split_ifs <;> rfl
  · next e he =>
    simp only []
    split_ifs with hadd
    · obtain ⟨h1, h2, h3⟩ := addFinalizer_changed e hadd
      exact Or.inr (Or.inl ⟨e, he, h1, h2, by rw [h3]⟩)
    · have hadd2 : (addFinalizer e).2 = false := by simpa using hadd
      rw [addFinalizer_unchanged e hadd2]
      split
      · next calls x heq =>
        refine Or.inr (Or.inr (Or.inl ⟨e, he, hadd2, ?_, Or.inl ?_⟩))
        · rw [heq]; simp
        · rw [heq]
      · next calls synced dirty err heq =>
        split_ifs with herr hdirty
        · refine Or.inr (Or.inr (Or.inl ⟨e, he, hadd2, ?_, Or.inl ?_⟩))
          · rw [heq]; intro hc; simp at hc; exact herr hc.2
          · rw [heq]
        · refine Or.inr (Or.inr (Or.inl ⟨e, he, hadd2, ?_, Or.inr ?_⟩))
          · rw [heq]; intro hc; simp at hc; simp [hc.1] at hdirty
          · rw [heq]
        · have herr2 : err = none := by simpa using herr
          have hd2 : dirty = false := by simpa using hdirty
          subst herr2 hd2
          have hno := syncWithServer_noop env e (by rw [heq])
          rw [heq] at hno
          have hs : calls = [] ∧ synced = e := by
            have := hno.1
            simp at this
            exact ⟨this.1, this.2⟩
          obtain ⟨rfl, rfl⟩ := hs
          exact Or.inr (Or.inr (Or.inr ⟨synced, he, hadd2, heq, by simp, rfl⟩))

theorem mem_writes {c : Call} {l : List Call} (h : c ∈ l) (hw : c.isWrite = true) :
    c ∈ writes l := by
  simp [writes, h, hw]

theorem retire_update (env : Env) (experiment : Experiment) (t1 : Trial) (items : List Trial)
    (h : Call.UpdateTrial t1 ∈ (retire env experiment items).trace) :
    (∃ t ∈ items, t.deletionTimestamp ≠ none ∧
        removeFinalizer t.finalizers = some t1.finalizers ∧
        t1 = { t with finalizers := t1.finalizers }) ∧
    (IsTrialFinished t1 = true →
      ∃ pre, (retire env experiment items).trace
        = pre ++ [reportOf env t1, Call.UpdateTrial t1]) := by
  have hw := reconcileTrials_writes env experiment items 0
  have hu := reconcileTrials_update env experiment t1 items 0
  cases hrt : reconcileTrials env experiment 0 items with
  | mk calls r =>
    rw [hrt] at hw hu
    cases r with
    | some ret =>
      simp only [retire, hrt] at h ⊢
      exact hu h
    | none =>
      simp only [retire, hrt] at h ⊢
      exfalso
      rcases List.mem_append.mp h with h | h
      · have := mem_writes h rfl
        rw [hw.2 rfl] at this
        simp at this
      · have := releaseFinalizer_kinds env experiment _ h
        simp [Call.kind] at this

theorem mapHas_false_mapGet (m : StringMap) (k : String) (h : mapHas m k = false) :
    mapGet m k = "" := by
  cases m with
  | none => rfl
  | some l =>
    simp only [mapHas] at h
    simp only [mapGet]
    cases hf : l.find? (fun p => p.1 == k) with
    | none => rfl
    | some p =>
      exfalso
      have hp := List.find?_some hf
      have hm := List.mem_of_find?_eq_some hf
      have : l.any (fun p => p.1 == k) = true := List.any_eq_true.mpr ⟨p, hm, hp⟩
      rw [h] at this
      cases this

theorem mapHas_mapDelete (m : StringMap) (k : String) : mapHas (mapDelete m k) k = false := by
  cases m with
  | none => rfl
  | some l =>
    simp only [mapDelete, mapHas]
    rw [Bool.eq_false_iff]
    intro h
    obtain ⟨p, hp, hk⟩ := List.any_eq_true.mp h
    have := (List.mem_filter.mp hp).2
    simp [hk] at this

theorem retire_kinds (env : Env) (experiment : Experiment) (items : List Trial) :
    ∀ c ∈ (retire env experiment items).trace,
      c.kind = .ReportTrial ∨ c.kind = .UpdateTrial ∨ c.kind = .DeleteTrial
        ∨ c.kind = .UpdateExperiment := by
  have hk := reconcileTrials_kinds env experiment items 0
  cases hrt : reconcileTrials env experiment 0 items with
  | mk calls r =>
    rw [hrt] at hk
    cases r with
    | some ret =>
      simp only [retire, hrt]
      intro c hc
      rcases hk c hc with h | h | h <;> simp [h]
    | none =>
      simp only [retire, hrt]
      intro c hc
      rcases List.mem_append.mp hc with hc | hc
      · rcases hk c hc with h | h | h <;> simp [h]
      · simp [releaseFinalizer_kinds env experiment c hc]

theorem syncWithServer_create (env : Env) (experiment : Experiment) :
    ∀ c ∈ (syncWithServer env experiment).1, c.kind = .CreateExperiment →
      GetReplicas experiment > 0 ∧
        mapGet experiment.annotations annotationExperimentURL = "" := by
  unfold syncWithServer
  simp only []
  split_ifs with h1 h2
  · intro _ _ _; exact h1
  · split <;> simp [Call.kind]
  · simp

theorem syncWithServer_finalizers (env : Env) (experiment : Experiment) :
    (syncWithServer env experiment).2.1.finalizers = experiment.finalizers := by
  unfold syncWithServer
  simp only []
  split_ifs
  · split
    · split
      · rfl
      · split_ifs
        · split <;> rfl
        · rfl
    · rfl
  · split <;> rfl
  · rfl

theorem provision_nextTrial (env : Env) (experiment : Experiment) (url ns u : String) :
    Call.NextTrial u ∈ (provision env experiment url ns).trace → u = url := by
  unfold provision
  simp only []
  split
  · simp
  · split
    · split <;> simp
    · split <;> simp

theorem provision_updateExperiment (env : Env) (experiment : Experiment) (url ns : String)
    (e1 : Experiment) :
    Call.UpdateExperiment e1 ∈ (provision env experiment url ns).trace →
      e1.finalizers = experiment.finalizers := by
  unfold provision
  simp only []
  split
  · simp
  · split
    · split
      · intro h
        simp at h
        subst h
        rfl
      · simp
      · simp
    · split <;> simp

theorem provision_stopped (env : Env) (experiment : Experiment) (url ns : String)
    (d : Duration) (hs : env.nextTrial url = .error (.Api .ErrExperimentStopped d))
    (h : Call.NextTrial url ∈ (provision env experiment url ns).trace) :
    ∃ e1, (provision env experiment url ns).trace
        = [Call.NextTrial url, Call.UpdateExperiment e1] ∧
      GetReplicas e1 = 0 ∧ mapHas e1.annotations annotationNextTrialURL = false := by
  unfold provision at h ⊢
  simp only [] at h ⊢
  split at h
  · simp at h
  · simp only [hs]
    refine ⟨_, rfl, ?_, ?_⟩
    · simp [GetReplicas, SetReplicas]
    · exact mapHas_mapDelete _ _

theorem removeFinalizer_eq_none (fs : List String) :
    removeFinalizer fs = none ↔ finalizer ∉ fs := by
  unfold removeFinalizer
  simp only []
  constructor
  · intro h hmem
    have hlt : fs.findIdx (fun f => f == finalizer) < fs.length :=
      List.findIdx_lt_length_of_exists ⟨finalizer, hmem, by simp⟩
    rw [if_pos hlt] at h
    cases h
  · intro h
    have hge : ¬ fs.findIdx (fun f => f == finalizer) < fs.length := by
      intro hlt
      obtain ⟨x, hx, hp⟩ := List.findIdx_lt_length.mp hlt
      have : x = finalizer := by simpa using hp
      exact h (this ▸ hx)
    rw [if_neg hge]

theorem addFinalizer_adds (experiment : Experiment)
    (hnd : experiment.deletionTimestamp = none) (hf : finalizer ∉ experiment.finalizers) :
    (addFinalizer experiment).2 = true := by
  unfold addFinalizer
  have h2 : ¬ (experiment.finalizers.any (fun f => f == finalizer) = true) := by
    simpa using hf
  simp [hnd, h2]

/-- When the loop over the trials of a deleted experiment runs to its end, every
listed trial is marked for deletion and has no lifecycle finalizer. -/
theorem reconcileTrials_none (env : Env) (experiment : Experiment)
    (hdel : experiment.deletionTimestamp ≠ none) :
    ∀ (items : List Trial) (i : Nat), (reconcileTrials env experiment i items).2 = none →
      ∀ t ∈ items, t.deletionTimestamp ≠ none ∧ finalizer ∉ t.finalizers := by
  intro items
  induction items with
  | nil => intro i _ t ht; simp at ht
  | cons t rest ih =>
    intro i
    have hrec := ih (i + 1)
    unfold reconcileTrials
    simp only []
    split_ifs with hfin hd herr hd2
    · simp
    · simp
    · split
      · simp
      · next hfs =>
        intro h t0 ht0
        rcases List.mem_cons.mp ht0 with rfl | ht0
        · exact ⟨hd, (removeFinalizer_eq_none _).mp hfs⟩
        · exact hrec h t0 ht0
    · split
      · simp
      · next hfs =>
        intro h t0 ht0
        rcases List.mem_cons.mp ht0 with rfl | ht0
        · exact ⟨hd2, (removeFinalizer_eq_none _).mp hfs⟩
        · exact hrec h t0 ht0
    · simp

theorem retire_updateExperiment (env : Env) (experiment e1 : Experiment)
    (items : List Trial)
    (h : Call.UpdateExperiment e1 ∈ (retire env experiment items).trace) :
    experiment.deletionTimestamp ≠ none ∧
      removeFinalizer experiment.finalizers = some e1.finalizers ∧
      e1 = { experiment with finalizers := e1.finalizers } ∧
      (reconcileTrials env experiment 0 items).2 = none := by
  have hk := reconcileTrials_kinds env experiment items 0
  cases hrt : reconcileTrials env experiment 0 items with
  | mk calls r =>
    rw [hrt] at hk
    cases r with
    | some ret =>
      simp only [retire, hrt] at h
      have := hk _ h
      simp [Call.kind] at this
    | none =>
      simp only [retire, hrt] at h
      rcases List.mem_append.mp h with h | h
      · have := hk _ h
        simp [Call.kind] at this
      · unfold releaseFinalizer at h
        split_ifs at h with hdel
        · split at h
          · next fs hfs =>
            simp at h
            subst h
            exact ⟨hdel, hfs, rfl, rfl⟩
          · simp at h
        · simp at h

theorem isFinishTimeCondition_eq (c : TrialCondition) :
    isFinishTimeCondition c = isTrueFinishCondition c := by
  unfold isFinishTimeCondition isTrueFinishCondition
  cases c with
  | mk type status time => cases type <;> simp

theorem foldr_max_init (l : List Nat) (a x : Nat) :
    l.foldr max (max a x) = max x (l.foldr max a) := by
  induction l with
  | nil => simp [max_comm]
  | cons y ys ih => simp only [List.foldr_cons, ih]; exact max_left_comm _ _ _

theorem cleanupStep_eq (f : Option Int) (a : Time) (ttl : Option Int) (c : TrialCondition) :
    cleanupStep f (a, ttl) c
      = if isTrueFinishCondition c = true then
          (max a c.lastTransitionTime,
            if c.type = .TrialFailed ∧ f ≠ none then f else ttl)
        else (a, ttl) := by
  unfold cleanupStep
  rw [isFinishTimeCondition_eq]
  have : (if a < c.lastTransitionTime then c.lastTransitionTime else a)
      = max a c.lastTransitionTime := by
    rcases lt_or_ge a c.lastTransitionTime with h | h
    · rw [if_pos h, max_eq_right h.le]
    · rw [if_neg (not_lt.mpr h), max_eq_left h]
  simp only [this]

theorem cleanupScan_fst (f : Option Int) (conds : List TrialCondition) :
    ∀ (a : Time) (ttl : Option Int),
      (conds.foldl (cleanupStep f) (a, ttl)).1
        = ((conds.filter isTrueFinishCondition).map (fun c => c.lastTransitionTime)).foldr max a := by
  induction conds with
  | nil => intro a ttl; rfl
  | cons c cs ih =>
    intro a ttl
    simp only [List.foldl_cons]
    rw [cleanupStep_eq]
    by_cases hq : isTrueFinishCondition c = true
    · simp only [hq, if_true, List.filter_cons_of_pos, List.map_cons, List.foldr_cons]
      rw [ih, foldr_max_init]
    · simp only [hq, if_false, Bool.false_eq_true]
      rw [ih]
      simp [hq]

theorem cleanupScan_snd (f : Option Int) (conds : List TrialCondition) :
    ∀ (a : Time) (ttl : Option Int),
      (conds.foldl (cleanupStep f) (a, ttl)).2
        = if conds.any isTrueFailure = true ∧ f ≠ none then f else ttl := by
  induction conds with
  | nil => intro a ttl; simp
  | cons c cs ih =>
    intro a ttl
    simp only [List.foldl_cons]
    rw [cleanupStep_eq]
    by_cases hq : isTrueFinishCondition c = true
    · simp only [hq, if_true]
      rw [ih]
      have hfail : isTrueFailure c = true ↔ c.type = .TrialFailed := by
        unfold isTrueFinishCondition at hq
        unfold isTrueFailure
        cases c with
        | mk type status time => cases type <;> simp_all
      by_cases hf : c.type = .TrialFailed ∧ f ≠ none
      · simp [hf, hfail.mpr hf.1]
      · rw [if_neg hf]
        by_cases hfn : f ≠ none
        · have : ¬ c.type = .TrialFailed := fun h => hf ⟨h, hfn⟩
          have h2 : isTrueFailure c = false := by
            rw [Bool.eq_false_iff]; intro h; exact this (hfail.mp h)
          simp [h2]
        · simp [hfn]
    · simp only [hq, if_false, Bool.false_eq_true]
      rw [ih]
      have h2 : isTrueFailure c = false := by
        rw [Bool.eq_false_iff]
        intro h
        apply hq
        unfold isTrueFailure at h
        unfold isTrueFinishCondition
        simp at h
        simp [h.1, h.2]
      simp [h2]

theorem cleanupScan_eq (t : Trial) : cleanupScan t = (finishTime t, effectiveTTL t) := by
  unfold cleanupScan finishTime effectiveTTL
  apply Prod.ext
  · exact cleanupScan_fst _ _ _ _
  · exact cleanupScan_snd _ _ _ _

theorem NeedsCleanup_iff (now : Time) (t : Trial) :
    NeedsCleanup now t = true ↔
      timeIsZero t.deletionTimestamp = true ∧ IsTrialActive t = false ∧
      ∃ ttl, effectiveTTL t = some ttl ∧ 0 ≤ ttl ∧ finishTime t ≠ 0 ∧
        (finishTime t : Int) + ttl * second < (now : Int) := by
  unfold NeedsCleanup
  simp only [cleanupScan_eq]
  by_cases h1 : timeIsZero t.deletionTimestamp = true
  · by_cases h2 : IsTrialActive t = true
    · simp [h1, h2]
    · have h2f : IsTrialActive t = false := by simpa using h2
      cases httl : effectiveTTL t with
      | none => simp [h1, h2f]
      | some ttl =>
        simp only [h1, h2f]
        by_cases h3 : finishTime t = 0
        · simp [h3]
        · by_cases h4 : ttl < 0
          · have h5 : ¬ (0 ≤ ttl) := by omega
            simp [h3, h4, h5]
          · have h5 : 0 ≤ ttl := by omega
            simp [h3, h4, h5]
  · have h1f : timeIsZero t.deletionTimestamp = false := by simpa using h1
    simp [h1f]

theorem inuseNamespaces_foldl (trials : List Trial) :
    ∀ acc : List String,
      trials.foldl
        (fun inuse t =>
          if IsTrialActive t then
            if t.targetNamespace ≠ "" then t.targetNamespace :: inuse
            else t.namespace_ :: inuse
          else inuse)
        acc = (inUse trials).reverse ++ acc := by
  induction trials with
  | nil => intro acc; simp [inUse]
  | cons t ts ih =>
    intro acc
    simp only [List.foldl_cons]
    rw [ih]
    by_cases ha : IsTrialActive t = true
    · by_cases hn : t.targetNamespace ≠ ""
      · simp [inUse, ha, hn, effectiveNamespace]
      · simp [inUse, ha, hn, effectiveNamespace]
    · simp [inUse, ha]

theorem inuseNamespaces_contains (trials : List Trial) (ns : String) :
    (inuseNamespaces trials).contains ns = (inUse trials).contains ns := by
  unfold inuseNamespaces
  rw [inuseNamespaces_foldl]
  rw [Bool.eq_iff_iff]
  simp

theorem firstAvailable_eq (trials : List Trial) (items : List String) :
    firstAvailable (inuseNamespaces trials) items = firstNotInUse trials items := by
  unfold firstNotInUse
  induction items with
  | nil => rfl
  | cons item rest ih =>
    unfold firstAvailable
    rw [inuseNamespaces_contains]
    by_cases h : item ∈ inUse trials
    · simpa [h] using ih
    · simp [h]

theorem firstNotInUse_free (trials : List Trial) (items : List String) (ns : String)
    (h : firstNotInUse trials items = ns) (hne : ns ≠ "") :
    ns ∈ items ∧ ns ∉ inUse trials := by
  unfold firstNotInUse at h
  cases hf : items.find? (fun ns => !(inUse trials).contains ns) with
  | none => rw [hf] at h; exact absurd h.symm hne
  | some x =>
    rw [hf] at h
    simp only at h
    subst h
    refine ⟨List.mem_of_find?_eq_some hf, ?_⟩
    have := List.find?_some hf
    simpa using this


theorem mem_inuseNamespaces (trials : List Trial) (ns : String) :
    ns ∈ inuseNamespaces trials ↔
      ∃ t ∈ trials, IsTrialActive t = true ∧ effectiveNamespace t = ns := by
  unfold inuseNamespaces
  rw [inuseNamespaces_foldl]
  simp [inUse, and_assoc]

/-- The full case analysis of `reconcileSynced`, with its outcome in each case. -/
theorem reconcileSynced_shape (env : Env) (e : Experiment) :
    (∃ err, listOptions env e = .error err ∧
        (reconcileSynced env e).trace = [] ∧
        (reconcileSynced env e).ret = .Returned Result.empty (some err)) ∨
    (∃ opts err, listOptions env e = .ok opts ∧ env.listTrials opts = .error err ∧
        (reconcileSynced env e).trace = [.ListTrials opts] ∧
        (reconcileSynced env e).ret = .Returned Result.empty (some err)) ∨
    (∃ opts items, listOptions env e = .ok opts ∧ env.listTrials opts = .ok items ∧
      ((provisioningGate e items ∧ ∃ calls err,
          findAvailableNamespace env e items = (calls, .error err) ∧
          (reconcileSynced env e).trace = .ListTrials opts :: calls ∧
          (reconcileSynced env e).ret = .Returned Result.empty (some err)) ∨
       (provisioningGate e items ∧ ∃ calls ns,
          findAvailableNamespace env e items = (calls, .ok ns) ∧ ns ≠ "" ∧
          (reconcileSynced env e).trace
            = .ListTrials opts :: (calls ++ (provision env e
                (mapGet e.annotations annotationNextTrialURL) ns).trace) ∧
          (reconcileSynced env e).ret
            = (provision env e (mapGet e.annotations annotationNextTrialURL) ns).ret) ∨
       (provisioningGate e items ∧ ∃ calls,
          findAvailableNamespace env e items = (calls, .ok "") ∧
          (reconcileSynced env e).trace
            = .ListTrials opts :: (calls ++ (retire env e items).trace) ∧
          (reconcileSynced env e).ret = (retire env e items).ret) ∨
       (¬ provisioningGate e items ∧
          (reconcileSynced env e).trace = .ListTrials opts :: (retire env e items).trace ∧
          (reconcileSynced env e).ret = (retire env e items).ret))) := by
  unfold reconcileSynced
  split
  · next err herr => exact Or.inl ⟨err, herr, rfl, rfl⟩
  · next opts hopts =>
    split
    · next err herr => exact Or.inr (Or.inl ⟨opts, err, hopts, herr, rfl, rfl⟩)
    · next items hitems =>
      refine Or.inr (Or.inr ⟨opts, items, hopts, hitems, ?_⟩)
      simp only []
      split_ifs with hcond
      · split
        · next calls err heq => exact Or.inl ⟨hcond, calls, err, heq, rfl, rfl⟩
        · next calls ns heq =>
          split_ifs with hns
          · exact Or.inr (Or.inl ⟨hcond, calls, ns, heq, hns, rfl, rfl⟩)
          · have hns2 : ns = "" := by simpa using hns
            subst hns2
            exact Or.inr (Or.inr (Or.inl ⟨hcond, calls, heq, rfl, rfl⟩))
      · exact Or.inr (Or.inr (Or.inr ⟨hcond, rfl, rfl⟩))

/-- The outcome of `Reconcile` when the experiment needs neither the finalizer
nor a synchronization with the server. -/
theorem Reconcile_synced (env : Env) (e : Experiment) (hget : env.get = .ok e)
    (hadd : (addFinalizer e).2 = false)
    (hsync : (syncWithServer env e).2.2 = .Done false none) :
    (Reconcile env).trace = .Get :: (reconcileSynced env e).trace ∧
      (Reconcile env).ret = (reconcileSynced env e).ret := by
  rcases Reconcile_cases env with ⟨⟨err, herr⟩, _⟩ | ⟨e0, he, hnd, hf, _⟩ |
    ⟨e0, he, _, hs, _⟩ | ⟨e0, he, _, _, ht, hr⟩
  · rw [hget] at herr; cases herr
  · have he2 : e0 = e := by rw [hget] at he; cases he; rfl
    subst he2
    rw [addFinalizer_adds e0 hnd hf] at hadd
    cases hadd
  · have he2 : e0 = e := by rw [hget] at he; cases he; rfl
    subst he2
    exact absurd hsync hs
  · have he2 : e0 = e := by rw [hget] at he; cases he; rfl
    subst he2
    exact ⟨ht, hr⟩

theorem addFinalizer_present (e : Experiment) (h : finalizer ∈ e.finalizers) :
    (addFinalizer e).2 = false := by
  unfold addFinalizer
  have h2 : e.finalizers.any (fun f => f == finalizer) = true := by
    simpa using h
  split_ifs <;> simp_all

/-- When the invocation gets as far as the loop over the trials, the calls made
before the loop are reads, and the outcome is that of the loop and of what
follows it. -/
theorem Reconcile_reaches (env : Env) (e : Experiment) (items : List Trial)
    (h : ReachesTrialLoop env e items) :
    ∃ p, (∀ c ∈ p, c.kind = .Get ∨ c.kind = .ListTrials ∨ c.kind = .ListNamespaces) ∧
      (Reconcile env).trace = p ++ (retire env e items).trace ∧
      (Reconcile env).ret = (retire env e items).ret := by
  obtain ⟨hget, hadd, hsync, ⟨opts, hopts, hlist⟩, hprov⟩ := h
  obtain ⟨ht, hr⟩ := Reconcile_synced env e hget hadd hsync
  rw [ht, hr]
  rcases reconcileSynced_shape env e with ⟨err, herr, _⟩ | ⟨o, err, ho, herr, _⟩ |
    ⟨o, its, ho, hits, hcase⟩
  · rw [hopts] at herr; cases herr
  · rw [hopts] at ho; cases ho
    rw [hlist] at herr; cases herr
  · rw [hopts] at ho; cases ho
    rw [hlist] at hits; cases hits
    have hk := findAvailableNamespace_kinds env e items
    rcases hcase with ⟨hg, calls, err, hf, _⟩ | ⟨hg, calls, ns, hf, hns, _⟩ |
      ⟨hg, calls, hf, ht2, hr2⟩ | ⟨hg, ht2, hr2⟩
    · rcases hprov with hprov | hprov
      · exact absurd hg hprov
      · rw [hf] at hprov; cases hprov
    · rcases hprov with hprov | hprov
      · exact absurd hg hprov
      · rw [hf] at hprov
        simp at hprov
        exact absurd hprov hns
    · refine ⟨.Get :: .ListTrials opts :: calls, ?_, ?_, hr2⟩
      · intro c hc
        rw [hf] at hk
        simp only [List.mem_cons] at hc
        rcases hc with rfl | rfl | hc
        · simp [Call.kind]
        · simp [Call.kind]
        · exact Or.inr (Or.inr (hk c hc))
      · rw [ht2]; simp
    · refine ⟨[.Get, .ListTrials opts], ?_, ?_, hr2⟩
      · intro c hc
        simp only [List.mem_cons, List.mem_singleton, List.not_mem_nil, or_false] at hc
        rcases hc with rfl | rfl <;> simp [Call.kind]
      · rw [ht2]; simp

theorem writes_of_reads (p : List Call)
    (h : ∀ c ∈ p, c.kind = .Get ∨ c.kind = .ListTrials ∨ c.kind = .ListNamespaces) :
    writes p = [] := by
  simp only [writes, List.filter_eq_nil_iff]
  intro c hc
  rcases h c hc with hk | hk | hk <;> cases c <;> simp_all [Call.kind, Call.isWrite]

/-- The loop over the trials goes through a prefix on which it does not return. -/
theorem reconcileTrials_append (env : Env) (e : Experiment) (l : List Trial) :
    ∀ (pre : List Trial) (i : Nat), (reconcileTrials env e i pre).2 = none →
      (reconcileTrials env e i (pre ++ l)).1
          = (reconcileTrials env e i pre).1 ++ (reconcileTrials env e (i + pre.length) l).1 ∧
        (reconcileTrials env e i (pre ++ l)).2
          = (reconcileTrials env e (i + pre.length) l).2 := by
  intro pre
  induction pre with
  | nil => intro i _; simp [reconcileTrials]
  | cons t rest ih =>
    intro i
    have hrec := ih (i + 1)
    have hidx : i + 1 + rest.length = i + (rest.length + 1) := by omega
    simp only [List.cons_append, List.length_cons]
    rw [← hidx]
    generalize reconcileTrials env e (i + 1 + rest.length) l = R at hrec ⊢
    unfold reconcileTrials
    simp only []
    split_ifs with hfin hd herr hd2 hexp
    · simp
    · simp
    · split
      · simp
      · intro h
        obtain ⟨h1, h2⟩ := hrec h
        exact ⟨by simp [h1], h2⟩
    · split
      · simp
      · exact hrec
    · simp
    · exact hrec

theorem defaultTrialIdentity_fields (gdl : Experiment → StringMap)
    (gsr : Experiment → ObjectReference) (e : Experiment) (t : Trial) (ns : String) :
    (defaultTrialIdentity gdl gsr e t ns).targetNamespace = t.targetNamespace ∧
    (defaultTrialIdentity gdl gsr e t ns).finalizers = t.finalizers ∧
    (defaultTrialIdentity gdl gsr e t ns).assignments = t.assignments ∧
    (defaultTrialIdentity gdl gsr e t ns).values = t.values ∧
    (defaultTrialIdentity gdl gsr e t ns).ownerReferences = t.ownerReferences ∧
    (defaultTrialIdentity gdl gsr e t ns).jobTemplate = t.jobTemplate ∧
    (defaultTrialIdentity gdl gsr e t ns).namespace_
      = (if t.namespace_ = "" then ns else t.namespace_) ∧
    (defaultTrialIdentity gdl gsr e t ns).name
      = (if t.name = "" then
          if (if t.namespace_ = "" then ns else t.namespace_) ≠ e.namespace_ then e.name
          else ""
        else t.name) ∧
    (defaultTrialIdentity gdl gsr e t ns).generateName
      = (if t.name = "" ∧ (if t.namespace_ = "" then ns else t.namespace_) = e.namespace_
            ∧ t.generateName = "" then e.name ++ "-"
        else t.generateName) ∧
    (defaultTrialIdentity gdl gsr e t ns).labels
      = (if mapLen t.labels = 0 then gdl e else t.labels) ∧
    (defaultTrialIdentity gdl gsr e t ns).annotations
      = (if t.annotations = none then some [] else t.annotations) ∧
    (defaultTrialIdentity gdl gsr e t ns).experimentRef
      = (if t.experimentRef = none then some (gsr e) else t.experimentRef) := by
  suffices h : ∀ r : Trial, r = defaultTrialIdentity gdl gsr e t ns →
      r.targetNamespace = t.targetNamespace ∧ r.finalizers = t.finalizers ∧
      r.assignments = t.assignments ∧ r.values = t.values ∧
      r.ownerReferences = t.ownerReferences ∧ r.jobTemplate = t.jobTemplate ∧
      r.namespace_ = (if t.namespace_ = "" then ns else t.namespace_) ∧
      r.name = (if t.name = "" then
          if (if t.namespace_ = "" then ns else t.namespace_) ≠ e.namespace_ then e.name
          else ""
        else t.name) ∧
      r.generateName
        = (if t.name = "" ∧ (if t.namespace_ = "" then ns else t.namespace_) = e.namespace_
              ∧ t.generateName = "" then e.name ++ "-"
          else t.generateName) ∧
      r.labels = (if mapLen t.labels = 0 then gdl e else t.labels) ∧
      r.annotations = (if t.annotations = none then some [] else t.annotations) ∧
      r.experimentRef = (if t.experimentRef = none then some (gsr e) else t.experimentRef) from
    h _ rfl
  intro r hr
  unfold defaultTrialIdentity at hr
  lift_lets at hr
  extract_lets t1 t2 t3 t4 at hr
  have a1 : t1.targetNamespace = t.targetNamespace ∧ t1.finalizers = t.finalizers ∧
      t1.assignments = t.assignments ∧ t1.values = t.values ∧
      t1.ownerReferences = t.ownerReferences ∧ t1.jobTemplate = t.jobTemplate ∧
      t1.namespace_ = (if t.namespace_ = "" then ns else t.namespace_) ∧
      t1.name = t.name ∧ t1.generateName = t.generateName ∧ t1.labels = t.labels ∧
      t1.annotations = t.annotations ∧ t1.experimentRef = t.experimentRef := by
    simp only [t1]
    split_ifs <;> simp
  have a2 : t2.targetNamespace = t1.targetNamespace ∧ t2.finalizers = t1.finalizers ∧
      t2.assignments = t1.assignments ∧ t2.values = t1.values ∧
      t2.ownerReferences = t1.ownerReferences ∧ t2.jobTemplate = t1.jobTemplate ∧
      t2.namespace_ = t1.namespace_ ∧
      t2.name = (if t1.name = "" then
          if t1.namespace_ ≠ e.namespace_ then e.name else "" else t1.name) ∧
      t2.generateName = (if t1.name = "" ∧ t1.namespace_ = e.namespace_
            ∧ t1.generateName = "" then e.name ++ "-" else t1.generateName) ∧
      t2.labels = t1.labels ∧
      t2.annotations = t1.annotations ∧ t2.experimentRef = t1.experimentRef := by
    simp only [t2]
    split_ifs <;> simp_all
  have a3 : t3.targetNamespace = t2.targetNamespace ∧ t3.finalizers = t2.finalizers ∧
      t3.assignments = t2.assignments ∧ t3.values = t2.values ∧
      t3.ownerReferences = t2.ownerReferences ∧ t3.jobTemplate = t2.jobTemplate ∧
      t3.namespace_ = t2.namespace_ ∧ t3.name = t2.name ∧
      t3.generateName = t2.generateName ∧
      t3.labels = (if mapLen t2.labels = 0 then gdl e else t2.labels) ∧
      t3.annotations = t2.annotations ∧ t3.experimentRef = t2.experimentRef := by
    simp only [t3]
    split_ifs <;> simp_all
  have a4 : t4.targetNamespace = t3.targetNamespace ∧ t4.finalizers = t3.finalizers ∧
      t4.assignments = t3.assignments ∧ t4.values = t3.values ∧
      t4.ownerReferences = t3.ownerReferences ∧ t4.jobTemplate = t3.jobTemplate ∧
      t4.namespace_ = t3.namespace_ ∧ t4.name = t3.name ∧
      t4.generateName = t3.generateName ∧ t4.labels = t3.labels ∧
      t4.annotations = (if t3.annotations = none then some [] else t3.annotations) ∧
      t4.experimentRef = t3.experimentRef := by
    simp only [t4]
    split_ifs <;> simp_all
  clear_value t1 t2 t3 t4
  obtain ⟨b1, b2, b3, b4, b5, b6, b7, b8, b9, b10, b11, b12⟩ := a1
  obtain ⟨c1, c2, c3, c4, c5, c6, c7, c8, c9, c10, c11, c12⟩ := a2
  obtain ⟨d1, d2, d3, d4, d5, d6, d7, d8, d9, d10, d11, d12⟩ := a3
  obtain ⟨f1, f2, f3, f4, f5, f6, f7, f8, f9, f10, f11, f12⟩ := a4
  subst hr
  have h12 : t4.experimentRef = t.experimentRef := by rw [f12, d12, c12, b12]
  by_cases h5 : t4.experimentRef = none
  · have h5t : t.experimentRef = none := by rw [← h12]; exact h5
    rw [if_pos h5, if_pos h5t]
    refine ⟨?_, ?_, ?_, ?_, ?_, ?_, ?_, ?_, ?_, ?_, ?_, rfl⟩
    · show t4.targetNamespace = _; rw [f1, d1, c1, b1]
    · show t4.finalizers = _; rw [f2, d2, c2, b2]
    · show t4.assignments = _; rw [f3, d3, c3, b3]
    · show t4.values = _; rw [f4, d4, c4, b4]
    · show t4.ownerReferences = _; rw [f5, d5, c5, b5]
    · show t4.jobTemplate = _; rw [f6, d6, c6, b6]
    · show t4.namespace_ = _; rw [f7, d7, c7, b7]
    · show t4.name = _; rw [f8, d8, c8, b8, b7]
    · show t4.generateName = _; rw [f9, d9, c9, b8, b7, b9]
    · show t4.labels = _; rw [f10, d10, c10, b10]
    · show t4.annotations = _; rw [f11, d11, c11, b11]
  · have h5t : ¬ t.experimentRef = none := by rw [← h12]; exact h5
    rw [if_neg h5, if_neg h5t]
    refine ⟨?_, ?_, ?_, ?_, ?_, ?_, ?_, ?_, ?_, ?_, ?_, h12⟩
    · rw [f1, d1, c1, b1]
    · rw [f2, d2, c2, b2]
    · rw [f3, d3, c3, b3]
    · rw [f4, d4, c4, b4]
    · rw [f5, d5, c5, b5]
    · rw [f6, d6, c6, b6]
    · rw [f7, d7, c7, b7]
    · rw [f8, d8, c8, b8, b7]
    · rw [f9, d9, c9, b8, b7, b9]
    · rw [f10, d10, c10, b10]
    · rw [f11, d11, c11, b11]

theorem mapGet_entriesSet (l : List (String × String)) (k v : String) :
    mapGet (some (entriesSet l k v)) k = v := by
  unfold entriesSet mapGet
  simp only []
  by_cases h : l.any (fun p => p.1 == k) = true
  · rw [if_pos h]
    have : ∀ l : List (String × String), l.any (fun p => p.1 == k) = true →
        (l.map (fun p => if (p.1 == k) = true then (k, v) else p)).find? (fun p => p.1 == k)
          = some (k, v) := by
      intro l
      induction l with
      | nil => intro h; simp at h
      | cons p ps ih =>
        intro h
        by_cases hp : (p.1 == k) = true
        · simp only [List.map_cons, hp, if_true]
          exact List.find?_cons_of_pos _ (by simp)
        · have hps : ps.any (fun p => p.1 == k) = true := by
            simp only [List.any_cons, Bool.or_eq_true] at h
            rcases h with h | h
            · exact absurd h hp
            · exact h
          simp only [List.map_cons, hp, if_false, Bool.false_eq_true]
          rw [List.find?_cons]
          have hp2 : (p.1 == k) = false := by simpa using hp
          simp only [hp2]
          exact ih hps
    rw [this l h]
  · rw [if_neg h]
    have hnone : l.find? (fun p => p.1 == k) = none := by
      rw [List.find?_eq_none]
      intro p hp hk
      exact h (List.any_eq_true.mpr ⟨p, hp, hk⟩)
    rw [List.find?_append, hnone]
    simp

theorem addAssignments_eq (env : Env) (suggestion : List ApiAssignment) :
    ∀ assignments : List Assignment,
      addAssignments env assignments suggestion
        = assignments ++ integerAssignments env.parseInt64 suggestion := by
  unfold addAssignments integerAssignments
  induction suggestion with
  | nil => intro a; simp
  | cons s ss ih =>
    intro a
    simp only [List.foldl_cons]
    rw [ih]
    cases h : env.parseInt64 s.value with
    | none => simp [List.filterMap_cons, h]
    | some v => simp [List.filterMap_cons, h]

theorem observation_eq (env : Env) (t : Trial) :
    observation env t = observationOf env.parseFloat t := by
  unfold observation observationOf
  congr 1
  · congr 1
    funext v
    cases env.parseFloat v.value <;> rfl
  · rw [Bool.eq_iff_iff]
    simp

theorem populateTrialFromTemplate_fields (gdl : Experiment → StringMap)
    (gsr : Experiment → ObjectReference) (e : Experiment) (ns : String) :
    (populateTrialFromTemplate gdl gsr e ns).annotations
      = (if e.template.annotations = none then some [] else e.template.annotations) ∧
    (populateTrialFromTemplate gdl gsr e ns).assignments = e.template.assignments ∧
    (populateTrialFromTemplate gdl gsr e ns).finalizers = e.template.finalizers ++ [finalizer] := by
  unfold populateTrialFromTemplate
  simp only []
  refine ⟨?_, ?_, ?_⟩
  · rw [(defaultTrialIdentity_fields gdl gsr e _ ns).2.2.2.2.2.2.2.2.2.2.1]
    split_ifs <;> simp_all [trialOfTemplate]
  · rw [(defaultTrialIdentity_fields gdl gsr e _ ns).2.2.1]
    split_ifs <;> rfl
  · rw [(defaultTrialIdentity_fields gdl gsr e _ ns).2.1]
    split_ifs <;> rfl

/-- The outcome of the provisioning block once the owner reference is set. -/
theorem provision_outcome (env : Env) (e : Experiment) (url ns : String)
    (h : Call.NextTrial url ∈ (provision env e url ns).trace) :
    (∀ d, env.nextTrial url = .error (.Api .ErrTrialUnavailable d) →
      (provision env e url ns).trace = [.NextTrial url] ∧
      (provision env e url ns).ret
        = .Returned { requeue := true, requeueAfter := d } none) ∧
    (∀ err, env.nextTrial url = .error err →
      (∀ d, err ≠ .Api .ErrExperimentStopped d) →
      (∀ d, err ≠ .Api .ErrTrialUnavailable d) →
      (provision env e url ns).trace = [.NextTrial url] ∧
      (provision env e url ns).ret = .Returned Result.empty (some err)) ∧
    (∀ suggestion reportTrialURL, env.nextTrial url = .ok (suggestion, reportTrialURL) →
      ∃ trial, (provision env e url ns).trace = [.NextTrial url, .CreateTrial trial] ∧
        (provision env e url ns).ret = .Returned Result.empty (env.createTrial trial) ∧
        mapGet trial.annotations annotationReportTrialURL = reportTrialURL ∧
        trial.assignments
          = e.template.assignments ++ integerAssignments env.parseInt64 suggestion ∧
        trial.finalizers = e.template.finalizers ++ [finalizer]) := by
  obtain ⟨hann, hasg, hfin⟩ :=
    populateTrialFromTemplate_fields env.GetDefaultLabels env.GetSelfReference e ns
  unfold provision at h ⊢
  simp only [] at h ⊢
  split at h
  · simp at h
  · next refs href =>
    refine ⟨?_, ?_, ?_⟩
    · intro d hd
      simp [hd]
    · intro err herr hns hnu
      simp only [herr]
      rcases err with m | ⟨ty, d⟩ | m
      · simp
      · cases ty with
        | ErrExperimentStopped => exact absurd rfl (hns d)
        | ErrTrialUnavailable => exact absurd rfl (hnu d)
        | Other name => simp
      · simp
    · intro suggestion reportTrialURL hok
      simp only [hok]
      split
      · next hnone =>
        exfalso
        rw [hann] at hnone
        split_ifs at hnone with hc
        exact hc hnone
      · next entries hentries =>
        refine ⟨_, rfl, rfl, ?_, ?_, ?_⟩
        · exact mapGet_entriesSet _ _ _
        · simp only [addAssignments_eq]
          rw [hasg]
        · exact hfin

/-- A call of a given kind that is neither a read, nor made by the
synchronization with the server, can only come from the part of `Reconcile`
that follows the synchronization. -/
theorem Reconcile_mem_synced (env : Env) (c : Call) (h : c ∈ (Reconcile env).trace)
    (hk : c.kind = .NextTrial ∨ c.kind = .ListNamespaces ∨ c.kind = .CreateTrial
      ∨ c.kind = .ReportTrial ∨ c.kind = .UpdateTrial ∨ c.kind = .DeleteTrial) :
    ∃ e, env.get = .ok e ∧ (addFinalizer e).2 = false ∧
      (syncWithServer env e).2.2 = .Done false none ∧
      (Reconcile env).trace = .Get :: (reconcileSynced env e).trace ∧
      (Reconcile env).ret = (reconcileSynced env e).ret ∧
      c ∈ (reconcileSynced env e).trace := by
  rcases Reconcile_cases env with ⟨_, ht⟩ | ⟨e, _, _, _, ht⟩ | ⟨e, _, _, _, ht⟩ |
    ⟨e, he, hadd, hs, ht, hr⟩
  · exfalso
    rw [ht] at h
    simp only [List.mem_singleton] at h
    subst h
    simp [Call.kind] at hk
  · exfalso
    rw [ht] at h
    simp only [List.mem_cons, List.mem_singleton, List.not_mem_nil, or_false] at h
    rcases h with rfl | rfl <;> simp [Call.kind] at hk
  · exfalso
    have hsk := syncWithServer_kinds env e
    rcases ht with ht | ht <;> rw [ht] at h
    · rcases List.mem_cons.mp h with rfl | h
      · simp [Call.kind] at hk
      · rcases hsk _ h with h2 | h2 <;> rw [h2] at hk <;> simp at hk
    · rcases List.mem_cons.mp h with rfl | h
      · simp [Call.kind] at hk
      · rcases List.mem_append.mp h with h | h
        · rcases hsk _ h with h2 | h2 <;> rw [h2] at hk <;> simp at hk
        · simp only [List.mem_singleton] at h
          subst h
          simp [Call.kind] at hk
  · refine ⟨e, he, hadd, by rw [hs], ht, hr, ?_⟩
    rw [ht] at h
    rcases List.mem_cons.mp h with rfl | h
    · simp [Call.kind] at hk
    · exact h

/-- A `NextTrial` call of `Reconcile` comes from the provisioning block, entered
with the recorded next-trial URL and an available namespace. -/
theorem Reconcile_nextTrial (env : Env) (url : String)
    (h : Call.NextTrial url ∈ (Reconcile env).trace) :
    ∃ e opts items calls ns, env.get = .ok e ∧ (addFinalizer e).2 = false ∧
      (syncWithServer env e).2.2 = .Done false none ∧
      listOptions env e = .ok opts ∧ env.listTrials opts = .ok items ∧
      provisioningGate e items ∧
      findAvailableNamespace env e items = (calls, .ok ns) ∧ ns ≠ "" ∧
      url = mapGet e.annotations annotationNextTrialURL ∧
      (Reconcile env).trace
        = .Get :: .ListTrials opts :: (calls ++ (provision env e url ns).trace) ∧
      (Reconcile env).ret = (provision env e url ns).ret ∧
      Call.NextTrial url ∈ (provision env e url ns).trace := by
  obtain ⟨e, he, hadd, hs, ht, hr, hmem⟩ :=
    Reconcile_mem_synced env _ h (Or.inl rfl)
  rcases reconcileSynced_shape env e with ⟨err, _, ht2, _⟩ | ⟨o, err, _, _, ht2, _⟩ |
    ⟨opts, items, ho, hits, hcase⟩
  · rw [ht2] at hmem; simp at hmem
  · rw [ht2] at hmem; simp at hmem
  · have hk := findAvailableNamespace_kinds env e items
    rcases hcase with ⟨hg, calls, err, hf, ht2, _⟩ | ⟨hg, calls, ns, hf, hns, ht2, hr2⟩ |
      ⟨hg, calls, hf, ht2, hr2⟩ | ⟨hg, ht2, hr2⟩
    · exfalso
      rw [ht2] at hmem
      rw [hf] at hk
      rcases List.mem_cons.mp hmem with h1 | h1
      · cases h1
      · have := hk _ h1
        simp [Call.kind] at this
    · rw [ht2] at hmem
      rw [hf] at hk
      rcases List.mem_cons.mp hmem with h1 | h1
      · cases h1
      · rcases List.mem_append.mp h1 with h1 | h1
        · have := hk _ h1
          simp [Call.kind] at this
        · have hu := provision_nextTrial env e _ ns url h1
          subst hu
          exact ⟨e, opts, items, calls, ns, he, hadd, hs, ho, hits, hg, hf, hns, rfl,
            by rw [ht, ht2], by rw [hr, hr2], h1⟩
    · exfalso
      rw [ht2] at hmem
      rw [hf] at hk
      rcases List.mem_cons.mp hmem with h1 | h1
      · cases h1
      · rcases List.mem_append.mp h1 with h1 | h1
        · have := hk _ h1
          simp [Call.kind] at this
        · have := retire_kinds env e items _ h1
          simp [Call.kind] at this
    · exfalso
      rw [ht2] at hmem
      rcases List.mem_cons.mp hmem with h1 | h1
      · cases h1
      · have := retire_kinds env e items _ h1
        simp [Call.kind] at this

theorem writes_reads_prefix (opts : ListOptions) (calls rest : List Call)
    (hk : ∀ c ∈ calls, c.kind = .ListNamespaces) :
    writes (.Get :: .ListTrials opts :: (calls ++ rest)) = writes rest := by
  have h0 : writes calls = [] := by
    apply writes_of_reads
    intro c hc
    exact Or.inr (Or.inr (hk c hc))
  rw [writes_cons, writes_cons, writes_append, h0]
  simp [Call.isWrite]

/-- The case analysis of `reconcileSynced` once the trials are listed. -/
theorem reconcileSynced_listed (env : Env) (e : Experiment) (opts : ListOptions)
    (items : List Trial) (hopts : listOptions env e = .ok opts)
    (hlist : env.listTrials opts = .ok items) :
    (provisioningGate e items ∧ ∃ calls err,
        findAvailableNamespace env e items = (calls, .error err) ∧
        (reconcileSynced env e).trace = .ListTrials opts :: calls ∧
        (reconcileSynced env e).ret = .Returned Result.empty (some err)) ∨
    (provisioningGate e items ∧ ∃ calls ns,
        findAvailableNamespace env e items = (calls, .ok ns) ∧ ns ≠ "" ∧
        (reconcileSynced env e).trace
          = .ListTrials opts :: (calls ++ (provision env e
              (mapGet e.annotations annotationNextTrialURL) ns).trace) ∧
        (reconcileSynced env e).ret
          = (provision env e (mapGet e.annotations annotationNextTrialURL) ns).ret) ∨
    (provisioningGate e items ∧ ∃ calls,
        findAvailableNamespace env e items = (calls, .ok "") ∧
        (reconcileSynced env e).trace
          = .ListTrials opts :: (calls ++ (retire env e items).trace) ∧
        (reconcileSynced env e).ret = (retire env e items).ret) ∨
    (¬ provisioningGate e items ∧
        (reconcileSynced env e).trace = .ListTrials opts :: (retire env e items).trace ∧
        (reconcileSynced env e).ret = (retire env e items).ret) := by
  rcases reconcileSynced_shape env e with ⟨err, herr, _⟩ | ⟨o, err, ho, herr, _⟩ |
    ⟨o, its, ho, hits, hcase⟩
  · rw [hopts] at herr; cases herr
  · rw [hopts] at ho; cases ho
    rw [hlist] at herr; cases herr
  · rw [hopts] at ho; cases ho
    rw [hlist] at hits; cases hits
    exact hcase

theorem provision_calls_nextTrial (env : Env) (e : Experiment) (url ns : String)
    (refs : List ObjectReference)
    (href : env.setControllerReference e
      (populateTrialFromTemplate env.GetDefaultLabels env.GetSelfReference e ns) = .ok refs) :
    Call.NextTrial url ∈ (provision env e url ns).trace := by
  unfold provision
  simp only [href]
  split
  · split <;> simp
  · split <;> simp

theorem removeFinalizer_of_mem (fs : List String) (h : finalizer ∈ fs) :
    ∃ r, removeFinalizer fs = some r := by
  cases hr : removeFinalizer fs with
  | none => exact absurd h ((removeFinalizer_eq_none fs).mp hr)
  | some r => exact ⟨r, rfl⟩

/-- The step of the loop over the trials at a finished trial that is marked for
deletion and carries the lifecycle finalizer. -/
theorem reconcileTrials_finalizing (env : Env) (e : Experiment) (i : Nat) (t : Trial)
    (rest : List Trial) (hfin : IsTrialFinished t = true) (hdel : t.deletionTimestamp ≠ none)
    (hf : finalizer ∈ t.finalizers) :
    ∃ fs, removeFinalizer t.finalizers = some fs ∧
      ((env.reportTrial i (mapGet t.annotations annotationReportTrialURL)
            (observationOf env.parseFloat t) ≠ none ∧ e.deletionTimestamp = none) →
        reconcileTrials env e i (t :: rest)
          = ([.ReportTrial (mapGet t.annotations annotationReportTrialURL)
                (observationOf env.parseFloat t)],
              some (.Returned Result.empty
                (env.reportTrial i (mapGet t.annotations annotationReportTrialURL)
                  (observationOf env.parseFloat t))))) ∧
      (¬ (env.reportTrial i (mapGet t.annotations annotationReportTrialURL)
            (observationOf env.parseFloat t) ≠ none ∧ e.deletionTimestamp = none) →
        reconcileTrials env e i (t :: rest)
          = ([.ReportTrial (mapGet t.annotations annotationReportTrialURL)
                (observationOf env.parseFloat t),
              .UpdateTrial { t with finalizers := fs }],
              some (.Returned Result.empty (env.updateTrial { t with finalizers := fs })))) := by
  obtain ⟨fs, hfs⟩ := removeFinalizer_of_mem t.finalizers hf
  refine ⟨fs, hfs, ?_, ?_⟩
  · intro hc
    rw [← observation_eq] at hc ⊢
    unfold reconcileTrials
    simp only [hfin, if_true, hdel, if_false]
    rw [if_pos hc]
  · intro hc
    rw [← observation_eq] at hc ⊢
    unfold reconcileTrials
    simp only [hfin, if_true, hdel, if_false]
    rw [if_neg hc]
    simp only [hfs]

/-- The outcome of `Reconcile` when the loop over the trials reaches a finished
trial that is marked for deletion and carries the lifecycle finalizer. -/
theorem Reconcile_finalizing (env : Env) (e : Experiment) (pre : List Trial) (t : Trial)
    (rest : List Trial) (hreach : ReachesTrialLoop env e (pre ++ t :: rest))
    (hpre : (reconcileTrials env e 0 pre).2 = none)
    (hfin : IsTrialFinished t = true) (hdel : t.deletionTimestamp ≠ none)
    (hf : finalizer ∈ t.finalizers) :
    ∃ p fs, writes p = [] ∧ removeFinalizer t.finalizers = some fs ∧
      ((env.reportTrial pre.length (mapGet t.annotations annotationReportTrialURL)
            (observationOf env.parseFloat t) ≠ none ∧ e.deletionTimestamp = none) →
        (Reconcile env).trace
            = p ++ [.ReportTrial (mapGet t.annotations annotationReportTrialURL)
                (observationOf env.parseFloat t)] ∧
          (Reconcile env).ret
            = .Returned Result.empty
                (env.reportTrial pre.length (mapGet t.annotations annotationReportTrialURL)
                  (observationOf env.parseFloat t))) ∧
      (¬ (env.reportTrial pre.length (mapGet t.annotations annotationReportTrialURL)
            (observationOf env.parseFloat t) ≠ none ∧ e.deletionTimestamp = none) →
        (Reconcile env).trace
            = p ++ [.ReportTrial (mapGet t.annotations annotationReportTrialURL)
                (observationOf env.parseFloat t),
              .UpdateTrial { t with finalizers := fs }] ∧
          (Reconcile env).ret
            = .Returned Result.empty (env.updateTrial { t with finalizers := fs })) := by
  obtain ⟨p, hp, ht, hr⟩ := Reconcile_reaches env e _ hreach
  obtain ⟨h1, h2⟩ := reconcileTrials_append env e (t :: rest) pre 0 hpre
  obtain ⟨fs, hfs, hA, hB⟩ := reconcileTrials_finalizing env e pre.length t rest hfin hdel hf
  have hw : writes (reconcileTrials env e 0 pre).1 = [] :=
    (reconcileTrials_writes env e pre 0).2 hpre
  simp only [Nat.zero_add] at h1 h2
  refine ⟨p ++ (reconcileTrials env e 0 pre).1, fs, ?_, hfs, ?_, ?_⟩
  · rw [writes_append, writes_of_reads p hp, hw]
    rfl
  · intro hc
    have hstep := hA hc
    rw [hstep] at h1 h2
    have hret : retire env e (pre ++ t :: rest)
        = { trace := (reconcileTrials env e 0 pre).1
              ++ [.ReportTrial (mapGet t.annotations annotationReportTrialURL)
                (observationOf env.parseFloat t)],
            ret := .Returned Result.empty
              (env.reportTrial pre.length (mapGet t.annotations annotationReportTrialURL)
                (observationOf env.parseFloat t)) } := by
      unfold retire
      cases hrt : reconcileTrials env e 0 (pre ++ t :: rest) with
      | mk calls r =>
        rw [hrt] at h1 h2
        simp only at h1 h2
        subst h1 h2
        rfl
    rw [ht, hr, hret]
    simp
  · intro hc
    have hstep := hB hc
    rw [hstep] at h1 h2
    have hret : retire env e (pre ++ t :: rest)
        = { trace := (reconcileTrials env e 0 pre).1
              ++ [.ReportTrial (mapGet t.annotations annotationReportTrialURL)
                (observationOf env.parseFloat t),
                .UpdateTrial { t with finalizers := fs }],
            ret := .Returned Result.empty (env.updateTrial { t with finalizers := fs }) } := by
      unfold retire
      cases hrt : reconcileTrials env e 0 (pre ++ t :: rest) with
      | mk calls r =>
        rw [hrt] at h1 h2
        simp only at h1 h2
        subst h1 h2
        rfl
    rw [ht, hr, hret]
    simp

theorem mapHas_mapDelete_of_false (m : StringMap) (k k2 : String) (h : mapHas m k = false) :
    mapHas (mapDelete m k2) k = false := by
  cases m with
  | none => rfl
  | some l =>
    simp only [mapDelete, mapHas] at h ⊢
    rw [Bool.eq_false_iff] at h ⊢
    intro hc
    apply h
    obtain ⟨p, hp, hk⟩ := List.any_eq_true.mp hc
    exact List.any_eq_true.mpr ⟨p, (List.mem_filter.mp hp).1, hk⟩

theorem populateTrialFromTemplate_materialized (gdl : Experiment → StringMap)
    (gsr : Experiment → ObjectReference) (e : Experiment) (ns : String) :
    MaterializedFrom gdl gsr e ns (populateTrialFromTemplate gdl gsr e ns) := by
  unfold MaterializedFrom populateTrialFromTemplate trialNamespace
  simp only []
  obtain ⟨h1, _, _, _, _, _, h7, h8, h9, h10, h11, h12⟩ :=
    defaultTrialIdentity_fields gdl gsr e
      { (if GetReplicas e > 1 ∨ e.namespaceSelector ≠ none ∨ e.template.namespace_ ≠ "" then
          { trialOfTemplate e.template with targetNamespace := ns }
        else trialOfTemplate e.template) with
        finalizers := (if GetReplicas e > 1 ∨ e.namespaceSelector ≠ none
            ∨ e.template.namespace_ ≠ "" then
          { trialOfTemplate e.template with targetNamespace := ns }
        else trialOfTemplate e.template).finalizers ++ [finalizer] } ns
  by_cases hc : GetReplicas e > 1 ∨ e.namespaceSelector ≠ none ∨ e.template.namespace_ ≠ ""
  · simp only [hc, if_true] at h1 h7 h8 h9 h10 h11 h12 ⊢
    exact ⟨h1, h7, h8, h9, h10, h11, h12⟩
  · simp only [hc, if_false] at h1 h7 h8 h9 h10 h11 h12 ⊢
    exact ⟨h1, h7, h8, h9, h10, h11, h12⟩

theorem PopulateTrialFromTemplate_materialized (gdl : Experiment → StringMap)
    (gsr : Experiment → ObjectReference) (now1 now2 : Time) (e : Experiment) (ns : String) :
    MaterializedFrom gdl gsr e ns (PopulateTrialFromTemplate gdl gsr now1 now2 e ns) := by
  unfold MaterializedFrom PopulateTrialFromTemplate trialNamespace
  simp only []
  cases hj : (trialOfTemplate e.template).jobTemplate with
  | none =>
    simp only []
    obtain ⟨h1, _, _, _, _, _, h7, h8, h9, h10, h11, h12⟩ :=
      defaultTrialIdentity_fields gdl gsr e
        (if GetReplicas e > 1 ∨ e.namespaceSelector ≠ none ∨ e.template.namespace_ ≠ "" then
          { trialOfTemplate e.template with targetNamespace := ns }
        else trialOfTemplate e.template) ns
    by_cases hc : GetReplicas e > 1 ∨ e.namespaceSelector ≠ none ∨ e.template.namespace_ ≠ ""
    · simp only [hc, if_true] at h1 h7 h8 h9 h10 h11 h12 ⊢
      exact ⟨h1, h7, h8, h9, h10, h11, h12⟩
    · simp only [hc, if_false] at h1 h7 h8 h9 h10 h11 h12 ⊢
      exact ⟨h1, h7, h8, h9, h10, h11, h12⟩
  | some j =>
    simp only []
    obtain ⟨h1, _, _, _, _, _, h7, h8, h9, h10, h11, h12⟩ :=
      defaultTrialIdentity_fields gdl gsr e
        (if GetReplicas e > 1 ∨ e.namespaceSelector ≠ none ∨ e.template.namespace_ ≠ "" then
          { ({ trialOfTemplate e.template with
                jobTemplate := some { creationTimestamp := now1, podCreationTimestamp := now2 } }
              : Trial) with targetNamespace := ns }
        else
          { trialOfTemplate e.template with
            jobTemplate := some { creationTimestamp := now1, podCreationTimestamp := now2 } }) ns
    by_cases hc : GetReplicas e > 1 ∨ e.namespaceSelector ≠ none ∨ e.template.namespace_ ≠ ""
    · simp only [hc, if_true] at h1 h7 h8 h9 h10 h11 h12 ⊢
      exact ⟨h1, h7, h8, h9, h10, h11, h12⟩
    · simp only [hc, if_false] at h1 h7 h8 h9 h10 h11 h12 ⊢
      exact ⟨h1, h7, h8, h9, h10, h11, h12⟩

theorem PopulateTrialFromTemplate_finalizers (gdl : Experiment → StringMap)
    (gsr : Experiment → ObjectReference) (now1 now2 : Time) (e : Experiment) (ns : String) :
    (PopulateTrialFromTemplate gdl gsr now1 now2 e ns).finalizers = e.template.finalizers := by
  unfold PopulateTrialFromTemplate
  simp only []
  rw [(defaultTrialIdentity_fields gdl gsr e _ ns).2.1]
  cases hj : (trialOfTemplate e.template).jobTemplate <;> simp only [] <;>
    split_ifs <;> rfl

theorem MaterializedFrom_keeps (gdl : Experiment → StringMap)
    (gsr : Experiment → ObjectReference) (e : Experiment) (ns : String) (r : Trial)
    (h : MaterializedFrom gdl gsr e ns r) : KeepsTemplateIdentity e.template r := by
  obtain ⟨_, h2, h3, h4, h5, h6, h7⟩ := h
  unfold trialNamespace at h2
  refine ⟨?_, ?_, ?_, ?_, ?_, ?_⟩
  · intro hs; rw [h3, if_neg hs]
  · intro hs
    rw [h4, if_neg]
    rintro ⟨_, _, h⟩
    exact hs h
  · intro hs; rw [h2, if_neg hs]
  · intro hs; rw [h5, if_neg hs]
  · intro hs; rw [h6, if_neg hs]
  · intro hs; rw [h7, if_neg hs]

theorem mapGet_entriesSet_ne (l : List (String × String)) (k k2 v : String) (hne : k ≠ k2) :
    mapGet (some (entriesSet l k2 v)) k = mapGet (some l) k := by
  have hfind : ∀ l2 : List (String × String),
      (entriesSet l k2 v = l2) →
      l2.find? (fun p => p.1 == k) = l.find? (fun p => p.1 == k) := by
    intro l2 hl2
    subst hl2
    unfold entriesSet
    split_ifs with h
    · clear h
      induction l with
      | nil => rfl
      | cons p ps ih =>
        simp only [List.map_cons, List.find?_cons]
        by_cases hp : (p.1 == k2) = true
        · have hpk : p.1 = k2 := by simpa using hp
          have h1 : ((k2, v).1 == k) = false := by
            simp only [beq_eq_false_iff_ne, ne_eq]
            exact fun h => hne h.symm
          have h2 : (p.1 == k) = false := by
            simp only [beq_eq_false_iff_ne, ne_eq]
            rw [hpk]
            exact fun h => hne h.symm
          simp only [hp, if_true, h1, h2]
          exact ih
        · simp only [hp, if_false, Bool.false_eq_true]
          cases hk : (p.1 == k)
          · simp only []
            exact ih
          · rfl
    · rw [List.find?_append]
      have h1 : ((k2, v).1 == k) = false := by
        simp only [beq_eq_false_iff_ne, ne_eq]
        exact fun h => hne h.symm
      simp [List.find?_cons, h1]
  unfold mapGet
  simp only []
  rw [hfind _ rfl]

/-- The creation branch of `syncWithServer` for an experiment that has an
annotation set: the URLs are recorded, the replicas are clamped to a smaller
positive ceiling, and a failure of the call changes nothing. -/
theorem syncWithServer_creation (env : Env) (e : Experiment)
    (entries : List (String × String)) (hrep : GetReplicas e > 0)
    (hurl : mapGet e.annotations annotationExperimentURL = "")
    (hann : e.annotations = some entries) :
    (∀ ee, env.createExperiment e.name (copyExperimentToRemote e) = .ok ee →
      ∃ e1, syncWithServer env e
          = ([Call.CreateExperiment e.name (copyExperimentToRemote e)], e1,
              SyncResult.Done true none) ∧
        mapGet e1.annotations annotationExperimentURL = ee.self ∧
        mapGet e1.annotations annotationNextTrialURL = ee.nextTrial ∧
        GetReplicas e1
          = (if 0 < ee.parallelTrials ∧ ee.parallelTrials < GetReplicas e then ee.parallelTrials
              else GetReplicas e) ∧
        GetReplicas e1 ≤ GetReplicas e) ∧
    (∀ err, env.createExperiment e.name (copyExperimentToRemote e) = .error err →
      syncWithServer env e
        = ([Call.CreateExperiment e.name (copyExperimentToRemote e)], e,
            SyncResult.Done false (some err))) := by
  have hc : GetReplicas e > 0 ∧ mapGet e.annotations annotationExperimentURL = "" :=
    ⟨hrep, hurl⟩
  have hkeys : annotationExperimentURL ≠ annotationNextTrialURL := by decide
  constructor
  · intro ee hee
    unfold syncWithServer
    simp only []
    rw [if_pos hc]
    simp only [hee, hann]
    have hself : mapGet (some (entriesSet (entriesSet entries annotationExperimentURL ee.self)
        annotationNextTrialURL ee.nextTrial)) annotationExperimentURL = ee.self := by
      rw [mapGet_entriesSet_ne _ _ _ _ hkeys, mapGet_entriesSet]
    have hnext : mapGet (some (entriesSet (entriesSet entries annotationExperimentURL ee.self)
        annotationNextTrialURL ee.nextTrial)) annotationNextTrialURL = ee.nextTrial :=
      mapGet_entriesSet _ _ _
    by_cases hclamp : GetReplicas e > ee.parallelTrials ∧ ee.parallelTrials > 0
    · have hclamp2 : GetReplicas
            { e with annotations := some (entriesSet
                (entriesSet entries annotationExperimentURL ee.self)
                annotationNextTrialURL ee.nextTrial) } > ee.parallelTrials
          ∧ ee.parallelTrials > 0 := hclamp
      rw [if_pos hclamp2]
      cases hr : e.replicas with
      | none =>
        exfalso
        have : GetReplicas e = 1 := by simp [GetReplicas, hr]
        omega
      | some r =>
        simp only []
        refine ⟨_, rfl, hself, hnext, ?_, ?_⟩
        · have : 0 < ee.parallelTrials ∧ ee.parallelTrials < GetReplicas e :=
            ⟨hclamp.2, hclamp.1⟩
          rw [if_pos this]
          rfl
        · show ee.parallelTrials ≤ GetReplicas e
          omega
    · have hclamp2 : ¬ (GetReplicas
            { e with annotations := some (entriesSet
                (entriesSet entries annotationExperimentURL ee.self)
                annotationNextTrialURL ee.nextTrial) } > ee.parallelTrials
          ∧ ee.parallelTrials > 0) := hclamp
      rw [if_neg hclamp2]
      refine ⟨_, rfl, hself, hnext, ?_, le_refl _⟩
      have : ¬ (0 < ee.parallelTrials ∧ ee.parallelTrials < GetReplicas e) :=
        fun h => hclamp ⟨h.2, h.1⟩
      rw [if_neg this]
      rfl
  · intro err herr
    unfold syncWithServer
    simp only []
    rw [if_pos hc]
    simp only [herr]

/-- The swap-remove at the first position holding `x` leaves the list without
one occurrence of `x`, up to the order. -/
theorem swapRemove_perm (x : String) :
    ∀ (fs : List String) (d : String),
      fs.findIdx (fun f => f == x) < fs.length →
      ((fs.set (fs.findIdx (fun f => f == x)) (fs.getLastD d)).dropLast).Perm (fs.erase x) := by
  intro fs
  induction fs with
  | nil => intro d h; simp at h
  | cons a l ih =>
    intro d h
    by_cases ha : a = x
    · subst ha
      rw [List.findIdx_cons]
      simp only [beq_self_eq_true, cond_true, List.set_cons_zero, List.erase_cons_head]
      rcases List.eq_nil_or_concat l with hl | ⟨l2, z, hl⟩
      · subst hl; simp
      · subst hl
        have h1 : (a :: l2.concat z).getLastD d = z := by
          simp [List.getLastD, List.getLast?_cons_cons, List.concat_eq_append]
        rw [h1, List.concat_eq_append, ← List.cons_append, List.dropLast_concat]
        exact (List.perm_append_singleton z l2).symm
    · have hb : (a == x) = false := by simpa using ha
      rw [List.findIdx_cons] at h ⊢
      simp only [hb, cond_false] at h ⊢
      have h2 : l.findIdx (fun f => f == x) < l.length := by
        simpa using h
      have hne : l ≠ [] := by
        intro hl; subst hl; simp at h2
      obtain ⟨b, l3, hl3⟩ := List.exists_cons_of_ne_nil hne
      have hlast : (a :: l).getLastD d = l.getLastD a := by
        subst hl3; simp [List.getLastD]
      rw [hlast, List.set_cons_succ]
      have hne2 : l.set (l.findIdx (fun f => f == x)) (l.getLastD a) ≠ [] := by
        intro hc
        have := congrArg List.length hc
        simp at this
        exact hne this
      rw [List.dropLast_cons_of_ne_nil hne2]
      rw [List.erase_cons_tail (by simpa using ha)]
      exact (ih a h2).cons a

/-- What the swap-remove yields when it finds the lifecycle finalizer. -/
theorem removeFinalizer_some (fs fs1 : List String) (h : removeFinalizer fs = some fs1) :
    finalizer ∈ fs ∧ fs1.Perm (fs.erase finalizer) ∧ fs1.length + 1 = fs.length ∧
      (∀ x, x ≠ finalizer → fs1.count x = fs.count x) ∧
      fs1.count finalizer + 1 = fs.count finalizer := by
  have hmem : finalizer ∈ fs := by
    by_contra hc
    rw [(removeFinalizer_eq_none fs).mpr hc] at h
    cases h
  unfold removeFinalizer at h
  simp only [] at h
  split_ifs at h with hi
  have hperm := swapRemove_perm finalizer fs finalizer hi
  simp only [Option.some.injEq] at h
  rw [h] at hperm
  refine ⟨hmem, hperm, ?_, ?_, ?_⟩
  · rw [hperm.length_eq, List.length_erase_of_mem hmem]
    have : 0 < fs.length := List.length_pos_of_mem hmem
    omega
  · intro x hx
    rw [hperm.count_eq, List.count_erase_of_ne hx]
  · rw [hperm.count_eq, List.count_erase_self]
    have : 0 < fs.count finalizer := List.count_pos_iff.mpr hmem
    omega

/-- A trial created by the provisioning block carries the finalizers of the
template followed by the lifecycle finalizer. -/
theorem provision_createTrial (env : Env) (e : Experiment) (url ns : String) (trial : Trial)
    (h : Call.CreateTrial trial ∈ (provision env e url ns).trace) :
    trial.finalizers = e.template.finalizers ++ [finalizer] := by
  obtain ⟨_, _, hfin⟩ :=
    populateTrialFromTemplate_fields env.GetDefaultLabels env.GetSelfReference e ns
  unfold provision at h
  simp only [] at h
  split at h
  · simp at h
  · split at h
    · split at h <;> simp at h
    · split at h
      · simp at h
      · simp at h
        subst h
        exact hfin

/-- The provisioning block never stops on a runtime failure: the annotation set
of the materialized trial exists when the report URL is written. -/
theorem provision_no_panic (env : Env) (e : Experiment) (url ns : String) :
    (provision env e url ns).ret ≠ .Panic := by
  obtain ⟨hann, _, _⟩ :=
    populateTrialFromTemplate_fields env.GetDefaultLabels env.GetSelfReference e ns
  unfold provision
  simp only []
  split
  · simp
  · split
    · split <;> simp
    · split
      · next hnone =>
        exfalso
        rw [hann] at hnone
        split_ifs at hnone with hc
        exact hc hnone
      · simp

/-- Every trial created by `Reconcile` carries the finalizers of the template of
the experiment read, followed by the lifecycle finalizer. -/
theorem Reconcile_createTrial (env : Env) (trial : Trial)
    (h : Call.CreateTrial trial ∈ (Reconcile env).trace) :
    ∃ e, env.get = .ok e ∧ trial.finalizers = e.template.finalizers ++ [finalizer] := by
  obtain ⟨e, hget, _, _, _, _, hmem⟩ :=
    Reconcile_mem_synced env _ h (by simp [Call.kind])
  refine ⟨e, hget, ?_⟩
  rcases reconcileSynced_shape env e with ⟨err, _, ht, _⟩ | ⟨o, err, _, _, ht, _⟩ |
    ⟨o, its, _, _, hcase⟩
  · rw [ht] at hmem; simp at hmem
  · rw [ht] at hmem; simp at hmem
  · have hk := findAvailableNamespace_kinds env e its
    rcases hcase with ⟨_, calls, err, hf, ht, _⟩ | ⟨_, calls, ns, hf, _, ht, _⟩ |
      ⟨_, calls, hf, ht, _⟩ | ⟨_, ht, _⟩
    · rw [ht] at hmem
      rw [hf] at hk
      simp only [List.mem_cons] at hmem
      rcases hmem with hmem | hmem
      · cases hmem
      · have := hk _ hmem
        simp [Call.kind] at this
    · rw [ht] at hmem
      rw [hf] at hk
      simp only [List.mem_cons, List.mem_append] at hmem
      rcases hmem with hmem | hmem | hmem
      · cases hmem
      · have := hk _ hmem
        simp [Call.kind] at this
      · exact provision_createTrial env e _ ns trial hmem
    · rw [ht] at hmem
      rw [hf] at hk
      simp only [List.mem_cons, List.mem_append] at hmem
      rcases hmem with hmem | hmem | hmem
      · cases hmem
      · have := hk _ hmem
        simp [Call.kind] at this
      · have := retire_kinds env e its _ hmem
        simp [Call.kind] at this
    · rw [ht] at hmem
      simp only [List.mem_cons] at hmem
      rcases hmem with hmem | hmem
      · cases hmem
      · have := retire_kinds env e its _ hmem
        simp [Call.kind] at this

/-- A synchronization that makes no call changes nothing. -/
theorem syncWithServer_silent (env : Env) (e : Experiment)
    (h : (syncWithServer env e).1 = []) :
    (syncWithServer env e).2.2 = .Done false none := by
  unfold syncWithServer at h ⊢
  simp only [] at h ⊢
  split_ifs at h ⊢
  · revert h
    split
    · split
      · simp
      · split_ifs
        · split <;> simp
        · simp
    · simp
  · revert h
    split <;> simp
  · rfl

/-- The first call of the part of `Reconcile` that follows the synchronization
is the listing of the trials. -/
theorem reconcileSynced_head (env : Env) (e : Experiment) (c : Call)
    (h : (reconcileSynced env e).trace.head? = some c) : c.kind = .ListTrials := by
  rcases reconcileSynced_shape env e with ⟨err, _, ht, _⟩ | ⟨o, err, _, _, ht, _⟩ |
    ⟨o, its, _, _, hcase⟩
  · rw [ht] at h; simp at h
  · rw [ht] at h; simp at h; subst h; rfl
  · rcases hcase with ⟨_, calls, err, hf, ht, _⟩ | ⟨_, calls, ns, hf, _, ht, _⟩ |
      ⟨_, calls, hf, ht, _⟩ | ⟨_, ht, _⟩ <;>
    · rw [ht] at h; simp at h; subst h; rfl

/-- When `addFinalizer` reports no change, the call that follows the read of the
experiment is not a write. -/
theorem Reconcile_after_read (env : Env) (e : Experiment) (hget : env.get = .ok e)
    (hadd : (addFinalizer e).2 = false) :
    ∃ rest, (Reconcile env).trace = .Get :: rest ∧
      ∀ c, rest.head? = some c → c.isWrite = false := by
  rcases Reconcile_cases env with ⟨⟨err, herr⟩, _⟩ | ⟨e2, he2, hnd, hnf, _⟩ |
    ⟨e2, he2, _, hne, ht⟩ | ⟨e2, he2, _, _, ht, _⟩
  · rw [hget] at herr; cases herr
  · rw [hget] at he2; cases he2
    rw [addFinalizer_adds e hnd hnf] at hadd
    cases hadd
  · rw [hget] at he2; cases he2
    have hk := syncWithServer_kinds env e
    have hnil : (syncWithServer env e).1 ≠ [] := fun hc => hne (syncWithServer_silent env e hc)
    obtain ⟨c0, l0, hl0⟩ := List.exists_cons_of_ne_nil hnil
    have hc0 : c0.isWrite = false := by
      have := hk c0 (by rw [hl0]; simp)
      cases c0 <;> simp [Call.kind] at this <;> rfl
    rcases ht with ht | ht
    · refine ⟨_, ht, ?_⟩
      intro c hc
      rw [hl0] at hc; simp at hc; subst hc; exact hc0
    · refine ⟨_, ht, ?_⟩
      intro c hc
      rw [hl0] at hc; simp at hc; subst hc; exact hc0
  · rw [hget] at he2; cases he2
    refine ⟨_, ht, ?_⟩
    intro c hc
    have := reconcileSynced_head env e c hc
    cases c <;> simp [Call.kind] at this
    rfl

/-- When `addFinalizer` reports no change, no experiment written by the
invocation has more occurrences of the lifecycle finalizer than the experiment
read. -/
theorem Reconcile_never_readds (env : Env) (e e1 : Experiment) (hget : env.get = .ok e)
    (hadd : (addFinalizer e).2 = false)
    (h : Call.UpdateExperiment e1 ∈ (Reconcile env).trace) :
    e1.finalizers.count finalizer ≤ e.finalizers.count finalizer := by
  rcases Reconcile_cases env with ⟨⟨err, herr⟩, _⟩ | ⟨e2, he2, hnd, hnf, _⟩ |
    ⟨e2, he2, _, hne, ht⟩ | ⟨e2, he2, _, _, ht, _⟩
  · rw [hget] at herr; cases herr
  · rw [hget] at he2; cases he2
    rw [addFinalizer_adds e hnd hnf] at hadd
    cases hadd
  · rw [hget] at he2; cases he2
    have hk := syncWithServer_kinds env e
    have hsync : ∀ c ∈ (syncWithServer env e).1, c ≠ Call.UpdateExperiment e1 := by
      intro c hc heq
      have := hk c hc
      subst heq
      simp [Call.kind] at this
    rcases ht with ht | ht
    · rw [ht] at h
      simp only [List.mem_cons] at h
      rcases h with h | h
      · cases h
      · exact absurd rfl (hsync _ h)
    · rw [ht] at h
      simp only [List.mem_cons, List.mem_append, List.mem_singleton] at h
      rcases h with h | h | h
      · cases h
      · exact absurd rfl (hsync _ h)
      · simp only [Call.UpdateExperiment.injEq, List.not_mem_nil, or_false] at h
        rw [h, syncWithServer_finalizers]
  · rw [hget] at he2; cases he2
    rw [ht] at h
    simp only [List.mem_cons] at h
    rcases h with h | h
    · cases h
    have hret : ∀ its, Call.UpdateExperiment e1 ∈ (retire env e its).trace →
        e1.finalizers.count finalizer ≤ e.finalizers.count finalizer := by
      intro its hm
      obtain ⟨_, hrm, _, _⟩ := retire_updateExperiment env e e1 its hm
      have := (removeFinalizer_some _ _ hrm).2.2.2.2
      omega
    rcases reconcileSynced_shape env e with ⟨err, _, ht, _⟩ | ⟨o, err, _, _, ht, _⟩ |
      ⟨o, its, _, _, hcase⟩
    · rw [ht] at h; simp at h
    · rw [ht] at h; simp at h
    · have hk := findAvailableNamespace_kinds env e its
      rcases hcase with ⟨_, calls, err, hf, ht, _⟩ | ⟨_, calls, ns, hf, _, ht, _⟩ |
        ⟨_, calls, hf, ht, _⟩ | ⟨_, ht, _⟩
      · rw [ht] at h
        rw [hf] at hk
        simp only [List.mem_cons] at h
        rcases h with h | h
        · cases h
        · have := hk _ h
          simp [Call.kind] at this
      · rw [ht] at h
        rw [hf] at hk
        simp only [List.mem_cons, List.mem_append] at h
        rcases h with h | h | h
        · cases h
        · have := hk _ h
          simp [Call.kind] at this
        · rw [provision_updateExperiment env e _ ns e1 h]
      · rw [ht] at h
        rw [hf] at hk
        simp only [List.mem_cons, List.mem_append] at h
        rcases h with h | h | h
        · cases h
        · have := hk _ h
          simp [Call.kind] at this
        · exact hret its h
      · rw [ht] at h
        simp only [List.mem_cons] at h
        rcases h with h | h
        · cases h
        · exact hret its h

/-- The step of the loop at a finished trial without deletion marker: the trial
is deleted and `Reconcile` returns. -/
theorem reconcileTrials_deleting (env : Env) (e : Experiment) (i : Nat) (t : Trial)
    (rest : List Trial) (hfin : IsTrialFinished t = true) (hdel : t.deletionTimestamp = none) :
    reconcileTrials env e i (t :: rest)
      = ([.DeleteTrial t], some (.Returned Result.empty (env.deleteTrial t))) := by
  unfold reconcileTrials
  simp [hfin, hdel]

/-- The invocation whose loop reaches a finished trial without deletion marker. -/
theorem Reconcile_deleting (env : Env) (e : Experiment) (pre : List Trial) (t : Trial)
    (rest : List Trial) (hreach : ReachesTrialLoop env e (pre ++ t :: rest))
    (hpre : (reconcileTrials env e 0 pre).2 = none)
    (hfin : IsTrialFinished t = true) (hdel : t.deletionTimestamp = none) :
    ∃ p, (∀ c ∈ p, c.kind = .Get ∨ c.kind = .ListTrials ∨ c.kind = .ListNamespaces) ∧
      (Reconcile env).trace = p ++ ((reconcileTrials env e 0 pre).1 ++ [.DeleteTrial t]) ∧
      (Reconcile env).ret = .Returned Result.empty (env.deleteTrial t) := by
  obtain ⟨p, hp, ht, hr⟩ := Reconcile_reaches env e _ hreach
  obtain ⟨h1, h2⟩ := reconcileTrials_append env e (t :: rest) pre 0 hpre
  rw [reconcileTrials_deleting env e _ t rest hfin hdel] at h1 h2
  have hret : retire env e (pre ++ t :: rest)
      = { trace := (reconcileTrials env e 0 pre).1 ++ [.DeleteTrial t],
          ret := .Returned Result.empty (env.deleteTrial t) } := by
    unfold retire
    cases hrt : reconcileTrials env e 0 (pre ++ t :: rest) with
    | mk calls r =>
      rw [hrt] at h1 h2
      simp only at h1 h2
      subst h1 h2
      rfl
  exact ⟨p, hp, by rw [ht, hret], by rw [hr, hret]⟩

/-- A loop that runs to its end made no call other than reports. -/
theorem reconcileTrials_reports (env : Env) (e : Experiment) :
    ∀ (items : List Trial) (i : Nat), (reconcileTrials env e i items).2 = none →
      ∀ c ∈ (reconcileTrials env e i items).1, c.kind = .ReportTrial := by
  intro items i hnone c hc
  have hw := (reconcileTrials_writes env e items i).2 hnone
  rcases reconcileTrials_kinds env e items i c hc with hk | hk | hk
  · exact hk
  · have : c ∈ writes (reconcileTrials env e i items).1 :=
      mem_writes hc (by cases c <;> simp [Call.kind] at hk; rfl)
    rw [hw] at this
    cases this
  · have : c ∈ writes (reconcileTrials env e i items).1 :=
      mem_writes hc (by cases c <;> simp [Call.kind] at hk; rfl)
    rw [hw] at this
    cases this

/-- Every report made by the loop over the trials is the report of a listed
trial that is finished and marked for deletion. -/
theorem reconcileTrials_reportOf (env : Env) (e : Experiment) :
    ∀ (items : List Trial) (i : Nat), ∀ c ∈ (reconcileTrials env e i items).1,
      c.kind = .ReportTrial →
      ∃ t ∈ items, IsTrialFinished t = true ∧ t.deletionTimestamp ≠ none ∧
        c = reportOf env t := by
  intro items
  induction items with
  | nil => intro i c hc; simp [reconcileTrials] at hc
  | cons t rest ih =>
    intro i c hc hk
    have hrest : c ∈ (reconcileTrials env e (i + 1) rest).1 →
        ∃ t2 ∈ t :: rest, IsTrialFinished t2 = true ∧ t2.deletionTimestamp ≠ none ∧
          c = reportOf env t2 := by
      intro hm
      obtain ⟨t2, hm2, h2⟩ := ih (i + 1) c hm hk
      exact ⟨t2, List.mem_cons_of_mem _ hm2, h2⟩
    unfold reconcileTrials at hc
    simp only [] at hc
    split_ifs at hc with hfin hdel herr hdel2 hdel3
    · simp only [List.mem_singleton] at hc
      subst hc
      simp [Call.kind] at hk
    · simp only [List.mem_singleton] at hc
      exact ⟨t, List.mem_cons_self _ _, hfin, hdel, hc⟩
    · split at hc
      · simp only [List.mem_cons, List.mem_singleton, List.not_mem_nil, or_false] at hc
        rcases hc with hc | hc
        · exact ⟨t, List.mem_cons_self _ _, hfin, hdel, hc⟩
        · subst hc
          simp [Call.kind] at hk
      · simp only [List.mem_cons] at hc
        rcases hc with hc | hc
        · exact ⟨t, List.mem_cons_self _ _, hfin, hdel, hc⟩
        · exact hrest hc
    · split at hc
      · simp only [List.mem_singleton] at hc
        subst hc
        simp [Call.kind] at hk
      · exact hrest hc
    · simp only [List.mem_singleton] at hc
      subst hc
      simp [Call.kind] at hk
    · exact hrest hc

/-- The trace of the part from the loop to the end when the loop runs to its
end and the finalizer of the deleted experiment is released. -/
theorem retire_release (env : Env) (e : Experiment) (items : List Trial) (fs : List String)
    (hnone : (reconcileTrials env e 0 items).2 = none) (hdel : e.deletionTimestamp ≠ none)
    (hfs : removeFinalizer e.finalizers = some fs) :
    (retire env e items).trace
      = (reconcileTrials env e 0 items).1 ++ [.UpdateExperiment { e with finalizers := fs }] := by
  unfold retire
  cases hrt : reconcileTrials env e 0 items with
  | mk calls r =>
    rw [hrt] at hnone
    simp only at hnone
    subst hnone
    simp only [releaseFinalizer, hdel, hfs, if_true, ne_eq, not_false_eq_true]

/-- The invocation that releases the finalizer of the experiment: the state of
the experiment and of the listed trials, and the shape of the trace. -/
theorem Reconcile_release (env : Env) (e e1 : Experiment)
    (hget : env.get = .ok e)
    (hw : Call.UpdateExperiment e1 ∈ (Reconcile env).trace)
    (hrem : e1.finalizers.count finalizer < e.finalizers.count finalizer) :
    e.deletionTimestamp ≠ none ∧
    mapGet e.annotations annotationExperimentURL = "" ∧
    removeFinalizer e.finalizers = some e1.finalizers ∧
    e1 = { e with finalizers := e1.finalizers } ∧
    ∃ opts items, listOptions env e = .ok opts ∧ env.listTrials opts = .ok items ∧
      (∀ t ∈ items, t.deletionTimestamp ≠ none ∧ finalizer ∉ t.finalizers) ∧
      (reconcileTrials env e 0 items).2 = none ∧
      ∃ p, (∀ c ∈ p, c.kind = .ListTrials ∨ c.kind = .ListNamespaces) ∧
        (Reconcile env).trace = .Get :: (p ++ (retire env e items).trace) := by
  rcases Reconcile_cases env with ⟨⟨err, herr⟩, _⟩ | ⟨e0, he, _, _, ht⟩ | ⟨e0, he, _, _, ht⟩ |
    ⟨e0, he, _, hsync, ht, _⟩
  · rw [hget] at herr; cases herr
  · exfalso
    have he2 : e0 = e := by rw [hget] at he; cases he; rfl
    subst he2
    rw [ht] at hw
    simp at hw
    subst hw
    simp at hrem
  · exfalso
    have he2 : e0 = e := by rw [hget] at he; cases he; rfl
    subst he2
    have hk := syncWithServer_kinds env e0
    have hfin := syncWithServer_finalizers env e0
    rcases ht with ht | ht <;> rw [ht] at hw
    · rcases List.mem_cons.mp hw with h | h
      · cases h
      · have := hk _ h
        simp [Call.kind] at this
    · rcases List.mem_cons.mp hw with h | h
      · cases h
      · rcases List.mem_append.mp h with h | h
        · have := hk _ h
          simp [Call.kind] at this
        · simp at h
          subst h
          rw [hfin] at hrem
          exact lt_irrefl _ hrem
  · have he2 : e0 = e := by rw [hget] at he; cases he; rfl
    subst he2
    have hno := (syncWithServer_noop env e0 (by rw [hsync])).2.2
    rw [ht] at hw
    rcases List.mem_cons.mp hw with h | h
    · cases h
    · rcases reconcileSynced_cases env e0 with ⟨p, hp, hk⟩ | ⟨p, ns, hk, _, _, hp, _⟩ |
        ⟨p, opts, items, hk, hopts, hitems, hp, _⟩
      · exfalso
        rw [hp] at h
        have := hk _ h
        simp [Call.kind] at this
      · exfalso
        rw [hp] at h
        rcases List.mem_append.mp h with h | h
        · have := hk _ h
          simp [Call.kind] at this
        · have := provision_updateExperiment env e0 _ ns e1 h
          rw [this] at hrem
          exact lt_irrefl _ hrem
      · rw [hp] at h
        rcases List.mem_append.mp h with h | h
        · exfalso
          have := hk _ h
          simp [Call.kind] at this
        · obtain ⟨hdel, hfs, heq, hnone⟩ := retire_updateExperiment env e0 e1 items h
          refine ⟨hdel, ?_, hfs, heq, opts, items, hopts, hitems, ?_, hnone, p, hk, ?_⟩
          · by_contra hurl
            exact hno ⟨hdel, hurl⟩
          · exact reconcileTrials_none env e0 hdel items 0 hnone
          · rw [ht, hp]

/-! ## Part 8. The claims -/

/-- C1. At-most-one-mutation: whatever the experiment, the trial list and the
answers of the collaborators are, one call of `Reconcile` issues at most one
cluster write (`Update`, `Create` or `Delete`). -/
theorem reconcile_at_most_one_write (env : Env) :
    (writes (Reconcile env).trace).length ≤ 1 := by
  unfold Reconcile
  split
  · split_ifs <;> simp [writes, Call.isWrite]
  · next experiment _ =>
    simp only []
    split_ifs
    · simp [writes, Call.isWrite]
    · have hs := syncWithServer_writes env (addFinalizer experiment).1
      split
      · next calls _ heq =>
        rw [heq] at hs
        simp only [] at hs
        simp [writes_cons, Call.isWrite, hs]
      · next calls synced dirty err heq =>
        rw [heq] at hs
        simp only [] at hs
        split_ifs
        · simp [writes_cons, Call.isWrite, hs]
        · simp [writes_cons, writes_append, Call.isWrite, hs, writes_nil]
        · simp only [writes_cons, Call.isWrite, writes_append, hs]
          simpa using reconcileSynced_writes env synced

/-- C2 (as amended). Report-before-delete for finished trials: every trial
`Update` that `Reconcile` writes removes the lifecycle finalizer of a trial
that is marked for deletion, and when that trial is finished the `ReportTrial`
call for it, with its report URL and its observation, is the call made just
before the write. (A trial deleted before it finished loses its finalizer with
no report: see `reconcile_abandoned_trial_not_reported`.) -/
theorem reconcile_report_before_finalizer_removal (env : Env) (t1 : Trial)
    (h : Call.UpdateTrial t1 ∈ (Reconcile env).trace) :
    (∃ t : Trial, t.deletionTimestamp ≠ none ∧
        removeFinalizer t.finalizers = some t1.finalizers ∧
        t1 = { t with finalizers := t1.finalizers }) ∧
    (IsTrialFinished t1 = true →
      ∃ pre, (Reconcile env).trace = pre ++ [reportOf env t1, Call.UpdateTrial t1]) := by
  rcases Reconcile_cases env with ⟨_, ht⟩ | ⟨e, _, _, _, ht⟩ | ⟨e, _, _, _, ht⟩ |
    ⟨e, _, _, _, ht, _⟩
  · rw [ht] at h; simp at h
  · rw [ht] at h; simp at h
  · exfalso
    have hk := syncWithServer_kinds env e
    rcases ht with ht | ht <;> rw [ht] at h
    · rcases List.mem_cons.mp h with h | h
      · cases h
      · have := hk _ h
        simp [Call.kind] at this
    · rcases List.mem_cons.mp h with h | h
      · cases h
      · rcases List.mem_append.mp h with h | h
        · have := hk _ h
          simp [Call.kind] at this
        · simp at h
  · rw [ht] at h ⊢
    rcases List.mem_cons.mp h with h | h
    · cases h
    · rcases reconcileSynced_cases env e with ⟨p, hp, hk⟩ | ⟨p, ns, hk, _, _, hp, _⟩ |
        ⟨p, opts, items, hk, _, _, hp, _⟩
      · exfalso
        rw [hp] at h
        have := hk _ h
        simp [Call.kind] at this
      · exfalso
        rw [hp] at h
        rcases List.mem_append.mp h with h | h
        · have := hk _ h
          simp [Call.kind] at this
        · have := provision_kinds env e _ ns _ h
          simp [Call.kind] at this
      · rw [hp] at h ⊢
        rcases List.mem_append.mp h with h | h
        · exfalso
          have := hk _ h
          simp [Call.kind] at this
        · obtain ⟨⟨t, _, ht3⟩, hpre⟩ := retire_update env e t1 items h
          refine ⟨⟨t, ht3⟩, fun hf => ?_⟩
          obtain ⟨pre, hpre⟩ := hpre hf
          exact ⟨Call.Get :: (p ++ pre), by simp [hpre]⟩

/-- C2, witness: the completed trial that is being deleted is reported, then its
finalizer is removed. -/
theorem reconcile_report_before_finalizer_removal_witness :
    (∃ t : Trial, t.deletionTimestamp ≠ none ∧
        removeFinalizer t.finalizers = some ([] : List String) ∧
        { finalizingTrial with finalizers := [] } = { t with finalizers := [] }) ∧
    (IsTrialFinished { finalizingTrial with finalizers := [] } = true →
      ∃ pre, (Reconcile (sampleEnv sampleExperiment [finalizingTrial])).trace
        = pre ++ [reportOf (sampleEnv sampleExperiment [finalizingTrial])
              { finalizingTrial with finalizers := [] },
            Call.UpdateTrial { finalizingTrial with finalizers := [] }]) :=
  reconcile_report_before_finalizer_removal (sampleEnv sampleExperiment [finalizingTrial])
    { finalizingTrial with finalizers := [] } (by decide)

/-- C2, counterexample to the claim as stated: for a trial deleted before it
finished, the only write of `Reconcile` removes the lifecycle finalizer of the
trial, and the invocation makes no `ReportTrial` call at all. -/
theorem reconcile_abandoned_trial_not_reported :
    IsTrialFinished abandonedTrial = false ∧
    finalizer ∈ abandonedTrial.finalizers ∧
    writes (Reconcile (sampleEnv sampleExperiment [abandonedTrial])).trace
      = [Call.UpdateTrial { abandonedTrial with finalizers := [] }] ∧
    (Reconcile (sampleEnv sampleExperiment [abandonedTrial])).trace.filter Call.isReport = [] := by
  decide

/-- C3, the code at the failing input: a finished trial that is marked for
deletion and no longer has the lifecycle finalizer (another finalizer keeps it
in the cluster) is reported again; the invocation writes nothing, so the state
is the same at the next reconciliation, which reports it once more. -/
theorem reconcile_reports_trial_without_finalizer :
    IsTrialFinished reportedTrial = true ∧
    reportedTrial.deletionTimestamp ≠ none ∧
    finalizer ∉ reportedTrial.finalizers ∧
    (Reconcile (sampleEnv sampleExperiment [reportedTrial])).trace
      = [Call.Get, Call.ListTrials (.MatchingLabels (some [("experiment", "tuning")])),
          reportOf (sampleEnv sampleExperiment [reportedTrial]) reportedTrial] ∧
    writes (Reconcile (sampleEnv sampleExperiment [reportedTrial])).trace = [] := by
  decide

/-- C4 (as amended). Capacity guard: when the active-trial count recorded in
the status of the experiment has reached the desired replicas,
`FindAvailableNamespace` returns the empty string and no error, whatever the
trial list, the placement policy and the namespace listing are. -/
theorem FindAvailableNamespace_at_capacity (r : Reader) (experiment : Experiment)
    (trials : List Trial) (h : experiment.activeTrials ≥ GetReplicas experiment) :
    FindAvailableNamespace r experiment trials = .ok "" := by
  unfold FindAvailableNamespace
  rw [if_pos h]

/-- C4, witness: one recorded active trial, one desired replica. -/
theorem FindAvailableNamespace_at_capacity_witness :
    FindAvailableNamespace sampleReader { sampleExperiment with activeTrials := 1 }
      [runningTrial] = .ok "" :=
  FindAvailableNamespace_at_capacity sampleReader { sampleExperiment with activeTrials := 1 }
    [runningTrial] (by decide)

/-- C4, counterexample to the claim as stated: the trial list holds one active
trial and one replica is desired, but the status of the experiment records no
active trial: a namespace is returned. -/
theorem FindAvailableNamespace_counts_status_not_list :
    (activeCount [stagingTrial] : Int) ≥ GetReplicas sampleExperiment ∧
    FindAvailableNamespace sampleReader sampleExperiment [stagingTrial] = .ok "default" := by
  refine ⟨by decide, ?_⟩
  rfl

/-- C5. Stopped-experiment invariant: when the `NextTrial` call of `Reconcile`
fails with `ErrExperimentStopped`, the only write is the `Update` of the
experiment, with desired replicas 0 and without next-trial-URL annotation (so
no trial is created); and whenever an experiment with replicas 0 and without
next-trial-URL annotation is reconciled, whatever the collaborators answer, no
`NextTrial` and no `CreateExperiment` call is made. -/
theorem reconcile_stopped_experiment (env : Env) (url : String) (d : Duration)
    (hcall : Call.NextTrial url ∈ (Reconcile env).trace)
    (hstop : env.nextTrial url = .error (.Api .ErrExperimentStopped d)) :
    (∃ e1, writes (Reconcile env).trace = [Call.UpdateExperiment e1] ∧
      GetReplicas e1 = 0 ∧ mapHas e1.annotations annotationNextTrialURL = false) ∧
    (∀ (env2 : Env) (e2 : Experiment), env2.get = .ok e2 → GetReplicas e2 = 0 →
      mapHas e2.annotations annotationNextTrialURL = false →
      ∀ c ∈ (Reconcile env2).trace, c.kind ≠ .NextTrial ∧ c.kind ≠ .CreateExperiment) := by
  constructor
  · rcases Reconcile_cases env with ⟨_, ht⟩ | ⟨e, _, _, _, ht⟩ | ⟨e, _, _, _, ht⟩ |
      ⟨e, _, _, _, ht, _⟩
    · rw [ht] at hcall; simp at hcall
    · rw [ht] at hcall; simp at hcall
    · exfalso
      have hk := syncWithServer_kinds env e
      rcases ht with ht | ht <;> rw [ht] at hcall
      · rcases List.mem_cons.mp hcall with h | h
        · cases h
        · have := hk _ h
          simp [Call.kind] at this
      · rcases List.mem_cons.mp hcall with h | h
        · cases h
        · rcases List.mem_append.mp h with h | h
          · have := hk _ h
            simp [Call.kind] at this
          · simp at h
    · rw [ht] at hcall ⊢
      rcases List.mem_cons.mp hcall with h | h
      · cases h
      · rcases reconcileSynced_cases env e with ⟨p, hp, hk⟩ | ⟨p, ns, hk, _, _, hp, _⟩ |
          ⟨p, opts, items, hk, _, _, hp, _⟩
        · exfalso
          rw [hp] at h
          have := hk _ h
          simp [Call.kind] at this
        · rw [hp] at h ⊢
          have hwp : writes p = [] := by
            simp only [writes, List.filter_eq_nil_iff]
            intro c hc
            rcases hk c hc with hc | hc <;> cases c <;> simp_all [Call.kind, Call.isWrite]
          rcases List.mem_append.mp h with h | h
          · exfalso
            have := hk _ h
            simp [Call.kind] at this
          · have hu := provision_nextTrial env e _ ns url h
            subst hu
            obtain ⟨e1, htr, h0, hm⟩ := provision_stopped env e _ ns d hstop h
            refine ⟨e1, ?_, h0, hm⟩
            rw [htr, writes_cons, writes_append, hwp]
            simp [writes, Call.isWrite]
        · exfalso
          rw [hp] at h
          rcases List.mem_append.mp h with h | h
          · have := hk _ h
            simp [Call.kind] at this
          · have := retire_kinds env e items _ h
            simp [Call.kind] at this
  · intro env2 e2 hget hrep hnext c hc
    have hurl := mapHas_false_mapGet _ _ hnext
    rcases Reconcile_cases env2 with ⟨⟨err, herr⟩, _⟩ | ⟨e, he, _, _, ht⟩ | ⟨e, he, _, _, ht⟩ |
      ⟨e, he, _, _, ht, _⟩
    · rw [hget] at herr; cases herr
    · rw [ht] at hc
      simp at hc
      rcases hc with rfl | rfl <;> simp [Call.kind]
    · have he2 : e = e2 := by rw [hget] at he; cases he; rfl
      subst he2
      have hk := syncWithServer_kinds env2 e
      have hcr := syncWithServer_create env2 e
      have hsync : ∀ c ∈ (syncWithServer env2 e).1,
          c.kind ≠ .NextTrial ∧ c.kind ≠ .CreateExperiment := by
        intro c hc
        refine ⟨?_, ?_⟩
        · rcases hk c hc with h | h <;> simp [h]
        · intro h
          have := (hcr c hc h).1
          omega
      rcases ht with ht | ht <;> rw [ht] at hc
      · rcases List.mem_cons.mp hc with rfl | hc
        · simp [Call.kind]
        · exact hsync c hc
      · rcases List.mem_cons.mp hc with rfl | hc
        · simp [Call.kind]
        · rcases List.mem_append.mp hc with hc | hc
          · exact hsync c hc
          · simp at hc
            subst hc
            simp [Call.kind]
    · have he2 : e = e2 := by rw [hget] at he; cases he; rfl
      subst he2
      rw [ht] at hc
      rcases List.mem_cons.mp hc with rfl | hc
      · simp [Call.kind]
      · rcases reconcileSynced_cases env2 e with ⟨p, hp, hk⟩ | ⟨p, ns, hk, hne, _, hp, _⟩ |
          ⟨p, opts, items, hk, _, _, hp, _⟩
        · rw [hp] at hc
          rcases hk c hc with h | h <;> simp [h]
        · exact absurd hurl hne
        · rw [hp] at hc
          rcases List.mem_append.mp hc with hc | hc
          · rcases hk c hc with h | h <;> simp [h]
          · rcases retire_kinds env2 e items c hc with h | h | h | h <;> simp [h]

/-- C5, witness: the server answers "experiment stopped" to the request of a
first trial. -/
theorem reconcile_stopped_experiment_witness :
    (∃ e1, writes (Reconcile stoppedEnv).trace = [Call.UpdateExperiment e1] ∧
      GetReplicas e1 = 0 ∧ mapHas e1.annotations annotationNextTrialURL = false) ∧
    (∀ (env2 : Env) (e2 : Experiment), env2.get = .ok e2 → GetReplicas e2 = 0 →
      mapHas e2.annotations annotationNextTrialURL = false →
      ∀ c ∈ (Reconcile env2).trace, c.kind ≠ .NextTrial ∧ c.kind ≠ .CreateExperiment) :=
  reconcile_stopped_experiment stoppedEnv "http://server/experiments/tuning/next" 0
    (by decide) rfl

/-- C6 (as amended). Experiment finalizer release: whenever the write of
`Reconcile` is an `Update` of the experiment that removes an occurrence of the
lifecycle finalizer, the experiment is marked for deletion, the lookup of its
experiment-URL annotation yields the empty string (the annotation is missing or
empty), the write is the swap-remove of the finalizer and nothing else, it is
the only write of the invocation, and every trial of the listing is retired: it
is marked for deletion and does not carry the lifecycle finalizer. The loop over
the trials ran to its end; the only calls it made are `ReportTrial` calls for
listed trials that are finished, and when no listed trial is finished the
invocation makes no remote call. -/
theorem reconcile_experiment_finalizer_release (env : Env) (e e1 : Experiment)
    (hget : env.get = .ok e)
    (hw : Call.UpdateExperiment e1 ∈ (Reconcile env).trace)
    (hrem : e1.finalizers.count finalizer < e.finalizers.count finalizer) :
    e.deletionTimestamp ≠ none ∧
    mapGet e.annotations annotationExperimentURL = "" ∧
    removeFinalizer e.finalizers = some e1.finalizers ∧
    e1 = { e with finalizers := e1.finalizers } ∧
    writes (Reconcile env).trace = [Call.UpdateExperiment e1] ∧
    ∃ opts items, listOptions env e = .ok opts ∧ env.listTrials opts = .ok items ∧
      (∀ t ∈ items, t.deletionTimestamp ≠ none ∧ finalizer ∉ t.finalizers) ∧
      (reconcileTrials env e 0 items).2 = none ∧
      (∀ c ∈ (Reconcile env).trace,
        c = Call.UpdateExperiment e1 ∨ c.kind = .Get ∨ c.kind = .ListTrials
          ∨ c.kind = .ListNamespaces
          ∨ ∃ t ∈ items, IsTrialFinished t = true ∧ c = reportOf env t) ∧
      ((∀ t ∈ items, IsTrialFinished t = false) →
        ∀ c ∈ (Reconcile env).trace, c.isRemote = false) := by
  obtain ⟨hdel, hurl, hfs, heq, opts, items, hopts, hitems, hall, hnone, p, hk, ht⟩ :=
    Reconcile_release env e e1 hget hw hrem
  have hret := retire_release env e items e1.finalizers hnone hdel hfs
  rw [← heq] at hret
  rw [hret] at ht
  have hrep := reconcileTrials_reports env e items 0 hnone
  have hof := reconcileTrials_reportOf env e items 0
  have hshape : ∀ c ∈ (Reconcile env).trace,
      c = Call.UpdateExperiment e1 ∨ c.kind = .Get ∨ c.kind = .ListTrials
        ∨ c.kind = .ListNamespaces
        ∨ ∃ t ∈ items, IsTrialFinished t = true ∧ c = reportOf env t := by
    intro c hc
    rw [ht] at hc
    simp only [List.mem_cons, List.mem_append, List.mem_singleton, List.not_mem_nil,
      or_false] at hc
    rcases hc with hc | hc | hc | hc
    · subst hc
      exact Or.inr (Or.inl rfl)
    · rcases hk c hc with h | h
      · exact Or.inr (Or.inr (Or.inl h))
      · exact Or.inr (Or.inr (Or.inr (Or.inl h)))
    · obtain ⟨t, hm, hfin, _, hc2⟩ := hof c hc (hrep c hc)
      exact Or.inr (Or.inr (Or.inr (Or.inr ⟨t, hm, hfin, hc2⟩)))
    · exact Or.inl hc
  refine ⟨hdel, hurl, hfs, heq, ?_, opts, items, hopts, hitems, hall, hnone, hshape, ?_⟩
  · have hwp : writes p = [] := by
      apply List.filter_eq_nil_iff.mpr
      intro c hc
      rcases hk c hc with h | h <;>
      · cases c <;> simp [Call.kind] at h
        simp [Call.isWrite]
    have hwl : writes (reconcileTrials env e 0 items).1 = [] :=
      (reconcileTrials_writes env e items 0).2 hnone
    rw [ht, writes_cons, writes_append, writes_append, hwp, hwl]
    simp [writes, Call.isWrite]
  · intro hnf c hc
    rcases hshape c hc with h | h | h | h | ⟨t, hm, hfin, _⟩
    · subst h; rfl
    · cases c <;> simp [Call.kind] at h
      rfl
    · cases c <;> simp [Call.kind] at h
      rfl
    · cases c <;> simp [Call.kind] at h
      rfl
    · rw [hnf t hm] at hfin
      cases hfin

/-- C6, witness: a deleted experiment whose linkage is cleared and whose only
trial is retired and was never finished: the finalizer is released and no remote
call is made. -/
theorem reconcile_experiment_finalizer_release_witness :
    deletingExperiment.deletionTimestamp ≠ none ∧
    mapGet deletingExperiment.annotations annotationExperimentURL = "" ∧
    removeFinalizer deletingExperiment.finalizers = some ([] : List String) ∧
    writes (Reconcile (sampleEnv deletingExperiment [retiredTrial])).trace
      = [Call.UpdateExperiment { deletingExperiment with finalizers := [] }] ∧
    (∃ opts items, listOptions (sampleEnv deletingExperiment [retiredTrial]) deletingExperiment
        = .ok opts ∧
      (sampleEnv deletingExperiment [retiredTrial]).listTrials opts = .ok items ∧
      (∀ t ∈ items, t.deletionTimestamp ≠ none ∧ finalizer ∉ t.finalizers) ∧
      (reconcileTrials (sampleEnv deletingExperiment [retiredTrial]) deletingExperiment 0
        items).2 = none ∧
      (∀ c ∈ (Reconcile (sampleEnv deletingExperiment [retiredTrial])).trace,
        c = Call.UpdateExperiment { deletingExperiment with finalizers := [] }
          ∨ c.kind = .Get ∨ c.kind = .ListTrials ∨ c.kind = .ListNamespaces
          ∨ ∃ t ∈ items, IsTrialFinished t = true
              ∧ c = reportOf (sampleEnv deletingExperiment [retiredTrial]) t) ∧
      ((∀ t ∈ items, IsTrialFinished t = false) →
        ∀ c ∈ (Reconcile (sampleEnv deletingExperiment [retiredTrial])).trace,
          c.isRemote = false)) ∧
    (∀ c ∈ (Reconcile (sampleEnv deletingExperiment [retiredTrial])).trace,
      c.isRemote = false) :=
  ⟨(reconcile_experiment_finalizer_release (sampleEnv deletingExperiment [retiredTrial])
      deletingExperiment { deletingExperiment with finalizers := [] } rfl (by decide)
      (by decide)).1,
    (reconcile_experiment_finalizer_release (sampleEnv deletingExperiment [retiredTrial])
      deletingExperiment { deletingExperiment with finalizers := [] } rfl (by decide)
      (by decide)).2.1,
    (reconcile_experiment_finalizer_release (sampleEnv deletingExperiment [retiredTrial])
      deletingExperiment { deletingExperiment with finalizers := [] } rfl (by decide)
      (by decide)).2.2.1,
    (reconcile_experiment_finalizer_release (sampleEnv deletingExperiment [retiredTrial])
      deletingExperiment { deletingExperiment with finalizers := [] } rfl (by decide)
      (by decide)).2.2.2.2.1,
    (reconcile_experiment_finalizer_release (sampleEnv deletingExperiment [retiredTrial])
      deletingExperiment { deletingExperiment with finalizers := [] } rfl (by decide)
      (by decide)).2.2.2.2.2,
    by decide⟩

/-- C6, counterexample to the claim as stated. First, the deleted experiment
lists one trial that is finished, marked for deletion and already without the
lifecycle finalizer: the invocation releases the finalizer of the experiment,
and the finished-and-deleted case of the loop still acts on that trial, which is
reported once more. Second, the experiment-URL annotation of the deleted
experiment is present with an empty value: the experiment carries the annotation
and its finalizer is released all the same. -/
theorem reconcile_release_still_reports_retired_trial :
    reportedTrial.deletionTimestamp ≠ none ∧ finalizer ∉ reportedTrial.finalizers ∧
    (Reconcile (sampleEnv deletingExperiment [reportedTrial])).trace
      = [.Get, .ListTrials (.MatchingLabels (some [("experiment", "tuning")])),
          reportOf (sampleEnv deletingExperiment [reportedTrial]) reportedTrial,
          .UpdateExperiment { deletingExperiment with finalizers := [] }] ∧
    (reportOf (sampleEnv deletingExperiment [reportedTrial]) reportedTrial).isRemote = true ∧
    mapHas blankLinkExperiment.annotations annotationExperimentURL = true ∧
    (Reconcile (sampleEnv blankLinkExperiment [])).trace
      = [.Get, .ListTrials (.MatchingLabels (some [("experiment", "tuning")])),
          .UpdateExperiment { blankLinkExperiment with finalizers := [] }] := by
  decide

/-- C7 (as amended). Finalizer before remote state, for an experiment that is
not marked for deletion: whenever `Reconcile` calls `CreateExperiment` the
experiment already carries the lifecycle finalizer; and when it does not carry
it, the invocation reads the experiment, writes it back with the finalizer
appended, and makes no remote call. -/
theorem reconcile_finalizer_before_remote_state (env : Env) (e : Experiment)
    (hget : env.get = .ok e) (hnd : e.deletionTimestamp = none) :
    (∀ c ∈ (Reconcile env).trace, c.kind = .CreateExperiment → finalizer ∈ e.finalizers) ∧
    (finalizer ∉ e.finalizers →
      (Reconcile env).trace
          = [.Get, .UpdateExperiment { e with finalizers := e.finalizers ++ [finalizer] }] ∧
        ∀ c ∈ (Reconcile env).trace, c.isRemote = false) := by
  have key : finalizer ∉ e.finalizers →
      (Reconcile env).trace
        = [.Get, .UpdateExperiment { e with finalizers := e.finalizers ++ [finalizer] }] := by
    intro hf
    have hadd := addFinalizer_adds e hnd hf
    rcases Reconcile_cases env with ⟨⟨err, herr⟩, _⟩ | ⟨e0, he, _, _, ht⟩ |
      ⟨e0, he, hadd0, _⟩ | ⟨e0, he, hadd0, _⟩
    · rw [hget] at herr; cases herr
    · have he2 : e0 = e := by rw [hget] at he; cases he; rfl
      subst he2
      exact ht
    · have he2 : e0 = e := by rw [hget] at he; cases he; rfl
      subst he2
      rw [hadd] at hadd0; cases hadd0
    · have he2 : e0 = e := by rw [hget] at he; cases he; rfl
      subst he2
      rw [hadd] at hadd0; cases hadd0
  constructor
  · intro c hc hk
    by_contra hf
    rw [key hf] at hc
    simp at hc
    rcases hc with rfl | rfl <;> simp [Call.kind] at hk
  · intro hf
    refine ⟨key hf, ?_⟩
    rw [key hf]
    intro c hc
    simp at hc
    rcases hc with rfl | rfl <;> rfl

/-- C7, witness: an experiment that has the finalizer and no recorded URL; the
remote experiment is created in this invocation. -/
theorem reconcile_finalizer_before_remote_state_witness :
    (∀ c ∈ (Reconcile (sampleEnv freshExperiment [])).trace,
      c.kind = .CreateExperiment → finalizer ∈ freshExperiment.finalizers) ∧
    (finalizer ∉ freshExperiment.finalizers →
      (Reconcile (sampleEnv freshExperiment [])).trace
          = [.Get, .UpdateExperiment
              { freshExperiment with finalizers := freshExperiment.finalizers ++ [finalizer] }] ∧
        ∀ c ∈ (Reconcile (sampleEnv freshExperiment [])).trace, c.isRemote = false) :=
  reconcile_finalizer_before_remote_state (sampleEnv freshExperiment []) freshExperiment rfl rfl

/-- C7, counterexample to the claim as stated: an experiment that is marked for
deletion and never received the lifecycle finalizer is not given one, and
`Reconcile` calls `CreateExperiment` for it. -/
theorem reconcile_creates_remote_experiment_without_finalizer :
    finalizer ∉ deletedEarlyExperiment.finalizers ∧
    Call.CreateExperiment "tuning" (copyExperimentToRemote deletedEarlyExperiment)
      ∈ (Reconcile (sampleEnv deletedEarlyExperiment [])).trace := by
  decide

/-- C8. TTL rule of `NeedsCleanup`, `now` being the current instant: it is true
if and only if the trial has no deletion marker (nil or zero timestamp), is not
active, its effective TTL is configured and non-negative, its finish time (the
latest last-transition time among its true completion, failure and
setup-deleted conditions) is not the zero instant, and finish time plus TTL
seconds is strictly before `now`. In particular it is false as long as `now` is
at most TTL seconds after the finish time. -/
theorem NeedsCleanup_ttl_rule (now : Time) (t : Trial) :
    (NeedsCleanup now t = true ↔
      timeIsZero t.deletionTimestamp = true ∧ IsTrialActive t = false ∧
      ∃ ttl, effectiveTTL t = some ttl ∧ 0 ≤ ttl ∧ finishTime t ≠ 0 ∧
        (finishTime t : Int) + ttl * second < (now : Int)) ∧
    (∀ ttl, effectiveTTL t = some ttl → (now : Int) ≤ (finishTime t : Int) + ttl * second →
      NeedsCleanup now t = false) := by
  refine ⟨NeedsCleanup_iff now t, ?_⟩
  intro ttl httl hnow
  rw [Bool.eq_false_iff]
  intro hc
  obtain ⟨_, _, ttl2, httl2, _, _, hlt⟩ := (NeedsCleanup_iff now t).mp hc
  rw [httl] at httl2
  cases httl2
  omega

/-- C9 (as amended). Effective TTL selection in `NeedsCleanup`: the loop over
the conditions selects the failure-specific TTL exactly when it is set and the
trial has a true failure condition, whether or not that condition is the latest
qualifying one; otherwise it selects the general TTL. The finish time it
computes is the latest qualifying transition time. -/
theorem NeedsCleanup_ttl_selection (t : Trial) :
    (cleanupScan t).2
      = (if t.conditions.any isTrueFailure = true ∧ t.ttlSecondsAfterFailure ≠ none then
          t.ttlSecondsAfterFailure
        else t.ttlSecondsAfterFinished) ∧
    (cleanupScan t).1 = finishTime t := by
  rw [cleanupScan_eq]
  exact ⟨rfl, rfl⟩

/-- C9, counterexample to the claim as stated: the trial failed at second 10 and
its setup was deleted at second 20, so its latest qualifying condition is the
setup-deleted one and the rule of the claim selects the general TTL (0 s); the
code selects the failure TTL (100 s), and at second 50 the trial is not yet to
be cleaned up. -/
theorem NeedsCleanup_failure_ttl_after_later_condition :
    (latestFinishCondition failedThenCleanedTrial).map (fun c => c.type)
      = some TrialConditionType.TrialSetupDeleted ∧
    ttlByLatestCondition failedThenCleanedTrial = some 0 ∧
    (cleanupScan failedThenCleanedTrial).2 = some 100 ∧
    NeedsCleanup 50000000000 failedThenCleanedTrial = false ∧
    NeedsCleanup 50000000000 { failedThenCleanedTrial with ttlSecondsAfterFailure := none }
      = true := by
  decide

/-- C10. Allocator result below capacity: `FindAvailableNamespace` returns the
first candidate namespace that is not in use, or the empty string when every
candidate is in use; the candidates are the namespace of the experiment alone
when no namespace selector is configured, and the listed namespaces in listing
order when one is; the in-use map holds exactly the effective namespaces of the
active trials; hence a returned namespace hosts no active trial. -/
theorem FindAvailableNamespace_below_capacity (r : Reader) (experiment : Experiment)
    (trials : List Trial) (h : experiment.activeTrials < GetReplicas experiment) :
    (experiment.namespaceSelector = none →
      FindAvailableNamespace r experiment trials
        = .ok (firstNotInUse trials [experiment.namespace_])) ∧
    (∀ selector items, experiment.namespaceSelector = some selector →
      r.matchingSelector selector = none → r.listNamespaces selector = .ok items →
      FindAvailableNamespace r experiment trials = .ok (firstNotInUse trials items)) ∧
    (∀ ns, FindAvailableNamespace r experiment trials = .ok ns → ns ≠ "" →
      ∀ t ∈ trials, IsTrialActive t = true → effectiveNamespace t ≠ ns) ∧
    (∀ ns, ns ∈ inuseNamespaces trials ↔
      ∃ t ∈ trials, IsTrialActive t = true ∧ effectiveNamespace t = ns) := by
  have hcap : ¬ experiment.activeTrials ≥ GetReplicas experiment := not_le.mpr h
  have h1 : experiment.namespaceSelector = none →
      FindAvailableNamespace r experiment trials
        = .ok (firstNotInUse trials [experiment.namespace_]) := by
    intro hsel
    unfold FindAvailableNamespace
    rw [if_neg hcap]
    simp only [hsel, inuseNamespaces_contains]
    unfold firstNotInUse
    by_cases hc : experiment.namespace_ ∈ inUse trials
    · simp [hc]
    · simp [hc]
  have h2 : ∀ selector items, experiment.namespaceSelector = some selector →
      r.matchingSelector selector = none → r.listNamespaces selector = .ok items →
      FindAvailableNamespace r experiment trials = .ok (firstNotInUse trials items) := by
    intro selector items hsel hm hl
    unfold FindAvailableNamespace
    rw [if_neg hcap]
    simp only [hsel, hm, hl, firstAvailable_eq]
  refine ⟨h1, h2, ?_, mem_inuseNamespaces trials⟩
  intro ns hres hne t ht hact heff
  have hfree : ns ∉ inUse trials := by
    cases hsel : experiment.namespaceSelector with
    | none =>
      rw [h1 hsel] at hres
      injection hres with hres
      exact (firstNotInUse_free trials _ ns hres hne).2
    | some selector =>
      cases hm : r.matchingSelector selector with
      | some err =>
        unfold FindAvailableNamespace at hres
        rw [if_neg hcap] at hres
        simp [hsel, hm] at hres
      | none =>
        cases hl : r.listNamespaces selector with
        | error err =>
          unfold FindAvailableNamespace at hres
          rw [if_neg hcap] at hres
          simp [hsel, hm, hl] at hres
        | ok items =>
          rw [h2 selector items hsel hm hl] at hres
          injection hres with hres
          exact (firstNotInUse_free trials _ ns hres hne).2
  apply hfree
  unfold inUse
  exact List.mem_map.mpr ⟨t, List.mem_filter.mpr ⟨ht, hact⟩, heff⟩

/-- C10, witness: a selector is configured, `default` hosts the running trial,
and `staging` is returned. -/
theorem FindAvailableNamespace_below_capacity_witness :
    FindAvailableNamespace sampleReader selectorExperiment [runningTrial] = .ok "staging" ∧
    firstNotInUse [runningTrial] ["default", "staging"] = "staging" :=
  ⟨(FindAvailableNamespace_below_capacity sampleReader selectorExperiment [runningTrial]
      (by decide)).2.1 { matchLabels := [("team", "ml")] } ["default", "staging"] rfl rfl rfl,
    by decide⟩

/-- C11 (as amended). Provisioning gate: for an experiment that has the
finalizer and needs no synchronization with the server, once the trials are
listed, `Reconcile` looks for a namespace or calls `NextTrial` only when a
next-trial URL is recorded and the number of listed trials, finished or not, is
less than the desired replicas; when that holds it looks for a namespace and, if
one is available and the owner reference can be set, calls `NextTrial`; when it
does not hold `Reconcile` goes on to the loop over the trials. -/
theorem reconcile_provisioning_gate (env : Env) (e : Experiment) (opts : ListOptions)
    (items : List Trial) (hget : env.get = .ok e) (hfin : finalizer ∈ e.finalizers)
    (hsync : (syncWithServer env e).2.2 = .Done false none)
    (hopts : listOptions env e = .ok opts) (hlist : env.listTrials opts = .ok items) :
    ((∃ c ∈ (Reconcile env).trace, c.kind = .NextTrial ∨ c.kind = .ListNamespaces) →
      provisioningGate e items) ∧
    (provisioningGate e items →
      (∃ rest, (Reconcile env).trace
        = .Get :: .ListTrials opts :: ((findAvailableNamespace env e items).1 ++ rest)) ∧
      ∀ ns refs, (findAvailableNamespace env e items).2 = .ok ns → ns ≠ "" →
        env.setControllerReference e
          (populateTrialFromTemplate env.GetDefaultLabels env.GetSelfReference e ns)
            = .ok refs →
        Call.NextTrial (mapGet e.annotations annotationNextTrialURL) ∈ (Reconcile env).trace) ∧
    (¬ provisioningGate e items →
      (Reconcile env).trace = .Get :: .ListTrials opts :: (retire env e items).trace ∧
      (Reconcile env).ret = (retire env e items).ret) := by
  obtain ⟨ht, hr⟩ := Reconcile_synced env e hget (addFinalizer_present e hfin) hsync
  have hshape := reconcileSynced_listed env e opts items hopts hlist
  refine ⟨?_, ?_, ?_⟩
  · rintro ⟨c, hc, hk⟩
    by_contra hg
    rcases hshape with ⟨hg2, _⟩ | ⟨hg2, _⟩ | ⟨hg2, _⟩ | ⟨_, ht2, _⟩
    · exact hg hg2
    · exact hg hg2
    · exact hg hg2
    · rw [ht, ht2] at hc
      simp only [List.mem_cons] at hc
      rcases hc with rfl | rfl | hc
      · simp [Call.kind] at hk
      · simp [Call.kind] at hk
      · rcases retire_kinds env e items c hc with h | h | h | h <;> rw [h] at hk <;>
          simp at hk
  · intro hg
    rcases hshape with ⟨_, calls, err, hf, ht2, _⟩ | ⟨_, calls, ns, hf, hns, ht2, _⟩ |
      ⟨_, calls, hf, ht2, _⟩ | ⟨hg2, _⟩
    · refine ⟨⟨[], by rw [ht, ht2, hf]; simp⟩, ?_⟩
      intro ns refs hres
      rw [hf] at hres
      cases hres
    · refine ⟨⟨_, by rw [ht, ht2, hf]⟩, ?_⟩
      intro ns2 refs hres hne href
      rw [hf] at hres
      simp only [Except.ok.injEq] at hres
      subst hres
      rw [ht, ht2]
      have := provision_calls_nextTrial env e
        (mapGet e.annotations annotationNextTrialURL) ns refs href
      simp [this]
    · refine ⟨⟨_, by rw [ht, ht2, hf]⟩, ?_⟩
      intro ns2 refs hres hne
      rw [hf] at hres
      simp only [Except.ok.injEq] at hres
      exact absurd hres.symm hne
    · exact absurd hg hg2
  · intro hg
    rcases hshape with ⟨hg2, _⟩ | ⟨hg2, _⟩ | ⟨hg2, _⟩ | ⟨_, ht2, hr2⟩
    · exact absurd hg2 hg
    · exact absurd hg2 hg
    · exact absurd hg2 hg
    · exact ⟨by rw [ht, ht2], by rw [hr, hr2]⟩

/-- C11, witness: no trial is listed and one replica is desired, so a first
trial is requested. -/
theorem reconcile_provisioning_gate_witness :
    provisioningGate sampleExperiment [] ∧
    Call.NextTrial (mapGet sampleExperiment.annotations annotationNextTrialURL)
      ∈ (Reconcile (sampleEnv sampleExperiment [])).trace :=
  ⟨by decide,
    ((reconcile_provisioning_gate (sampleEnv sampleExperiment []) sampleExperiment
      (.MatchingLabels (some [("experiment", "tuning")])) [] rfl (by decide) rfl rfl rfl).2.1
        (by decide)).2 "default"
      [{ kind := "Experiment", name := "tuning", namespace_ := "default" }] rfl (by decide) rfl⟩

/-- C11, counterexample to the claim as stated: the only listed trial is
finished, so no owned trial is active and one replica is desired, with a
next-trial URL recorded; the finished trial still counts, no `NextTrial` call is
made and the trial is deleted instead. -/
theorem reconcile_finished_trial_counts_against_replicas :
    activeCount [completedTrial] = 0 ∧
    (activeCount [completedTrial] : Int) < GetReplicas sampleExperiment ∧
    mapGet sampleExperiment.annotations annotationNextTrialURL ≠ "" ∧
    finalizer ∈ sampleExperiment.finalizers ∧
    (syncWithServer (sampleEnv sampleExperiment [completedTrial]) sampleExperiment).2.2
      = .Done false none ∧
    (Reconcile (sampleEnv sampleExperiment [completedTrial])).trace
      = [.Get, .ListTrials (.MatchingLabels (some [("experiment", "tuning")])),
          .DeleteTrial completedTrial] := by
  decide

/-- C12. One trial per invocation: whenever `Reconcile` calls `NextTrial` and the
call succeeds, the only write of the invocation is the `Create` of one trial,
however many replicas are missing; the created trial carries the returned
report URL in its report-trial-URL annotation and, after the assignments of the
template, one assignment for each returned assignment whose value is an
integer, in the returned order. -/
theorem reconcile_creates_one_trial (env : Env) (e : Experiment) (url : String)
    (suggestion : List ApiAssignment) (reportTrialURL : String)
    (hget : env.get = .ok e)
    (hcall : Call.NextTrial url ∈ (Reconcile env).trace)
    (hnext : env.nextTrial url = .ok (suggestion, reportTrialURL)) :
    ∃ trial, writes (Reconcile env).trace = [Call.CreateTrial trial] ∧
      (Reconcile env).ret = .Returned Result.empty (env.createTrial trial) ∧
      mapGet trial.annotations annotationReportTrialURL = reportTrialURL ∧
      trial.assignments
        = e.template.assignments ++ integerAssignments env.parseInt64 suggestion := by
  obtain ⟨e0, opts, items, calls, ns, he, _, _, _, _, _, hf, _, _, ht, hr, hmem⟩ :=
    Reconcile_nextTrial env url hcall
  have he2 : e0 = e := by rw [hget] at he; cases he; rfl
  subst he2
  obtain ⟨trial, htr, hret, hann, hasg, _⟩ :=
    (provision_outcome env e0 url ns hmem).2.2 suggestion reportTrialURL hnext
  have hk := findAvailableNamespace_kinds env e0 items
  rw [hf] at hk
  refine ⟨trial, ?_, by rw [hr, hret], hann, hasg⟩
  rw [ht, writes_reads_prefix opts calls _ hk, htr]
  simp [writes, Call.isWrite]

/-- C12, witness: three replicas are desired and no trial exists; exactly one
trial is created, with the suggested assignment `cpu = 3`. -/
theorem reconcile_creates_one_trial_witness :
    ∃ trial, writes (Reconcile (sampleEnv eagerExperiment [])).trace
        = [Call.CreateTrial trial] ∧
      (Reconcile (sampleEnv eagerExperiment [])).ret
        = .Returned Result.empty ((sampleEnv eagerExperiment []).createTrial trial) ∧
      mapGet trial.annotations annotationReportTrialURL
        = "http://server/experiments/tuning/trials/2" ∧
      trial.assignments
        = eagerExperiment.template.assignments
          ++ integerAssignments (sampleEnv eagerExperiment []).parseInt64
            [{ parameterName := "cpu", value := "3" }] :=
  reconcile_creates_one_trial (sampleEnv eagerExperiment []) eagerExperiment
    "http://server/experiments/tuning/next" [{ parameterName := "cpu", value := "3" }]
    "http://server/experiments/tuning/trials/2" rfl (by decide) rfl

/-- C13. Trial-unavailable backoff: when the `NextTrial` call of `Reconcile`
fails with `ErrTrialUnavailable` and retry delay `d`, `Reconcile` returns a
requeue result with `RequeueAfter = d` and no error, and makes no cluster write;
when it fails with an error that is neither "stopped" nor "unavailable", that
error is returned and no cluster write is made. -/
theorem reconcile_trial_unavailable (env : Env) (url : String) (err : Error)
    (hcall : Call.NextTrial url ∈ (Reconcile env).trace)
    (herr : env.nextTrial url = .error err) :
    (∀ d, err = .Api .ErrTrialUnavailable d →
      (Reconcile env).ret = .Returned { requeue := true, requeueAfter := d } none ∧
      writes (Reconcile env).trace = []) ∧
    ((∀ d, err ≠ .Api .ErrExperimentStopped d) → (∀ d, err ≠ .Api .ErrTrialUnavailable d) →
      (Reconcile env).ret = .Returned Result.empty (some err) ∧
      writes (Reconcile env).trace = []) := by
  obtain ⟨e, opts, items, calls, ns, _, _, _, _, _, _, hf, _, _, ht, hr, hmem⟩ :=
    Reconcile_nextTrial env url hcall
  have hk := findAvailableNamespace_kinds env e items
  rw [hf] at hk
  obtain ⟨h1, h2, _⟩ := provision_outcome env e url ns hmem
  constructor
  · intro d hd
    subst hd
    obtain ⟨htr, hret⟩ := h1 d herr
    refine ⟨by rw [hr, hret], ?_⟩
    rw [ht, writes_reads_prefix opts calls _ hk, htr]
    simp [writes, Call.isWrite]
  · intro hns hnu
    obtain ⟨htr, hret⟩ := h2 err herr hns hnu
    refine ⟨by rw [hr, hret], ?_⟩
    rw [ht, writes_reads_prefix opts calls _ hk, htr]
    simp [writes, Call.isWrite]

/-- C13, witness: the server asks to retry after 30 seconds. -/
theorem reconcile_trial_unavailable_witness :
    (Reconcile unavailableEnv).ret
      = .Returned { requeue := true, requeueAfter := 30000000000 } none ∧
    writes (Reconcile unavailableEnv).trace = [] :=
  (reconcile_trial_unavailable unavailableEnv "http://server/experiments/tuning/next"
    (.Api .ErrTrialUnavailable 30000000000) (by decide) rfl).1 30000000000 rfl

/-- C14 (as amended). Observation content: when the loop over the trials reaches
a finished trial that is marked for deletion and still carries the lifecycle
finalizer, `Reconcile` calls `ReportTrial` with the report-trial-URL annotation
of the trial and an observation whose values are, in order, one (metric name,
parsed number) entry for each metric value that parses as a number, and whose
failed flag is true exactly when the trial has a failure condition with status
true; when the call succeeds it removes the lifecycle finalizer from the trial
and persists the trial, as the only write of the invocation. -/
theorem reconcile_reports_finalizing_trial (env : Env) (e : Experiment) (pre : List Trial)
    (t : Trial) (rest : List Trial) (hreach : ReachesTrialLoop env e (pre ++ t :: rest))
    (hpre : (reconcileTrials env e 0 pre).2 = none)
    (hfin : IsTrialFinished t = true) (hdel : t.deletionTimestamp ≠ none)
    (hf : finalizer ∈ t.finalizers) :
    Call.ReportTrial (mapGet t.annotations annotationReportTrialURL)
        (observationOf env.parseFloat t) ∈ (Reconcile env).trace ∧
    (env.reportTrial pre.length (mapGet t.annotations annotationReportTrialURL)
        (observationOf env.parseFloat t) = none →
      ∃ fs, removeFinalizer t.finalizers = some fs ∧
        writes (Reconcile env).trace = [Call.UpdateTrial { t with finalizers := fs }] ∧
        (Reconcile env).ret
          = .Returned Result.empty (env.updateTrial { t with finalizers := fs })) := by
  obtain ⟨p, fs, hwp, hfs, hA, hB⟩ := Reconcile_finalizing env e pre t rest hreach hpre hfin hdel hf
  constructor
  · by_cases hc : env.reportTrial pre.length (mapGet t.annotations annotationReportTrialURL)
        (observationOf env.parseFloat t) ≠ none ∧ e.deletionTimestamp = none
    · rw [(hA hc).1]; simp
    · rw [(hB hc).1]; simp
  · intro hok
    have hc : ¬ (env.reportTrial pre.length (mapGet t.annotations annotationReportTrialURL)
        (observationOf env.parseFloat t) ≠ none ∧ e.deletionTimestamp = none) := by
      rintro ⟨h1, _⟩
      exact h1 hok
    refine ⟨fs, hfs, ?_, (hB hc).2⟩
    rw [(hB hc).1, writes_append, hwp]
    simp [writes, Call.isWrite]

/-- C14, witness: the completed trial with the value `latency = 12.5` is being
deleted: it is reported with the values `[(latency, 12.5)]` and `failed = false`,
then its finalizer is removed. -/
theorem reconcile_reports_finalizing_trial_witness :
    observationOf (sampleEnv sampleExperiment [finalizingTrial]).parseFloat finalizingTrial
      = { values := [{ metricName := "latency", value := { bits := 0x4029000000000000 } }]
          failed := false } ∧
    Call.ReportTrial (mapGet finalizingTrial.annotations annotationReportTrialURL)
        (observationOf (sampleEnv sampleExperiment [finalizingTrial]).parseFloat finalizingTrial)
      ∈ (Reconcile (sampleEnv sampleExperiment [finalizingTrial])).trace ∧
    ((sampleEnv sampleExperiment [finalizingTrial]).reportTrial ([] : List Trial).length
        (mapGet finalizingTrial.annotations annotationReportTrialURL)
        (observationOf (sampleEnv sampleExperiment [finalizingTrial]).parseFloat finalizingTrial)
        = none →
      ∃ fs, removeFinalizer finalizingTrial.finalizers = some fs ∧
        writes (Reconcile (sampleEnv sampleExperiment [finalizingTrial])).trace
          = [Call.UpdateTrial { finalizingTrial with finalizers := fs }] ∧
        (Reconcile (sampleEnv sampleExperiment [finalizingTrial])).ret
          = .Returned Result.empty ((sampleEnv sampleExperiment [finalizingTrial]).updateTrial
              { finalizingTrial with finalizers := fs })) :=
  ⟨by decide,
    reconcile_reports_finalizing_trial (sampleEnv sampleExperiment [finalizingTrial])
      sampleExperiment [] finalizingTrial []
      ⟨rfl, by decide, by decide, ⟨_, rfl, rfl⟩, Or.inl (by decide)⟩
      rfl (by decide) (by decide) (by decide)⟩

/-- C14, counterexample to the claim as stated: the only listed trial is
finished and marked for deletion, its report succeeds, but it no longer carries
the lifecycle finalizer: nothing is removed and nothing is written. -/
theorem reconcile_report_without_finalizer_writes_nothing :
    IsTrialFinished reportedTrial = true ∧
    reportedTrial.deletionTimestamp ≠ none ∧
    reportOf (sampleEnv sampleExperiment [reportedTrial]) reportedTrial
      ∈ (Reconcile (sampleEnv sampleExperiment [reportedTrial])).trace ∧
    (sampleEnv sampleExperiment [reportedTrial]).reportTrial 0
        (mapGet reportedTrial.annotations annotationReportTrialURL)
        (observation (sampleEnv sampleExperiment [reportedTrial]) reportedTrial) = none ∧
    writes (Reconcile (sampleEnv sampleExperiment [reportedTrial])).trace = [] := by
  decide

/-- C15 (as amended). Report failure handling: when `ReportTrial` fails for a
finished trial that is marked for deletion, still carries the lifecycle
finalizer and is reached by the loop over the trials, then, if the experiment is
not marked for deletion, `Reconcile` returns that error and writes nothing; and
if the experiment is marked for deletion, the error is dropped, the finalizer of
the trial is removed and the trial persisted as the only write, and the error
returned is that of this `Update`. -/
theorem reconcile_report_failure (env : Env) (e : Experiment) (pre : List Trial)
    (t : Trial) (rest : List Trial) (err : Error)
    (hreach : ReachesTrialLoop env e (pre ++ t :: rest))
    (hpre : (reconcileTrials env e 0 pre).2 = none)
    (hfin : IsTrialFinished t = true) (hdel : t.deletionTimestamp ≠ none)
    (hf : finalizer ∈ t.finalizers)
    (herr : env.reportTrial pre.length (mapGet t.annotations annotationReportTrialURL)
        (observationOf env.parseFloat t) = some err) :
    (e.deletionTimestamp = none →
      (Reconcile env).ret = .Returned Result.empty (some err) ∧
      writes (Reconcile env).trace = []) ∧
    (e.deletionTimestamp ≠ none →
      ∃ fs, removeFinalizer t.finalizers = some fs ∧
        writes (Reconcile env).trace = [Call.UpdateTrial { t with finalizers := fs }] ∧
        (Reconcile env).ret
          = .Returned Result.empty (env.updateTrial { t with finalizers := fs })) := by
  obtain ⟨p, fs, hwp, hfs, hA, hB⟩ := Reconcile_finalizing env e pre t rest hreach hpre hfin hdel hf
  constructor
  · intro hnd
    have hc : env.reportTrial pre.length (mapGet t.annotations annotationReportTrialURL)
        (observationOf env.parseFloat t) ≠ none ∧ e.deletionTimestamp = none :=
      ⟨by rw [herr]; simp, hnd⟩
    refine ⟨by rw [(hA hc).2, herr], ?_⟩
    rw [(hA hc).1, writes_append, hwp]
    simp [writes, Call.isWrite]
  · intro hd
    have hc : ¬ (env.reportTrial pre.length (mapGet t.annotations annotationReportTrialURL)
        (observationOf env.parseFloat t) ≠ none ∧ e.deletionTimestamp = none) := by
      rintro ⟨_, h2⟩
      exact hd h2
    refine ⟨fs, hfs, ?_, (hB hc).2⟩
    rw [(hB hc).1, writes_append, hwp]
    simp [writes, Call.isWrite]

/-- C15, witness: the server rejects the report of the finalizing trial of an
experiment that is not being deleted: the error is returned, nothing is
written. -/
theorem reconcile_report_failure_witness :
    (Reconcile rejectingEnv).ret
      = .Returned Result.empty (some (Error.Generic "report rejected")) ∧
    writes (Reconcile rejectingEnv).trace = [] :=
  (reconcile_report_failure rejectingEnv sampleExperiment [] finalizingTrial []
    (.Generic "report rejected")
    ⟨rfl, by decide, by decide, ⟨_, rfl, rfl⟩, Or.inl (by decide)⟩
    rfl (by decide) (by decide) (by decide) rfl).1 rfl

/-- C15, counterexample to the claim as stated: the experiment is being deleted
and the report of its finished, deletion-marked trial fails, but the trial no
longer carries the lifecycle finalizer: the trial is not written, and the only
write is the release of the finalizer of the experiment. -/
theorem reconcile_report_failure_without_finalizer :
    IsTrialFinished reportedTrial = true ∧
    reportedTrial.deletionTimestamp ≠ none ∧
    deletingExperiment.deletionTimestamp ≠ none ∧
    reportOf rejectingDeletionEnv reportedTrial ∈ (Reconcile rejectingDeletionEnv).trace ∧
    rejectingDeletionEnv.reportTrial 0
        (mapGet reportedTrial.annotations annotationReportTrialURL)
        (observation rejectingDeletionEnv reportedTrial) ≠ none ∧
    writes (Reconcile rejectingDeletionEnv).trace
      = [Call.UpdateExperiment { deletingExperiment with finalizers := [] }] := by
  decide

/-- C16, the code at the failing input: the experiment has no annotation set (nil
map), asks for one replica and has no recorded URL; `CreateExperiment` is called
and succeeds, and the write of the experiment URL into the nil map stops
`syncWithServer`, and `Reconcile` with it, on a runtime failure: nothing is
recorded and nothing is persisted. -/
theorem syncWithServer_nil_annotations :
    bareExperiment.annotations = none ∧
    GetReplicas bareExperiment > 0 ∧
    mapGet bareExperiment.annotations annotationExperimentURL = "" ∧
    syncWithServer (sampleEnv bareExperiment []) bareExperiment
      = ([Call.CreateExperiment "tuning" (copyExperimentToRemote bareExperiment)],
          bareExperiment, SyncResult.Panic) ∧
    (Reconcile (sampleEnv bareExperiment [])).ret = Return.Panic ∧
    writes (Reconcile (sampleEnv bareExperiment [])).trace = [] := by
  decide

/-- C17. Remote deletion is never blocking: for an experiment marked for
deletion with a recorded experiment URL, whatever the collaborators answer,
`syncWithServer` makes one call, `DeleteExperiment` with that URL, removes the
experiment-URL and next-trial-URL annotations, sets the desired replicas to 0,
reports a change and returns no error. -/
theorem syncWithServer_deletion (env : Env) (e : Experiment)
    (hdel : e.deletionTimestamp ≠ none)
    (hurl : mapGet e.annotations annotationExperimentURL ≠ "") :
    ∃ e1, syncWithServer env e
        = ([Call.DeleteExperiment (mapGet e.annotations annotationExperimentURL)], e1,
            SyncResult.Done true none) ∧
      mapHas e1.annotations annotationExperimentURL = false ∧
      mapHas e1.annotations annotationNextTrialURL = false ∧
      GetReplicas e1 = 0 ∧ e1.finalizers = e.finalizers ∧
      e1.deletionTimestamp = e.deletionTimestamp := by
  have h1 : ¬ (GetReplicas e > 0 ∧ mapGet e.annotations annotationExperimentURL = "") :=
    fun h => hurl h.2
  have h2 : e.deletionTimestamp ≠ none ∧ mapGet e.annotations annotationExperimentURL ≠ "" :=
    ⟨hdel, hurl⟩
  refine ⟨SetReplicas
      { e with
        annotations :=
          mapDelete (mapDelete e.annotations annotationExperimentURL) annotationNextTrialURL }
      0, ?_, ?_, ?_, ?_, rfl, rfl⟩
  · unfold syncWithServer
    simp only []
    rw [if_neg h1, if_pos h2]
    split <;> rfl
  · exact mapHas_mapDelete_of_false _ _ _ (mapHas_mapDelete _ _)
  · exact mapHas_mapDelete _ _
  · simp [GetReplicas, SetReplicas]

/-- C17, witness: the synchronized experiment once its deletion is requested, with
a server that answers. -/
theorem syncWithServer_deletion_witness :
    ∃ e1, syncWithServer (sampleEnv deleteRequestedExperiment []) deleteRequestedExperiment
        = ([Call.DeleteExperiment
              (mapGet deleteRequestedExperiment.annotations annotationExperimentURL)], e1,
            SyncResult.Done true none) ∧
      mapHas e1.annotations annotationExperimentURL = false ∧
      mapHas e1.annotations annotationNextTrialURL = false ∧
      GetReplicas e1 = 0 ∧ e1.finalizers = deleteRequestedExperiment.finalizers ∧
      e1.deletionTimestamp = deleteRequestedExperiment.deletionTimestamp :=
  syncWithServer_deletion (sampleEnv deleteRequestedExperiment []) deleteRequestedExperiment
    (by decide) (by decide)

/-- C18 (as amended). The materializers keep the identity fields of the
template: every field among name, generate-name, namespace, labels, annotations
and owning-experiment reference that the template set has the same value in the
materialized trial, for the materializer of the controller and for the one of
`helpers.go`. The target namespace of the template is kept only when it is not
overwritten, that is when one replica is desired, no namespace selector is
configured and the template specifies no namespace. -/
theorem materializer_keeps_template_identity (gdl : Experiment → StringMap)
    (gsr : Experiment → ObjectReference) (now1 now2 : Time) (e : Experiment) (ns : String) :
    KeepsTemplateIdentity e.template (populateTrialFromTemplate gdl gsr e ns) ∧
    KeepsTemplateIdentity e.template (PopulateTrialFromTemplate gdl gsr now1 now2 e ns) ∧
    (¬ overwritesTargetNamespace e →
      (populateTrialFromTemplate gdl gsr e ns).targetNamespace = e.template.targetNamespace ∧
      (PopulateTrialFromTemplate gdl gsr now1 now2 e ns).targetNamespace
        = e.template.targetNamespace) := by
  have h1 := populateTrialFromTemplate_materialized gdl gsr e ns
  have h2 := PopulateTrialFromTemplate_materialized gdl gsr now1 now2 e ns
  refine ⟨MaterializedFrom_keeps gdl gsr e ns _ h1, MaterializedFrom_keeps gdl gsr e ns _ h2, ?_⟩
  intro hc
  exact ⟨by rw [h1.1, if_neg hc], by rw [h2.1, if_neg hc]⟩

/-- C18, counterexample to the claim as stated: the template sets the target
namespace `custom` and two replicas are desired; both materializers replace it
by the chosen namespace `default`. -/
theorem materializer_overwrites_target_namespace :
    pinnedExperiment.template.targetNamespace = "custom" ∧
    (populateTrialFromTemplate (sampleEnv pinnedExperiment []).GetDefaultLabels
      (sampleEnv pinnedExperiment []).GetSelfReference pinnedExperiment "default").targetNamespace
      = "default" ∧
    (PopulateTrialFromTemplate (sampleEnv pinnedExperiment []).GetDefaultLabels
      (sampleEnv pinnedExperiment []).GetSelfReference 1700000000000000000
      1700000000000000000 pinnedExperiment "default").targetNamespace = "default" := by
  decide

/-- C19. Target-namespace rule, for both materializers: the target namespace of
the materialized trial is the chosen namespace when more than one replica is
desired, or a namespace selector is configured, or the template specifies a
namespace; otherwise it is the target namespace of the template. Hence, unless
the template already names the chosen namespace as its target, the target
namespace is the chosen namespace if and only if one of the three conditions
holds. -/
theorem materializer_target_namespace (gdl : Experiment → StringMap)
    (gsr : Experiment → ObjectReference) (now1 now2 : Time) (e : Experiment) (ns : String) :
    (overwritesTargetNamespace e →
      (populateTrialFromTemplate gdl gsr e ns).targetNamespace = ns ∧
      (PopulateTrialFromTemplate gdl gsr now1 now2 e ns).targetNamespace = ns) ∧
    (¬ overwritesTargetNamespace e →
      (populateTrialFromTemplate gdl gsr e ns).targetNamespace = e.template.targetNamespace ∧
      (PopulateTrialFromTemplate gdl gsr now1 now2 e ns).targetNamespace
        = e.template.targetNamespace) ∧
    (e.template.targetNamespace ≠ ns →
      ((populateTrialFromTemplate gdl gsr e ns).targetNamespace = ns
        ↔ overwritesTargetNamespace e) ∧
      ((PopulateTrialFromTemplate gdl gsr now1 now2 e ns).targetNamespace = ns
        ↔ overwritesTargetNamespace e)) := by
  have h1 := (populateTrialFromTemplate_materialized gdl gsr e ns).1
  have h2 := (PopulateTrialFromTemplate_materialized gdl gsr now1 now2 e ns).1
  refine ⟨?_, ?_, ?_⟩
  · intro hc
    exact ⟨by rw [h1, if_pos hc], by rw [h2, if_pos hc]⟩
  · intro hc
    exact ⟨by rw [h1, if_neg hc], by rw [h2, if_neg hc]⟩
  · intro hne
    constructor
    · constructor
      · intro h
        by_contra hc
        rw [h1, if_neg hc] at h
        exact hne h
      · intro hc
        rw [h1, if_pos hc]
    · constructor
      · intro h
        by_contra hc
        rw [h2, if_neg hc] at h
        exact hne h
      · intro hc
        rw [h2, if_pos hc]

/-- C20 (as amended). Name defaulting, for both materializers, when the template
sets no trial name: the namespace of the trial is the namespace of the template
if it sets one, else the chosen namespace; when it differs from the namespace of
the experiment the name of the trial is the name of the experiment; when it is
the namespace of the experiment the name stays empty and the generate-name is
the name of the experiment followed by "-", unless the template set a
generate-name, which is kept. -/
theorem materializer_name_defaulting (gdl : Experiment → StringMap)
    (gsr : Experiment → ObjectReference) (now1 now2 : Time) (e : Experiment) (ns : String)
    (hname : e.template.name = "") :
    (populateTrialFromTemplate gdl gsr e ns).namespace_ = trialNamespace e ns ∧
    (PopulateTrialFromTemplate gdl gsr now1 now2 e ns).namespace_ = trialNamespace e ns ∧
    (e.template.namespace_ = "" → trialNamespace e ns = ns) ∧
    (trialNamespace e ns ≠ e.namespace_ →
      (populateTrialFromTemplate gdl gsr e ns).name = e.name ∧
      (PopulateTrialFromTemplate gdl gsr now1 now2 e ns).name = e.name) ∧
    (trialNamespace e ns = e.namespace_ →
      (populateTrialFromTemplate gdl gsr e ns).name = "" ∧
      (PopulateTrialFromTemplate gdl gsr now1 now2 e ns).name = "" ∧
      (populateTrialFromTemplate gdl gsr e ns).generateName
        = (if e.template.generateName = "" then e.name ++ "-" else e.template.generateName) ∧
      (PopulateTrialFromTemplate gdl gsr now1 now2 e ns).generateName
        = (if e.template.generateName = "" then e.name ++ "-"
            else e.template.generateName)) ∧
    (e.name ≠ "" →
      ((populateTrialFromTemplate gdl gsr e ns).name = e.name
        ↔ trialNamespace e ns ≠ e.namespace_) ∧
      ((PopulateTrialFromTemplate gdl gsr now1 now2 e ns).name = e.name
        ↔ trialNamespace e ns ≠ e.namespace_)) := by
  obtain ⟨_, a2, a3, a4, _⟩ := populateTrialFromTemplate_materialized gdl gsr e ns
  obtain ⟨_, b2, b3, b4, _⟩ := PopulateTrialFromTemplate_materialized gdl gsr now1 now2 e ns
  rw [if_pos hname] at a3 b3
  refine ⟨a2, b2, ?_, ?_, ?_, ?_⟩
  · intro h
    unfold trialNamespace
    rw [if_pos h]
  · intro hne
    exact ⟨by rw [a3, if_pos hne], by rw [b3, if_pos hne]⟩
  · intro heq
    have hn : ¬ trialNamespace e ns ≠ e.namespace_ := fun h => h heq
    refine ⟨by rw [a3, if_neg hn], by rw [b3, if_neg hn], ?_, ?_⟩
    · rw [a4]
      by_cases hg : e.template.generateName = ""
      · rw [if_pos ⟨hname, heq, hg⟩, if_pos hg]
      · rw [if_neg (fun h => hg h.2.2), if_neg hg]
    · rw [b4]
      by_cases hg : e.template.generateName = ""
      · rw [if_pos ⟨hname, heq, hg⟩, if_pos hg]
      · rw [if_neg (fun h => hg h.2.2), if_neg hg]
  · intro hen
    constructor
    · rw [a3]
      constructor
      · intro h
        by_contra hc
        rw [if_neg (fun hn => hn hc)] at h
        exact hen h.symm
      · intro hc
        rw [if_pos hc]
    · rw [b3]
      constructor
      · intro h
        by_contra hc
        rw [if_neg (fun hn => hn hc)] at h
        exact hen h.symm
      · intro hc
        rw [if_pos hc]

/-- C20, witness: the template sets nothing and the chosen namespace is the
namespace of the experiment: the trial gets no name and the generate-name
`tuning-`. -/
theorem materializer_name_defaulting_witness :
    (populateTrialFromTemplate (sampleEnv sampleExperiment []).GetDefaultLabels
      (sampleEnv sampleExperiment []).GetSelfReference sampleExperiment "default").name = "" ∧
    (populateTrialFromTemplate (sampleEnv sampleExperiment []).GetDefaultLabels
      (sampleEnv sampleExperiment []).GetSelfReference sampleExperiment "default").generateName
      = "tuning-" :=
  ⟨((materializer_name_defaulting (sampleEnv sampleExperiment []).GetDefaultLabels
      (sampleEnv sampleExperiment []).GetSelfReference 0 0 sampleExperiment "default"
      rfl).2.2.2.2.1 (by decide)).1,
    by decide⟩

/-- C20, counterexample to the claim as stated: the template sets no name and
puts the trials in the namespace `staging`; the chosen namespace `default` is
the namespace of the experiment, yet the trial is named after the experiment
and gets no generate-name. -/
theorem materializer_names_trial_in_template_namespace :
    placedExperiment.template.name = "" ∧
    placedExperiment.namespace_ = "default" ∧
    (populateTrialFromTemplate (sampleEnv placedExperiment []).GetDefaultLabels
      (sampleEnv placedExperiment []).GetSelfReference placedExperiment "default").name
      = "tuning" ∧
    (populateTrialFromTemplate (sampleEnv placedExperiment []).GetDefaultLabels
      (sampleEnv placedExperiment []).GetSelfReference placedExperiment "default").generateName
      = "" ∧
    (PopulateTrialFromTemplate (sampleEnv placedExperiment []).GetDefaultLabels
      (sampleEnv placedExperiment []).GetSelfReference 1700000000000000000
      1700000000000000000 placedExperiment "default").name = "tuning" := by
  decide

/-- C19, counterexample to the claim as stated: one replica is desired, no
namespace selector is configured and the template specifies no namespace, but
the template names `default` as target namespace; the target namespace of the
materialized trial is the chosen namespace `default` although none of the three
conditions holds. -/
theorem materializer_target_is_chosen_without_condition :
    ¬ overwritesTargetNamespace selfTargetExperiment ∧
    (populateTrialFromTemplate (sampleEnv selfTargetExperiment []).GetDefaultLabels
      (sampleEnv selfTargetExperiment []).GetSelfReference selfTargetExperiment
      "default").targetNamespace = "default" ∧
    (PopulateTrialFromTemplate (sampleEnv selfTargetExperiment []).GetDefaultLabels
      (sampleEnv selfTargetExperiment []).GetSelfReference 1700000000000000000
      1700000000000000000 selfTargetExperiment "default").targetNamespace = "default" := by
  decide

/-- C21 (as amended). Finalizer from creation: for every experiment and chosen
namespace, the trial produced by `populateTrialFromTemplate` of the controller
has a finalizer list consisting of the finalizers of the template followed by
the lifecycle finalizer, so every trial that `Reconcile` creates carries the
finalizer from creation. The exported `PopulateTrialFromTemplate` of
`helpers.go` appends nothing: its trial has exactly the finalizers of the
template. -/
theorem materializer_appends_finalizer (gdl : Experiment → StringMap)
    (gsr : Experiment → ObjectReference) (now1 now2 : Time) (e : Experiment) (ns : String)
    (env : Env) (trial : Trial)
    (hcreate : Call.CreateTrial trial ∈ (Reconcile env).trace) :
    (populateTrialFromTemplate gdl gsr e ns).finalizers
      = e.template.finalizers ++ [finalizer] ∧
    (∃ e0, env.get = .ok e0 ∧ trial.finalizers = e0.template.finalizers ++ [finalizer]) ∧
    finalizer ∈ trial.finalizers ∧
    (PopulateTrialFromTemplate gdl gsr now1 now2 e ns).finalizers = e.template.finalizers := by
  obtain ⟨e0, hget, hfin⟩ := Reconcile_createTrial env trial hcreate
  refine ⟨(populateTrialFromTemplate_fields gdl gsr e ns).2.2, ⟨e0, hget, hfin⟩, ?_,
    PopulateTrialFromTemplate_finalizers gdl gsr now1 now2 e ns⟩
  rw [hfin]
  simp

/-- C21, witness: three replicas are desired and no trial exists; the trial
created for the suggestion `cpu = 3` carries the lifecycle finalizer. -/
theorem materializer_appends_finalizer_witness :
    Call.CreateTrial createdTrial ∈ (Reconcile (sampleEnv eagerExperiment [])).trace ∧
    (populateTrialFromTemplate (sampleEnv eagerExperiment []).GetDefaultLabels
        (sampleEnv eagerExperiment []).GetSelfReference eagerExperiment "default").finalizers
      = eagerExperiment.template.finalizers ++ [finalizer] ∧
    (∃ e0, (sampleEnv eagerExperiment []).get = .ok e0 ∧
      createdTrial.finalizers = e0.template.finalizers ++ [finalizer]) ∧
    finalizer ∈ createdTrial.finalizers ∧
    (PopulateTrialFromTemplate (sampleEnv eagerExperiment []).GetDefaultLabels
        (sampleEnv eagerExperiment []).GetSelfReference 0 0 eagerExperiment "default").finalizers
      = eagerExperiment.template.finalizers :=
  ⟨by decide,
    materializer_appends_finalizer (sampleEnv eagerExperiment []).GetDefaultLabels
      (sampleEnv eagerExperiment []).GetSelfReference 0 0 eagerExperiment "default"
      (sampleEnv eagerExperiment []) createdTrial (by decide)⟩

/-- C21, counterexample to the claim as stated: the trial that the exported
`PopulateTrialFromTemplate` of `helpers.go` produces for the experiment
`default/tuning` in the namespace `default` has no finalizer at all, while the
one of the controller has the lifecycle finalizer. -/
theorem helpers_materializer_appends_no_finalizer :
    (PopulateTrialFromTemplate (sampleEnv sampleExperiment []).GetDefaultLabels
        (sampleEnv sampleExperiment []).GetSelfReference 0 0 sampleExperiment "default").finalizers
      = [] ∧
    finalizer ∉ (PopulateTrialFromTemplate (sampleEnv sampleExperiment []).GetDefaultLabels
        (sampleEnv sampleExperiment []).GetSelfReference 0 0 sampleExperiment
        "default").finalizers ∧
    ExperimentFinalizer ∉ (PopulateTrialFromTemplate
        (sampleEnv sampleExperiment []).GetDefaultLabels
        (sampleEnv sampleExperiment []).GetSelfReference 0 0 sampleExperiment
        "default").finalizers ∧
    (populateTrialFromTemplate (sampleEnv sampleExperiment []).GetDefaultLabels
        (sampleEnv sampleExperiment []).GetSelfReference sampleExperiment "default").finalizers
      = [finalizer] := by
  decide

/-- C22. Idempotent finalizer add: for an experiment that already has the
lifecycle finalizer, or that is marked for deletion, `addFinalizer` returns
false and leaves the experiment unchanged, the call that `Reconcile` makes after
reading the experiment is not a write, and no experiment that the invocation
writes has more occurrences of the finalizer than the experiment read; for an
experiment not marked for deletion and without the finalizer, `addFinalizer`
appends it once and returns true, and `Reconcile` persists exactly that
experiment; applying `addFinalizer` a second time changes nothing. -/
theorem addFinalizer_idempotent (env : Env) (e : Experiment) (hget : env.get = .ok e) :
    ((finalizer ∈ e.finalizers ∨ e.deletionTimestamp ≠ none) →
      addFinalizer e = (e, false) ∧
      (∃ rest, (Reconcile env).trace = .Get :: rest ∧
        ∀ c, rest.head? = some c → c.isWrite = false) ∧
      (∀ e1, Call.UpdateExperiment e1 ∈ (Reconcile env).trace →
        e1.finalizers.count finalizer ≤ e.finalizers.count finalizer)) ∧
    ((finalizer ∉ e.finalizers ∧ e.deletionTimestamp = none) →
      addFinalizer e = ({ e with finalizers := e.finalizers ++ [finalizer] }, true) ∧
      (addFinalizer e).1.finalizers.count finalizer = 1 ∧
      (Reconcile env).trace
        = [.Get, .UpdateExperiment { e with finalizers := e.finalizers ++ [finalizer] }] ∧
      (Reconcile env).ret
        = .Returned Result.empty
            (env.updateExperiment { e with finalizers := e.finalizers ++ [finalizer] })) ∧
    addFinalizer (addFinalizer e).1 = ((addFinalizer e).1, false) := by
  refine ⟨?_, ?_, ?_⟩
  · intro h
    have hadd : (addFinalizer e).2 = false := by
      rcases h with h | h
      · exact addFinalizer_present e h
      · unfold addFinalizer
        rw [if_pos h]
    refine ⟨?_, Reconcile_after_read env e hget hadd, ?_⟩
    · exact Prod.ext (addFinalizer_unchanged e hadd) hadd
    · intro e1 h1
      exact Reconcile_never_readds env e e1 hget hadd h1
  · rintro ⟨hf, hd⟩
    have hadd := addFinalizer_adds e hd hf
    obtain ⟨_, _, h3⟩ := addFinalizer_changed e hadd
    refine ⟨Prod.ext h3 hadd, ?_, ?_, ?_⟩
    · rw [h3]
      simp [List.count_append, List.count_eq_zero_of_not_mem hf]
    · unfold Reconcile
      simp only [hget, hadd, if_true, h3]
    · unfold Reconcile
      simp only [hget, hadd, if_true, h3]
  · have h2 : (addFinalizer (addFinalizer e).1).2 = false := by
      by_cases hd : e.deletionTimestamp = none
      · by_cases hf : finalizer ∈ e.finalizers
        · rw [addFinalizer_unchanged e (addFinalizer_present e hf)]
          exact addFinalizer_present e hf
        · obtain ⟨_, _, h3⟩ := addFinalizer_changed e (addFinalizer_adds e hd hf)
          apply addFinalizer_present
          rw [h3]
          simp
      · have hadd : (addFinalizer e).2 = false := by
          unfold addFinalizer
          rw [if_pos hd]
        rw [addFinalizer_unchanged e hadd]
        exact hadd
    exact Prod.ext (addFinalizer_unchanged _ h2) h2

/-- C22, witness: the synchronized experiment `default/tuning` has the
finalizer and is left as it is; the experiment just created gets the finalizer,
which `Reconcile` persists, and a second `addFinalizer` changes nothing. -/
theorem addFinalizer_idempotent_witness :
    addFinalizer sampleExperiment = (sampleExperiment, false) ∧
    addFinalizer newExperiment = (registeredExperiment, true) ∧
    (Reconcile (sampleEnv newExperiment [])).trace
      = [.Get, .UpdateExperiment registeredExperiment] ∧
    addFinalizer (addFinalizer newExperiment).1 = ((addFinalizer newExperiment).1, false) :=
  ⟨((addFinalizer_idempotent (sampleEnv sampleExperiment []) sampleExperiment rfl).1
      (Or.inl (by decide))).1,
    ((addFinalizer_idempotent (sampleEnv newExperiment []) newExperiment rfl).2.1
      ⟨by decide, by decide⟩).1,
    ((addFinalizer_idempotent (sampleEnv newExperiment []) newExperiment rfl).2.1
      ⟨by decide, by decide⟩).2.2.1,
    (addFinalizer_idempotent (sampleEnv newExperiment []) newExperiment rfl).2.2⟩

/-- C23. Delete before report: when the loop over the trials reaches a trial
that is finished and has no deletion marker, the only write of `Reconcile` is
the `Delete` of that trial, as it was listed, and the result of the `Delete` is
returned; no trial is updated, so no finalizer is modified, and every
`ReportTrial` call of the invocation was made for an earlier trial of the list;
when the earlier trials triggered no action, `Reconcile` makes no `ReportTrial`
call and no other remote call, and apart from its reads of the cluster its only
call is the `Delete`. -/
theorem reconcile_deletes_finished_trial (env : Env) (e : Experiment) (pre : List Trial)
    (t : Trial) (rest : List Trial) (hreach : ReachesTrialLoop env e (pre ++ t :: rest))
    (hpre : (reconcileTrials env e 0 pre).2 = none)
    (hfin : IsTrialFinished t = true) (hdel : t.deletionTimestamp = none) :
    writes (Reconcile env).trace = [Call.DeleteTrial t] ∧
    (Reconcile env).ret = .Returned Result.empty (env.deleteTrial t) ∧
    (∀ t1, Call.UpdateTrial t1 ∉ (Reconcile env).trace) ∧
    (∀ c ∈ (Reconcile env).trace, c.isReport = true → c ∈ (reconcileTrials env e 0 pre).1) ∧
    ((reconcileTrials env e 0 pre).1 = [] →
      (∀ c ∈ (Reconcile env).trace, c.isReport = false ∧ c.isRemote = false) ∧
      ∃ p, (∀ c ∈ p, c.kind = .Get ∨ c.kind = .ListTrials ∨ c.kind = .ListNamespaces) ∧
        (Reconcile env).trace = p ++ [Call.DeleteTrial t]) := by
  obtain ⟨p, hp, ht, hr⟩ := Reconcile_deleting env e pre t rest hreach hpre hfin hdel
  have hw : writes (reconcileTrials env e 0 pre).1 = [] :=
    (reconcileTrials_writes env e pre 0).2 hpre
  have hrep := reconcileTrials_reports env e pre 0 hpre
  have hpk : ∀ c ∈ p, c.isReport = false ∧ c.isRemote = false ∧ c.isWrite = false := by
    intro c hc
    rcases hp c hc with hk | hk | hk <;>
    · cases c <;> simp [Call.kind] at hk
      exact ⟨rfl, rfl, rfl⟩
  refine ⟨?_, hr, ?_, ?_, ?_⟩
  · rw [ht, writes_append, writes_append, writes_of_reads p hp, hw]
    rfl
  · intro t1 hmem
    rw [ht] at hmem
    simp only [List.mem_append, List.mem_singleton] at hmem
    rcases hmem with hmem | hmem | hmem
    · have := (hpk _ hmem).2.2
      simp [Call.isWrite] at this
    · have := hrep _ hmem
      simp [Call.kind] at this
    · cases hmem
  · intro c hmem hc
    rw [ht] at hmem
    simp only [List.mem_append, List.mem_singleton] at hmem
    rcases hmem with hmem | hmem | hmem
    · rw [(hpk _ hmem).1] at hc
      cases hc
    · exact hmem
    · subst hmem
      simp [Call.isReport] at hc
  · intro hnil
    rw [hnil] at ht
    simp only [List.nil_append] at ht
    refine ⟨?_, p, hp, ht⟩
    intro c hmem
    rw [ht] at hmem
    simp only [List.mem_append, List.mem_singleton] at hmem
    rcases hmem with hmem | hmem
    · exact ⟨(hpk _ hmem).1, (hpk _ hmem).2.1⟩
    · subst hmem
      exact ⟨rfl, rfl⟩

/-- C23, witness: the experiment `default/tuning` has a running trial and a
completed one without deletion marker; the running trial triggers no action and
the completed one is deleted, with no report. -/
theorem reconcile_deletes_finished_trial_witness :
    (Reconcile (sampleEnv sampleExperiment [runningTrial, completedTrial])).trace
      = [.Get, .ListTrials (.MatchingLabels (some [("experiment", "tuning")])),
          .DeleteTrial completedTrial] ∧
    writes (Reconcile (sampleEnv sampleExperiment [runningTrial, completedTrial])).trace
      = [Call.DeleteTrial completedTrial] ∧
    (∀ c ∈ (Reconcile (sampleEnv sampleExperiment [runningTrial, completedTrial])).trace,
      c.isReport = false ∧ c.isRemote = false) :=
  ⟨by decide,
    (reconcile_deletes_finished_trial (sampleEnv sampleExperiment [runningTrial, completedTrial])
      sampleExperiment [runningTrial] completedTrial []
      ⟨rfl, by decide, by decide, ⟨_, rfl, rfl⟩, Or.inl (by decide)⟩
      (by decide) (by decide) (by decide)).1,
    ((reconcile_deletes_finished_trial
      (sampleEnv sampleExperiment [runningTrial, completedTrial])
      sampleExperiment [runningTrial] completedTrial []
      ⟨rfl, by decide, by decide, ⟨_, rfl, rfl⟩, Or.inl (by decide)⟩
      (by decide) (by decide) (by decide)).2.2.2.2 (by decide)).1⟩

/-- C24. Finalizer removal is "set minus one element": when the lifecycle
finalizer occurs in a finalizer list, the swap-remove yields a permutation of
the list without one occurrence of it: the length drops by one, every other
finalizer keeps its multiplicity and the lifecycle finalizer loses one
occurrence; when it does not occur, nothing is removed. Every `Update` of a
trial that `Reconcile` issues persists a listed trial that carried the finalizer,
with the list so shortened, and a trial marked for deletion without the
finalizer causes no write at its step of the loop; the release step of the
experiment issues its `Update`, of the experiment with the list so shortened,
exactly when the experiment is marked for deletion and carries the finalizer. -/
theorem removeFinalizer_set_minus_one (env : Env) (e : Experiment) (fs : List String) :
    (finalizer ∈ fs →
      ∃ fs1, removeFinalizer fs = some fs1 ∧ fs1.Perm (fs.erase finalizer) ∧
        fs1.length + 1 = fs.length ∧ (∀ x, x ≠ finalizer → fs1.count x = fs.count x) ∧
        fs1.count finalizer + 1 = fs.count finalizer) ∧
    (finalizer ∉ fs → removeFinalizer fs = none) ∧
    (∀ t1, Call.UpdateTrial t1 ∈ (Reconcile env).trace →
      ∃ t : Trial, finalizer ∈ t.finalizers ∧ removeFinalizer t.finalizers = some t1.finalizers ∧
        t1 = { t with finalizers := t1.finalizers }) ∧
    (∀ (t : Trial) (rest : List Trial) (i : Nat),
      t.deletionTimestamp ≠ none → finalizer ∉ t.finalizers →
      ∀ c ∈ (reconcileTrials env e i (t :: rest)).1, c.isWrite = true →
        c ∈ (reconcileTrials env e (i + 1) rest).1) ∧
    ((e.deletionTimestamp ≠ none ∧ finalizer ∈ e.finalizers) →
      ∃ fs1, removeFinalizer e.finalizers = some fs1 ∧
        (releaseFinalizer env e).trace = [.UpdateExperiment { e with finalizers := fs1 }]) ∧
    (¬ (e.deletionTimestamp ≠ none ∧ finalizer ∈ e.finalizers) →
      (releaseFinalizer env e).trace = []) := by
  refine ⟨?_, (removeFinalizer_eq_none fs).mpr, ?_, ?_, ?_, ?_⟩
  · intro hmem
    obtain ⟨fs1, h1⟩ := removeFinalizer_of_mem fs hmem
    obtain ⟨_, h2, h3, h4, h5⟩ := removeFinalizer_some fs fs1 h1
    exact ⟨fs1, h1, h2, h3, h4, h5⟩
  · intro t1 hmem
    obtain ⟨e0, _, _, _, _, _, hm2⟩ := Reconcile_mem_synced env _ hmem (by simp [Call.kind])
    have hret : ∀ its, Call.UpdateTrial t1 ∈ (retire env e0 its).trace →
        ∃ t : Trial, finalizer ∈ t.finalizers ∧ removeFinalizer t.finalizers = some t1.finalizers ∧
          t1 = { t with finalizers := t1.finalizers } := by
      intro its hm
      obtain ⟨⟨t, _, _, hrm, heq⟩, _⟩ := retire_update env e0 t1 its hm
      exact ⟨t, (removeFinalizer_some _ _ hrm).1, hrm, heq⟩
    rcases reconcileSynced_shape env e0 with ⟨err, _, ht, _⟩ | ⟨o, err, _, _, ht, _⟩ |
      ⟨o, its, _, _, hcase⟩
    · rw [ht] at hm2; simp at hm2
    · rw [ht] at hm2; simp at hm2
    · have hk := findAvailableNamespace_kinds env e0 its
      rcases hcase with ⟨_, calls, err, hf, ht, _⟩ | ⟨_, calls, ns, hf, _, ht, _⟩ |
        ⟨_, calls, hf, ht, _⟩ | ⟨_, ht, _⟩
      · rw [ht] at hm2
        rw [hf] at hk
        simp only [List.mem_cons] at hm2
        rcases hm2 with hm2 | hm2
        · cases hm2
        · have := hk _ hm2
          simp [Call.kind] at this
      · rw [ht] at hm2
        rw [hf] at hk
        simp only [List.mem_cons, List.mem_append] at hm2
        rcases hm2 with hm2 | hm2 | hm2
        · cases hm2
        · have := hk _ hm2
          simp [Call.kind] at this
        · have := provision_kinds env e0 _ ns _ hm2
          simp [Call.kind] at this
      · rw [ht] at hm2
        rw [hf] at hk
        simp only [List.mem_cons, List.mem_append] at hm2
        rcases hm2 with hm2 | hm2 | hm2
        · cases hm2
        · have := hk _ hm2
          simp [Call.kind] at this
        · exact hret its hm2
      · rw [ht] at hm2
        simp only [List.mem_cons] at hm2
        rcases hm2 with hm2 | hm2
        · cases hm2
        · exact hret its hm2
  · intro t rest i hdel hnf c hc hw
    have hnone := (removeFinalizer_eq_none t.finalizers).mpr hnf
    unfold reconcileTrials at hc
    simp only [hdel, hnone, if_false, if_true, ne_eq, not_false_eq_true] at hc
    split_ifs at hc
    · simp only [List.mem_singleton] at hc
      subst hc
      cases hw
    · simp only [List.mem_cons] at hc
      rcases hc with hc | hc
      · subst hc
        cases hw
      · exact hc
    · exact hc
  · rintro ⟨hd, hf⟩
    obtain ⟨fs1, h1⟩ := removeFinalizer_of_mem _ hf
    refine ⟨fs1, h1, ?_⟩
    unfold releaseFinalizer
    simp [hd, h1]
  · intro hn
    unfold releaseFinalizer
    split_ifs with hd
    · have hnf : finalizer ∉ e.finalizers := fun hf => hn ⟨hd, hf⟩
      rw [(removeFinalizer_eq_none _).mpr hnf]
    · rfl

/-- C24, witness: from the list `a`, lifecycle finalizer, `b`, `c` the
swap-remove yields `a`, `c`, `b`; from a list without the lifecycle finalizer it
removes nothing; the finalizing trial is persisted without its finalizer. -/
theorem removeFinalizer_set_minus_one_witness :
    removeFinalizer ["a", finalizer, "b", "c"] = some ["a", "c", "b"] ∧
    (∃ fs1, removeFinalizer ["a", finalizer, "b", "c"] = some fs1 ∧
      fs1.Perm (["a", finalizer, "b", "c"].erase finalizer) ∧
      fs1.length + 1 = ["a", finalizer, "b", "c"].length ∧
      (∀ x, x ≠ finalizer → fs1.count x = ["a", finalizer, "b", "c"].count x) ∧
      fs1.count finalizer + 1 = ["a", finalizer, "b", "c"].count finalizer) ∧
    removeFinalizer ["foregroundDeletion"] = none ∧
    (∃ t : Trial, finalizer ∈ t.finalizers ∧
      removeFinalizer t.finalizers = some ({ finalizingTrial with finalizers := [] }).finalizers ∧
      { finalizingTrial with finalizers := [] }
        = { t with finalizers := ({ finalizingTrial with finalizers := [] }).finalizers }) :=
  ⟨by decide,
    (removeFinalizer_set_minus_one (sampleEnv sampleExperiment [finalizingTrial])
      sampleExperiment ["a", finalizer, "b", "c"]).1 (by decide),
    (removeFinalizer_set_minus_one (sampleEnv sampleExperiment [finalizingTrial])
      sampleExperiment ["foregroundDeletion"]).2.1 (by decide),
    (removeFinalizer_set_minus_one (sampleEnv sampleExperiment [finalizingTrial])
      sampleExperiment []).2.2.1 { finalizingTrial with finalizers := [] } (by decide)⟩

/-- C25, the code on an experiment without annotation set: when the experiment
read has no annotation set (nil map), needs no finalizer, desires at least one
replica, and `CreateExperiment` succeeds, then `syncWithServer` stops on a
runtime failure at the write of the experiment URL, after the remote experiment
was created: no URL is recorded, and `Reconcile` stops with it, having written
nothing. The second half of the claim holds: the provisioning block never stops
on a runtime failure, the annotation set of a materialized trial is never
missing. -/
theorem syncWithServer_missing_annotation_set (env : Env) (e : Experiment) (ee : ApiExperiment)
    (hget : env.get = .ok e) (hadd : (addFinalizer e).2 = false)
    (hnil : e.annotations = none) (hrep : GetReplicas e > 0)
    (hcreate : env.createExperiment e.name (copyExperimentToRemote e) = .ok ee) :
    syncWithServer env e
      = ([.CreateExperiment e.name (copyExperimentToRemote e)], e, .Panic) ∧
    (Reconcile env).trace = [.Get, .CreateExperiment e.name (copyExperimentToRemote e)] ∧
    (Reconcile env).ret = .Panic ∧
    writes (Reconcile env).trace = [] ∧
    (∀ (e2 : Experiment) (url ns : String),
      (populateTrialFromTemplate env.GetDefaultLabels env.GetSelfReference e2 ns).annotations
          ≠ none ∧
        (provision env e2 url ns).ret ≠ .Panic) := by
  have hsync : syncWithServer env e
      = ([.CreateExperiment e.name (copyExperimentToRemote e)], e, .Panic) := by
    unfold syncWithServer
    have hurl : mapGet e.annotations annotationExperimentURL = "" := by
      rw [hnil]; rfl
    simp only []
    rw [if_pos ⟨hrep, hurl⟩, hcreate]
    simp only [hnil]
  have htrace : (Reconcile env).trace
        = [.Get, .CreateExperiment e.name (copyExperimentToRemote e)] ∧
      (Reconcile env).ret = .Panic := by
    unfold Reconcile
    simp only [hget, hadd, addFinalizer_unchanged e hadd, hsync]
    exact ⟨rfl, rfl⟩
  refine ⟨hsync, htrace.1, htrace.2, ?_, ?_⟩
  · rw [htrace.1]
    rfl
  · intro e2 url ns
    refine ⟨?_, provision_no_panic env e2 url ns⟩
    rw [(populateTrialFromTemplate_fields env.GetDefaultLabels env.GetSelfReference e2 ns).1]
    split_ifs with hc
    · simp
    · exact hc

/-- C25, witness: the experiment `default/tuning` has the finalizer, no explicit
replica count and no annotation set; the server creates the remote experiment
and `Reconcile` stops on the runtime failure. -/
theorem syncWithServer_missing_annotation_set_witness :
    registeredExperiment.annotations = none ∧
    GetReplicas registeredExperiment = 1 ∧
    syncWithServer (sampleEnv registeredExperiment []) registeredExperiment
      = ([.CreateExperiment "tuning" (copyExperimentToRemote registeredExperiment)],
          registeredExperiment, .Panic) ∧
    (Reconcile (sampleEnv registeredExperiment [])).ret = .Panic :=
  ⟨rfl, rfl,
    (syncWithServer_missing_annotation_set (sampleEnv registeredExperiment [])
      registeredExperiment _ rfl (by decide) rfl (by decide) rfl).1,
    (syncWithServer_missing_annotation_set (sampleEnv registeredExperiment [])
      registeredExperiment _ rfl (by decide) rfl (by decide) rfl).2.2.1⟩

end Redsky
